import Mathlib

/-!
Verification development for the in-memory postings index
(`tsdb/index/postings.go` of the repository): the `MemPostings` store,
the `Postings` iterator variants (`ListPostings`, `BigEndianPostings`),
the set-algebra operators (`Intersect`, `Merge`, `Without`) and
`ShardedPostings`.

Conventions of the embedding:
* `storage.SeriesRef` (a uint64) is modelled as `Nat`; no arithmetic in the
  translated code can overflow (only comparisons and copies occur).
* Go `error` is modelled as `Option String` (`none` = nil).
* A stateful method `func (it *T) Next() bool` becomes a pure function
  `T → Bool × T` returning the flag and the updated receiver.
* The Go `Postings` interface (Next/Seek/At/Err) becomes a record `PIter α`
  of the four methods over a state type `α`; composite iterators are
  parametrised by such a record exactly as the Go composites hold interface
  values.
* Loops whose termination depends on the conformance of the inputs
  (`intersectPostings.doNext`, `mergedPostings.Next`, `removedPostings.Next`)
  take an explicit fuel argument; every theorem about them supplies (and
  proves sufficient) an explicit fuel bound.
-/

/-- The Go `Postings` interface: `Next`, `Seek`, `At`, `Err`
(src/unnamed/part_011 lines 392-406), as a record of the four methods over a
state type `α`.  `Next` and `Seek` return the Go boolean result together with
the mutated receiver. -/
structure PIter (α : Type) where
  Next : α → Bool × α
  Seek : Nat → α → Bool × α
  At : α → Nat
  Err : α → Option String

/-- `ListPostings` (lines 733-737): a plain list of series references plus the
current position `cur`. -/
structure ListPostings where
  list : List Nat
  cur : Nat
deriving DecidableEq, Repr

/-- `newListPostings` (line 743): wraps a slice, `cur` starts at the zero
value. -/
def newListPostings (l : List Nat) : ListPostings := ⟨l, 0⟩

/-- `ListPostings.At` (line 747). -/
def ListPostings.At (it : ListPostings) : Nat := it.cur

/-- `ListPostings.Next` (lines 751-759): pop the head if the list is
non-empty, otherwise reset `cur` to 0 and report failure. -/
def ListPostings.Next (it : ListPostings) : Bool × ListPostings :=
  match it.list with
  | x :: xs => (true, ⟨xs, x⟩)
  | [] => (false, ⟨[], 0⟩)

/-- The binary search of `ListPostings.Seek` (lines 770-773) by its
`sort.Search` contract: the first element `≥ x` of the (ascending) list,
together with the elements after it. -/
def searchGE (x : Nat) : List Nat → Option (Nat × List Nat)
  | [] => none
  | y :: ys => if x ≤ y then some (y, ys) else searchGE x ys

/-- `ListPostings.Seek` (lines 761-781): no-op when `cur` already satisfies
the target, failure on an empty remainder, otherwise search the remainder for
the first element `≥ x`; on failure the remainder is dropped (`it.list = nil`)
and `cur` is left unchanged. -/
def ListPostings.Seek (x : Nat) (it : ListPostings) : Bool × ListPostings :=
  if it.cur ≥ x then (true, it)
  else if it.list.isEmpty then (false, it)
  else
    match searchGE x it.list with
    | some (y, ys) => (true, ⟨ys, y⟩)
    | none => (false, ⟨[], it.cur⟩)

/-- `ListPostings.Err` (lines 783-785): always nil. -/
def ListPostings.Err (_ : ListPostings) : Option String := none

/-- The `Postings` interface dictionary of `ListPostings`. -/
def lpIter : PIter ListPostings :=
  ⟨ListPostings.Next, ListPostings.Seek, ListPostings.At, ListPostings.Err⟩

/-- `BigEndianPostings` (lines 787-792): a byte stream of big-endian 32-bit
numbers plus the current decoded value. -/
structure BigEndianPostings where
  list : List Nat
  cur : Nat
deriving DecidableEq, Repr

/-- `binary.BigEndian.Uint32` on the first four bytes. -/
def beUint32 (b0 b1 b2 b3 : Nat) : Nat := ((b0 * 256 + b1) * 256 + b2) * 256 + b3

/-- `BigEndianPostings.At` (lines 798-800). -/
def BigEndianPostings.At (it : BigEndianPostings) : Nat := it.cur

/-- `BigEndianPostings.Next` (lines 802-809): decode the next 4 bytes if at
least 4 remain. -/
def BigEndianPostings.Next (it : BigEndianPostings) : Bool × BigEndianPostings :=
  match it.list with
  | b0 :: b1 :: b2 :: b3 :: rest => (true, ⟨rest, beUint32 b0 b1 b2 b3⟩)
  | _ => (false, it)

/-- The binary search of `BigEndianPostings.Seek` (lines 816-825) by its
`sort.Search` contract: the first 4-byte group decoding to a value `≥ x`,
returned together with the bytes after that group. -/
def beSearchGE (x : Nat) : List Nat → Option (Nat × List Nat)
  | b0 :: b1 :: b2 :: b3 :: rest =>
    let v := beUint32 b0 b1 b2 b3
    if v ≥ x then some (v, rest) else beSearchGE x rest
  | _ => none

/-- `BigEndianPostings.Seek` (lines 811-829). -/
def BigEndianPostings.Seek (x : Nat) (it : BigEndianPostings) : Bool × BigEndianPostings :=
  if it.cur ≥ x then (true, it)
  else
    match beSearchGE x it.list with
    | some (v, rest) => (true, ⟨rest, v⟩)
    | none => (false, ⟨[], it.cur⟩)

/-- `BigEndianPostings.Err` (lines 831-833): always nil. -/
def BigEndianPostings.Err (_ : BigEndianPostings) : Option String := none

/-- The `Postings` interface dictionary of `BigEndianPostings`. -/
def beIter : PIter BigEndianPostings :=
  ⟨BigEndianPostings.Next, BigEndianPostings.Seek, BigEndianPostings.At, BigEndianPostings.Err⟩

/-- Modelled from the Postings interface contract (lines 392-406): an
arbitrary conforming input iterator that yields the values of `list` in order
and then terminates carrying the error `failErr` (as `errPostings`
does, lines 408-416, which is the special case `list = []`).  Used to
quantify over inputs of the composite operators that fail with an error. -/
structure FaultyPostings where
  list : List Nat
  failErr : Option String
  cur : Nat
deriving DecidableEq, Repr

def FaultyPostings.At (it : FaultyPostings) : Nat := it.cur

def FaultyPostings.Next (it : FaultyPostings) : Bool × FaultyPostings :=
  match it.list with
  | x :: xs => (true, ⟨xs, it.failErr, x⟩)
  | [] => (false, it)

def FaultyPostings.Seek (x : Nat) (it : FaultyPostings) : Bool × FaultyPostings :=
  if it.cur ≥ x then (true, it)
  else
    match searchGE x it.list with
    | some (y, ys) => (true, ⟨ys, it.failErr, y⟩)
    | none => (false, ⟨[], it.failErr, it.cur⟩)

def FaultyPostings.Err (it : FaultyPostings) : Option String := it.failErr

/-- The `Postings` interface dictionary of `FaultyPostings`. -/
def fpIter : PIter FaultyPostings :=
  ⟨FaultyPostings.Next, FaultyPostings.Seek, FaultyPostings.At, FaultyPostings.Err⟩

/-- `ExpandPostings` (lines 384-390) restricted to the produced values: drain
the iterator by repeated `Next`, collecting `At` after every success.  The
fuel bounds the number of `Next` calls. -/
def expandP {α : Type} (I : PIter α) : Nat → α → List Nat
  | 0, _ => []
  | fuel + 1, s =>
    match I.Next s with
    | (true, s') => I.At s' :: expandP I fuel s'
    | (false, _) => []

/-! ### Intersect (lines 439-510) -/

/-- `intersectPostings` (lines 457-460): the input iterators and the running
candidate `cur`. -/
structure intersectPostings (α : Type) where
  arr : List α
  cur : Nat
deriving DecidableEq, Repr

/-- Outcome of one pass of the labelled `Loop` of
`intersectPostings.doNext` (lines 470-484) over `arr`: some `Seek` failed,
some input moved past the candidate (restart the loop with the larger
candidate), or every input agreed on the candidate. In every case the
partially-updated `arr` is carried along, exactly as the Go loop mutates the
interface values in place. -/
inductive SweepOut (α : Type) where
  | fail (arr : List α)
  | restart (c : Nat) (arr : List α)
  | done (arr : List α)

/-- One pass of the inner `for _, p := range it.arr` of `doNext`
(lines 473-481). -/
def intersectSweep {α : Type} (I : PIter α) (cur : Nat) : List α → SweepOut α
  | [] => .done []
  | p :: rest =>
    match I.Seek cur p with
    | (false, p') => .fail (p' :: rest)
    | (true, p') =>
      if I.At p' > cur then .restart (I.At p') (p' :: rest)
      else
        match intersectSweep I cur rest with
        | .fail a => .fail (p' :: a)
        | .restart c a => .restart c (p' :: a)
        | .done a => .done (p' :: a)

/-- `intersectPostings.doNext` (lines 470-484): run sweeps until one fails or
converges; the fuel bounds the number of `continue Loop` restarts. -/
def intersectDoNext {α : Type} (I : PIter α) : Nat → intersectPostings α → Bool × intersectPostings α
  | fuel, it =>
    match intersectSweep I it.cur it.arr with
    | .fail a => (false, ⟨a, it.cur⟩)
    | .done a => (true, ⟨a, it.cur⟩)
    | .restart c a =>
      match fuel with
      | 0 => (false, ⟨a, c⟩)
      | fuel' + 1 => intersectDoNext I fuel' ⟨a, c⟩

/-- The first loop of `intersectPostings.Next` (lines 487-494): advance every
input one step, folding the maximum `At` into `cur`; stop at the first failed
`Next` (the remaining inputs are not advanced). -/
def intersectAdvance {α : Type} (I : PIter α) : List α → Nat → Bool × List α × Nat
  | [], cur => (true, [], cur)
  | p :: rest, cur =>
    match I.Next p with
    | (false, p') => (false, p' :: rest, cur)
    | (true, p') =>
      let cur' := if I.At p' > cur then I.At p' else cur
      let o := intersectAdvance I rest cur'
      (o.1, p' :: o.2.1, o.2.2)

/-- `intersectPostings.Next` (lines 486-496). -/
def intersectNext {α : Type} (I : PIter α) (fuel : Nat) (it : intersectPostings α) :
    Bool × intersectPostings α :=
  match intersectAdvance I it.arr it.cur with
  | (false, a, c) => (false, ⟨a, c⟩)
  | (true, a, c) => intersectDoNext I fuel ⟨a, c⟩

/-- `intersectPostings.Seek` (lines 498-501): set `cur` to the target and
converge. -/
def intersectSeek {α : Type} (I : PIter α) (fuel : Nat) (id : Nat) (it : intersectPostings α) :
    Bool × intersectPostings α :=
  intersectDoNext I fuel ⟨it.arr, id⟩

/-- `intersectPostings.At` (lines 466-468). -/
def intersectAt {α : Type} (it : intersectPostings α) : Nat := it.cur

/-- `intersectPostings.Err` (lines 503-510): the first non-nil input error in
argument order. -/
def intersectErr {α : Type} (I : PIter α) : List α → Option String
  | [] => none
  | p :: rest => match I.Err p with
    | some e => some e
    | none => intersectErr I rest

/-- The `Postings` interface dictionary of `intersectPostings` (the fuel is
fixed per dictionary; theorems choose it large enough). -/
def ipIter {α : Type} (I : PIter α) (fuel : Nat) : PIter (intersectPostings α) :=
  ⟨intersectNext I fuel, intersectSeek I fuel, intersectAt, fun it => intersectErr I it.arr⟩

/-- Result of the `Intersect` constructor (lines 441-455): the
`EmptyPostings()` sentinel, a pass-through of the single argument, or a
composite.  Arguments are `Option α` with `none` standing for the identity of
the `emptyPostings` sentinel that line 449 compares against. -/
inductive IntersectOut (α : Type) where
  | emptyO
  | single (x : Option α)
  | inter (s : intersectPostings α)

/-- `Intersect` (lines 441-455). -/
def Intersect {α : Type} : List (Option α) → IntersectOut α
  | [] => .emptyO
  | [x] => .single x
  | its =>
    if its.any (fun p => p.isNone) then .emptyO
    else .inter ⟨its.filterMap id, 0⟩

/-- Expansion of an `IntersectOut` over `ListPostings` inputs. -/
def expandIntersectOut (fuel : Nat) : IntersectOut ListPostings → List Nat
  | .emptyO => []
  | .single none => []
  | .single (some lp) => expandP lpIter fuel lp
  | .inter s => expandP (ipIter lpIter fuel) fuel s

/-! ### Merge (lines 512-645) -/

/-- `postingsHeap` (lines 528-544) is Go's `container/heap` over the inputs
keyed by `At` (`Less i j = h[i].At() < h[j].At()`).  The `container/heap`
package itself is outside the repository; we model its contract (the root
`h[0]` is a minimum; `Init` establishes the order, `Fix` repairs it after the
root's key changed, `Pop` removes the root) by keeping the slice fully sorted
by key: insertion realizes `Init`/`Fix`, dropping the head realizes `Pop`. -/
def heapInsert {α : Type} (I : PIter α) (x : α) : List α → List α
  | [] => [x]
  | y :: ys => if I.At x ≤ I.At y then x :: y :: ys else y :: heapInsert I x ys

/-- `heap.Init` (line 580) under the sorted-list realization. -/
def heapInit {α : Type} (I : PIter α) (l : List α) : List α :=
  l.foldr (heapInsert I) []

/-- `mergedPostings` (lines 546-551). -/
structure mergedPostings (α : Type) where
  h : List α
  initialized : Bool
  cur : Nat
  err : Option String
deriving DecidableEq, Repr

/-- The loop of `newMergedPostings` (lines 553-571): issue the initial `Next`
on every input; drop inputs that are exhausted without error; return the
error of the first input that fails its first `Next` with a non-nil error
(discarding the heap built so far, as the early `return` does). -/
def newMergedGather {α : Type} (I : PIter α) : List α → List α × Option String
  | [] => ([], none)
  | it :: rest =>
    match I.Next it with
    | (true, it') =>
      match newMergedGather I rest with
      | (ph, none) => (it' :: ph, none)
      | (_, some e) => ([], some e)
    | (false, it') =>
      match I.Err it' with
      | some e => ([], some e)
      | none => newMergedGather I rest

/-- `newMergedPostings` (lines 553-571); `none` is the `(nil, false)` return
that makes `Merge` produce the empty sentinel. -/
def newMergedPostings {α : Type} (I : PIter α) (p : List α) : Option (mergedPostings α) :=
  match newMergedGather I p with
  | (_, some e) => some ⟨[], false, 0, some e⟩
  | (ph, none) => if ph.isEmpty then none else some ⟨ph, false, 0, none⟩

/-- The `for` loop of `mergedPostings.Next` (lines 586-606): advance the heap
root; on exhaustion pop it (propagating a non-nil error), otherwise re-heapify;
deliver as soon as the root's value differs from `cur`. -/
def mergedNextLoop {α : Type} (I : PIter α) : Nat → Nat → List α → Bool × Nat × List α × Option String
  | 0, cur, h => (false, cur, h, none)
  | fuel + 1, cur, h =>
    match h with
    | [] => (false, cur, h, none)
    | top :: rest =>
      match I.Next top with
      | (false, top') =>
        match I.Err top' with
        | some e => (false, cur, rest, some e)
        | none =>
          match rest with
          | [] => (false, cur, [], none)
          | x :: _ => if I.At x ≠ cur then (true, I.At x, rest, none)
                      else mergedNextLoop I fuel cur rest
      | (true, top') =>
        match heapInsert I top' rest with
        | [] => (false, cur, [], none)
        | x :: xs => if I.At x ≠ cur then (true, I.At x, x :: xs, none)
                     else mergedNextLoop I fuel cur (x :: xs)

/-- `mergedPostings.Next` (lines 573-607). -/
def mergedNext {α : Type} (I : PIter α) (fuel : Nat) (m : mergedPostings α) :
    Bool × mergedPostings α :=
  if m.h.isEmpty || !(m.err == none) then (false, m)
  else if !m.initialized then
    match heapInit I m.h with
    | [] => (false, m)
    | x :: xs => (true, ⟨x :: xs, true, I.At x, m.err⟩)
  else
    match mergedNextLoop I fuel m.cur m.h with
    | (ok, cur', h', e) => (ok, ⟨h', true, cur', if e == none then m.err else e⟩)

/-- The `for it.cur < id` loop of `mergedPostings.Seek` (lines 618-635); the
loop guard is tested before any fuel is consumed. -/
def mergedSeekLoop {α : Type} (I : PIter α) : Nat → Nat → Nat → List α → Bool × Nat × List α × Option String
  | 0, id, cur, h =>
    if cur < id then (false, cur, h, none) else (true, cur, h, none)
  | fuel' + 1, id, cur, h =>
    if cur < id then
      match h with
      | [] => (false, cur, h, none)
      | top :: rest =>
        match I.Seek id top with
        | (false, top') =>
          match I.Err top' with
          | some e => (false, cur, rest, some e)
          | none =>
            match rest with
            | [] => (false, cur, [], none)
            | x :: _ => mergedSeekLoop I fuel' id (I.At x) rest
        | (true, top') =>
          match heapInsert I top' rest with
          | [] => (false, cur, [], none)
          | x :: xs => mergedSeekLoop I fuel' id (I.At x) (x :: xs)
    else (true, cur, h, none)

/-- `mergedPostings.Seek` (lines 609-637). -/
def mergedSeek {α : Type} (I : PIter α) (fuel : Nat) (id : Nat) (m : mergedPostings α) :
    Bool × mergedPostings α :=
  if m.h.isEmpty || !(m.err == none) then (false, m)
  else
    match (if m.initialized then (true, m) else mergedNext I fuel m) with
    | (false, m') => (false, m')
    | (true, m') =>
      match mergedSeekLoop I fuel id m'.cur m'.h with
      | (ok, cur', h', e) => (ok, ⟨h', true, cur', if e == none then m'.err else e⟩)

/-- `mergedPostings.At` (lines 639-641). -/
def mergedAt {α : Type} (m : mergedPostings α) : Nat := m.cur

/-- `mergedPostings.Err` (lines 643-645). -/
def mergedErr {α : Type} (m : mergedPostings α) : Option String := m.err

/-- The `Postings` interface dictionary of `mergedPostings`. -/
def mpIter {α : Type} (I : PIter α) (fuel : Nat) : PIter (mergedPostings α) :=
  ⟨mergedNext I fuel, mergedSeek I fuel, mergedAt, mergedErr⟩

/-- Result of the `Merge` constructor (lines 512-526). -/
inductive MergeOut (α : Type) where
  | emptyO
  | single (x : α)
  | m (mp : mergedPostings α)

/-- `Merge` (lines 512-526). -/
def Merge {α : Type} (I : PIter α) : List α → MergeOut α
  | [] => .emptyO
  | [x] => .single x
  | its =>
    match newMergedPostings I its with
    | none => .emptyO
    | some mp => .m mp

/-- Expansion of a `MergeOut` over `ListPostings` inputs. -/
def expandMergeOut (fuel : Nat) : MergeOut ListPostings → List Nat
  | .emptyO => []
  | .single x => expandP lpIter fuel x
  | .m mp => expandP (mpIter lpIter fuel) fuel mp

/-! ### Without (lines 647-731) -/

/-- `removedPostings` (lines 660-667). -/
structure removedPostings (α : Type) where
  full : α
  remove : α
  cur : Nat
  initialized : Bool
  fok : Bool
  rok : Bool
deriving DecidableEq, Repr

/-- `newRemovedPostings` (lines 669-674). -/
def newRemovedPostings {α : Type} (full remove : α) : removedPostings α :=
  ⟨full, remove, 0, false, false, false⟩

/-- The `for` loop of `removedPostings.Next` (lines 686-710): fail when
`full` is exhausted; stream `full` when `remove` is exhausted; otherwise
deliver, seek `remove` forward, or skip a matching value. -/
def removedNextLoop {α : Type} (I : PIter α) : Nat → removedPostings α → Bool × removedPostings α
  | 0, rp =>
    if !rp.fok then (false, rp)
    else if !rp.rok then
      let r := I.Next rp.full
      (true, { rp with cur := I.At rp.full, full := r.2, fok := r.1 })
    else
      let fcur := I.At rp.full
      let rcur := I.At rp.remove
      if fcur < rcur then
        let r := I.Next rp.full
        (true, { rp with cur := fcur, full := r.2, fok := r.1 })
      else (false, rp)
  | fuel' + 1, rp =>
    if !rp.fok then (false, rp)
    else if !rp.rok then
      let r := I.Next rp.full
      (true, { rp with cur := I.At rp.full, full := r.2, fok := r.1 })
    else
      let fcur := I.At rp.full
      let rcur := I.At rp.remove
      if fcur < rcur then
        let r := I.Next rp.full
        (true, { rp with cur := fcur, full := r.2, fok := r.1 })
      else if rcur < fcur then
        let r := I.Seek fcur rp.remove
        removedNextLoop I fuel' { rp with remove := r.2, rok := r.1 }
      else
        let r := I.Next rp.full
        removedNextLoop I fuel' { rp with full := r.2, fok := r.1 }

/-- The one-time initialization of `removedPostings.Next` (lines 681-685):
issue the first `Next` on both inputs. -/
def rpInit {α : Type} (I : PIter α) (rp : removedPostings α) : removedPostings α :=
  if rp.initialized then rp
  else
    let rf := I.Next rp.full
    let rr := I.Next rp.remove
    { rp with full := rf.2, fok := rf.1, remove := rr.2, rok := rr.1, initialized := true }

/-- `removedPostings.Next` (lines 680-711), including the one-time
initialization. -/
def removedNext {α : Type} (I : PIter α) (fuel : Nat) (rp : removedPostings α) :
    Bool × removedPostings α :=
  removedNextLoop I fuel (rpInit I rp)

/-- `removedPostings.Seek` (lines 713-723). -/
def removedSeek {α : Type} (I : PIter α) (fuel : Nat) (id : Nat) (rp : removedPostings α) :
    Bool × removedPostings α :=
  if rp.cur ≥ id then (true, rp)
  else
    let rf := I.Seek id rp.full
    let rr := I.Seek id rp.remove
    removedNext I fuel
      { rp with full := rf.2, fok := rf.1, remove := rr.2, rok := rr.1, initialized := true }

/-- `removedPostings.At` (lines 676-678). -/
def removedAt {α : Type} (rp : removedPostings α) : Nat := rp.cur

/-- `removedPostings.Err` (lines 725-731): `full`'s error first, then
`remove`'s. -/
def removedErr {α : Type} (I : PIter α) (rp : removedPostings α) : Option String :=
  match I.Err rp.full with
  | some e => some e
  | none => I.Err rp.remove

/-- The `Postings` interface dictionary of `removedPostings`. -/
def rpIter {α : Type} (I : PIter α) (fuel : Nat) : PIter (removedPostings α) :=
  ⟨removedNext I fuel, removedSeek I fuel, removedAt, removedErr I⟩

/-- Result of the `Without` constructor (lines 649-658). -/
inductive WithoutOut (α : Type) where
  | emptyO
  | passthrough (x : α)
  | rem (s : removedPostings α)

/-- `Without` (lines 649-658); `none` stands for the identity of the
`emptyPostings` sentinel. -/
def Without {α : Type} : Option α → Option α → WithoutOut α
  | none, _ => .emptyO
  | some full, none => .passthrough full
  | some full, some drop => .rem (newRemovedPostings full drop)

/-- Expansion of a `WithoutOut` over `ListPostings` inputs. -/
def expandWithoutOut (fuel : Nat) : WithoutOut ListPostings → List Nat
  | .emptyO => []
  | .passthrough x => expandP lpIter fuel x
  | .rem s => expandP (rpIter lpIter fuel) fuel s

/-! ### ShardedPostings (lines 842-908) -/

/-- `ShardedPostings` (lines 842-846). -/
structure ShardedPostings (α : Type) where
  p : α
  minOffset : Nat
  maxOffset : Nat
  initialized : Bool
deriving DecidableEq, Repr

/-- `NewShardedPostings` (lines 855-862) after the offset table returned the
bounds `[minOffset, maxOffset)`. -/
def NewShardedPostings {α : Type} (p : α) (minOffset maxOffset : Nat) : ShardedPostings α :=
  ⟨p, minOffset, maxOffset, false⟩

/-- `ShardedPostings.Seek` (lines 890-898): reject a target at or past
`maxOffset`, clamp it up to `minOffset`, then delegate. -/
def shardedSeek {α : Type} (I : PIter α) (v : Nat) (sp : ShardedPostings α) :
    Bool × ShardedPostings α :=
  if v ≥ sp.maxOffset then (false, sp)
  else
    let v' := if v < sp.minOffset then sp.minOffset else v
    let r := I.Seek v' sp.p
    (r.1, { sp with p := r.2 })

/-- `ShardedPostings.Next` (lines 865-886): on the first call advance the
inner iterator once and delegate to `Seek 0`; afterwards advance and reject a
value at or past `maxOffset`. -/
def shardedNext {α : Type} (I : PIter α) (sp : ShardedPostings α) :
    Bool × ShardedPostings α :=
  if !sp.initialized then
    let sp := { sp with initialized := true }
    match I.Next sp.p with
    | (false, p') => (false, { sp with p := p' })
    | (true, p') => shardedSeek I 0 { sp with p := p' }
  else
    match I.Next sp.p with
    | (false, p') => (false, { sp with p := p' })
    | (true, p') =>
      if I.At p' ≥ sp.maxOffset then (false, { sp with p := p' })
      else (true, { sp with p := p' })

/-- `ShardedPostings.At` (lines 901-903). -/
def shardedAt {α : Type} (I : PIter α) (sp : ShardedPostings α) : Nat := I.At sp.p

/-- `ShardedPostings.Err` (lines 906-908). -/
def shardedErr {α : Type} (I : PIter α) (sp : ShardedPostings α) : Option String := I.Err sp.p

/-- The `Postings` interface dictionary of `ShardedPostings`. -/
def spIter {α : Type} (I : PIter α) : PIter (ShardedPostings α) :=
  ⟨shardedNext I, shardedSeek I, shardedAt I, shardedErr I⟩

/-! ### MemPostings (lines 44-382) -/

/-- `labels.Label`: a (name, value) pair of strings. -/
structure Label where
  Name : String
  Value : String
deriving DecidableEq, Repr

/-- `allPostingsKey` (line 27): the reserved label with empty name and
value. -/
def allPostingsKey : Label := ⟨"", ""⟩

/-- Go map lookup on an association-list model of a map. -/
def lookupA {β : Type} (k : String) : List (String × β) → Option β
  | [] => none
  | (k', x) :: rest => if k' = k then some x else lookupA k rest

/-- Go map assignment on an association-list model of a map. -/
def setA {β : Type} (k : String) (x : β) : List (String × β) → List (String × β)
  | [] => [(k, x)]
  | (k', y) :: rest => if k' = k then (k, x) :: rest else (k', y) :: setA k x rest

/-- `MemPostings` (lines 48-52): the two-level map from label name to label
value to postings list, plus the `ordered` phase flag.  The `sync.RWMutex`
has no observable effect on the sequential executions the claims quantify
over and is not modelled. -/
structure MemPostings where
  m : List (String × List (String × List Nat))
  ordered : Bool
deriving DecidableEq, Repr

/-- `NewMemPostings` (lines 55-60): starts in the serving phase. -/
def NewMemPostings : MemPostings := ⟨[], true⟩

/-- `NewUnorderedMemPostings` (lines 64-69): starts in the building phase. -/
def NewUnorderedMemPostings : MemPostings := ⟨[], false⟩

/-- The tail-repair loop of `addFor` (lines 376-381): starting at the last
index, swap the just-appended element with its predecessor while it is
strictly smaller (`list[i] >= list[i-1]` breaks the loop).  The loop walks
the list from the tail, so it is expressed on the reversed prefix: the
argument is the reverse of the first `n-1` elements and `id` is the appended
last element. -/
def bubbleRev (id : Nat) : List Nat → List Nat
  | [] => [id]
  | x :: rest => if id ≥ x then id :: x :: rest else x :: bubbleRev id rest

/-- `MemPostings.addFor` (lines 360-382): append `id` under
`(l.Name, l.Value)` (allocating the inner map if needed); in the serving
phase repair the tail order violation. -/
def MemPostings.addFor (p : MemPostings) (id : Nat) (l : Label) : MemPostings :=
  let nm := (lookupA l.Name p.m).getD []
  let old := (lookupA l.Value nm).getD []
  let newList := if p.ordered then (bubbleRev id old.reverse).reverse else old ++ [id]
  { p with m := setA l.Name (setA l.Value newList nm) p.m }

/-- `MemPostings.Add` (lines 349-358): register `id` under every label of the
set and under the reserved all-postings key.  The label set is a list of
pairs; `lset.Range` visits them in order. -/
def MemPostings.Add (p : MemPostings) (id : Nat) (lset : List Label) : MemPostings :=
  let p' := lset.foldl (fun q l => q.addFor id l) p
  p'.addFor id allPostingsKey

/-- `MemPostings.EnsureOrder` (lines 223-272): no-op when already ordered;
otherwise comparison-sort every postings list and flip the phase flag.  The
worker pool only partitions which goroutine sorts which list and the call
blocks until all are done, so the resulting store is the one modelled here;
`sort.Sort(seriesRefSlice(l))` (ascending comparison sort) is realized by
`List.insertionSort (· ≤ ·)`. -/
def MemPostings.EnsureOrder (p : MemPostings) : MemPostings :=
  if p.ordered then p
  else
    ⟨p.m.map (fun e => (e.1, e.2.map (fun ve => (ve.1, ve.2.insertionSort (· ≤ ·))))), true⟩

/-- `MemPostings.Get` (lines 201-214): `none` is the `EmptyPostings()`
sentinel returned when either map level misses; otherwise a fresh
`ListPostings` over the stored list. -/
def MemPostings.Get (p : MemPostings) (name value : String) : Option ListPostings :=
  match lookupA name p.m with
  | none => none
  | some nm =>
    match lookupA value nm with
    | none => none
    | some lp => some (newListPostings lp)

/-- `MemPostings.All` (lines 217-219). -/
def MemPostings.All (p : MemPostings) : Option ListPostings :=
  p.Get allPostingsKey.Name allPostingsKey.Value

/-- `MemPostings.LabelValues` (lines 134-143): the values stored under a
name (the iteration order of the model is the association order). -/
def MemPostings.LabelValues (p : MemPostings) (name : String) : List String :=
  ((lookupA name p.m).getD []).map Prod.fst

/-- The per-(value, list) step of `MemPostings.Delete` (lines 296-324): check
whether the list is affected at all; if not keep it as-is, otherwise
reallocate the filtered list, dropping the entry when it becomes empty. -/
def deleteEntry (deleted : List Nat) (ve : String × List Nat) : Option (String × List Nat) :=
  if !(ve.2.any (fun id => deleted.contains id)) then some ve
  else if (ve.2.filter (fun id => !deleted.contains id)).length > 0 then
    some (ve.1, ve.2.filter (fun id => !deleted.contains id))
  else none

/-- `MemPostings.Delete` (lines 275-331), run sequentially: every
(name, value) entry is processed by `deleteEntry`; afterwards every name
whose inner map became empty is removed. -/
def MemPostings.Delete (p : MemPostings) (deleted : List Nat) : MemPostings :=
  let m' := p.m.map (fun e => (e.1, e.2.filterMap (deleteEntry deleted)))
  { p with m := m'.filter (fun e => !e.2.isEmpty) }

/-- Expansion of the `Postings` returned by `Get`/`All` (`none` is the empty
sentinel, which yields nothing). -/
def expandGet (fuel : Nat) : Option ListPostings → List Nat
  | none => []
  | some lp => expandP lpIter fuel lp

/-- The store of claim C1: the unordered constructor, a sequence of `Add`
calls, then one `EnsureOrder`. -/
def buildStore (adds : List (Nat × List Label)) : MemPostings :=
  (adds.foldl (fun s pr => s.Add pr.1 pr.2) NewUnorderedMemPostings).EnsureOrder

/-! ### Reference (specification-side) definitions used by the theorems -/

/-- The references a fully built store associates with `(n, v)`: those added
with a label set containing the label, plus every reference for the reserved
key (cf. the spec, section 8). -/
def postingsOf (adds : List (Nat × List Label)) (n v : String) : List Nat :=
  adds.filterMap (fun pr =>
    if Label.mk n v ∈ pr.2 ∨ Label.mk n v = allPostingsKey then some pr.1 else none)

/-- The intersection of a family of lists, as the sorted sublist of the first
member. -/
def interList : List (List Nat) → List Nat
  | [] => []
  | l :: rest => l.filter (fun v => rest.all (fun l2 => l2.contains v))

/-- The values of an operand of `Intersect`/`Without` (`none` is the empty
sentinel). -/
def valsOf : Option ListPostings → List Nat
  | none => []
  | some lp => lp.list

/-- A conforming `ListPostings` state reached mid-iteration: the remainder is
strictly ascending and lies strictly beyond the current position. -/
def lpWF (p : ListPostings) : Prop :=
  p.list.Sorted (· < ·) ∧ ∀ y ∈ p.list, p.cur < y

/-- The values a `removedPostings` side can still produce: its current value
and remainder when the flag is up, nothing once the side is exhausted. -/
def rpFA (rp : removedPostings ListPostings) : List Nat :=
  if rp.fok then rp.full.cur :: rp.full.list else []

/-- Likewise for the `remove` side. -/
def rpRA (rp : removedPostings ListPostings) : List Nat :=
  if rp.rok then rp.remove.cur :: rp.remove.list else []

/-- The successor state of the delivering branches of the removed loop:
record the delivered value and advance `full`. -/
def rpAdvF (c : Nat) (rp : removedPostings ListPostings) : removedPostings ListPostings :=
  { rp with
    cur := c
    full := (ListPostings.Next rp.full).2
    fok := (ListPostings.Next rp.full).1 }

/-- The successor state of the skip branch of the removed loop: advance `full`
past a value present on both sides. -/
def rpSkipF (rp : removedPostings ListPostings) : removedPostings ListPostings :=
  { rp with
    full := (ListPostings.Next rp.full).2
    fok := (ListPostings.Next rp.full).1 }

/-- The successor state of the catch-up branch of the removed loop: seek
`remove` forward to the current `full` value. -/
def rpSeekR (rp : removedPostings ListPostings) : removedPostings ListPostings :=
  { rp with
    remove := (ListPostings.Seek rp.full.cur rp.remove).2
    rok := (ListPostings.Seek rp.full.cur rp.remove).1 }

/-- The values an `Intersect` input can still contribute: its current value
followed by the remainder. -/
def pAvail (p : ListPostings) : List Nat := p.cur :: p.list

/-- The state of a `ListPostings` after its first successful `Next`, or `none`
when the input is exhausted at once (used to describe the gathering loop of
`newMergedPostings`). -/
def lpFirst : ListPostings → Option ListPostings
  | ⟨[], _⟩ => none
  | ⟨x :: xs, _⟩ => some ⟨xs, x⟩

/-- Fuel large enough to drain a `ListPostings`. -/
def lpSize (p : ListPostings) : Nat := p.list.length + 1

/-- Fuel large enough to drain a family of `ListPostings`. -/
def sumSize (arr : List ListPostings) : Nat := (arr.map lpSize).sum

/-! ## Theorems -/

/-! ### Basic facts about `ListPostings` -/

theorem searchGE_eq_dropWhile (x : Nat) (l : List Nat) :
    searchGE x l =
      match l.dropWhile (fun y => decide (y < x)) with
      | [] => none
      | y :: ys => some (y, ys) := by
  induction l with
  | nil => rfl
  | cons y ys ih =>
    by_cases h : x ≤ y
    · have h' : ¬ y < x := not_lt.mpr h
      simp [searchGE, List.dropWhile, h, h']
    · have h' : y < x := not_le.mp h
      simp [searchGE, List.dropWhile, h, h']
      exact ih

theorem lp_seek_noop (x : Nat) (p : ListPostings) (h : x ≤ p.cur) :
    ListPostings.Seek x p = (true, p) := by
  simp [ListPostings.Seek, h]

theorem lp_seek_adv (x : Nat) (p : ListPostings) (h : p.cur < x) :
    ListPostings.Seek x p =
      match p.list.dropWhile (fun y => decide (y < x)) with
      | [] => (false, ⟨[], p.cur⟩)
      | y :: ys => (true, ⟨ys, y⟩) := by
  have h' : ¬ p.cur ≥ x := not_le.mpr h
  rcases p with ⟨l, c⟩
  cases l with
  | nil => simp [ListPostings.Seek, h']
  | cons z zs =>
    simp only [ListPostings.Seek, h', if_false, List.isEmpty_cons, searchGE_eq_dropWhile]
    rcases hd : (z :: zs).dropWhile (fun y => decide (y < x)) with _ | ⟨y, ys⟩ <;> simp

theorem expandP_lp (l : List Nat) :
    ∀ (fuel c : Nat), l.length ≤ fuel → expandP lpIter fuel ⟨l, c⟩ = l := by
  induction l with
  | nil =>
    intro fuel c _
    cases fuel with
    | zero => rfl
    | succ f => simp [expandP, lpIter, ListPostings.Next]
  | cons x xs ih =>
    intro fuel c hf
    cases fuel with
    | zero => simp at hf
    | succ f =>
      simp only [expandP, lpIter, ListPostings.Next, ListPostings.At]
      exact congrArg (x :: ·) (ih f x (Nat.le_of_succ_le_succ hf))

theorem filter_eq_takeWhile_of_sorted {l : List Nat} (hs : l.Sorted (· < ·)) (m : Nat) :
    l.filter (fun v => decide (v < m)) = l.takeWhile (fun v => decide (v < m)) := by
  induction l with
  | nil => rfl
  | cons x xs ih =>
    rcases List.sorted_cons.mp hs with ⟨hx, hxs⟩
    by_cases h : x < m
    · simp [List.filter, List.takeWhile, h, ih hxs]
    · have : ∀ y ∈ xs, ¬ y < m := fun y hy => by
        have := hx y hy
        omega
      have hnil : xs.filter (fun v => decide (v < m)) = [] :=
        List.filter_eq_nil_iff.mpr fun y hy => by simpa using this y hy
      simp [List.filter, List.takeWhile, h, hnil]

theorem filter_range_of_sorted {l : List Nat} (hs : l.Sorted (· < ·)) (mn mx : Nat) :
    l.filter (fun v => decide (mn ≤ v) && decide (v < mx)) =
      (l.dropWhile (fun v => decide (v < mn))).takeWhile (fun v => decide (v < mx)) := by
  induction l with
  | nil => rfl
  | cons x xs ih =>
    rcases List.sorted_cons.mp hs with ⟨hx, hxs⟩
    by_cases h1 : x < mn
    · have h1' : ¬ mn ≤ x := not_le.mpr h1
      simp [List.filter_cons, List.dropWhile_cons, h1, h1', ih hxs]
    · have hmn : mn ≤ x := not_lt.mp h1
      by_cases h2 : x < mx
      · have hrest : xs.filter (fun v => decide (mn ≤ v) && decide (v < mx)) =
            xs.filter (fun v => decide (v < mx)) := by
          apply List.filter_congr
          intro y hy
          have : mn ≤ y := le_of_lt (lt_of_le_of_lt hmn (hx y hy))
          simp [this]
        have htw := filter_eq_takeWhile_of_sorted hxs mx
        simp [List.filter_cons, List.dropWhile_cons, List.takeWhile_cons, h1, hmn, h2,
          hrest, htw]
      · have hnil : xs.filter (fun v => decide (mn ≤ v) && decide (v < mx)) = [] := by
          apply List.filter_eq_nil_iff.mpr
          intro y hy
          have : ¬ y < mx := fun hc => h2 (lt_trans (hx y hy) hc)
          simp [this]
        simp [List.filter_cons, List.dropWhile_cons, List.takeWhile_cons, h1, hmn, h2, hnil]

theorem mem_dropWhile_of_not {p : Nat → Bool} {v : Nat} :
    ∀ {l : List Nat}, v ∈ l → p v = false → v ∈ l.dropWhile p
  | [], hv, _ => by simp at hv
  | x :: xs, hv, hnp => by
    by_cases hx : p x
    · rcases List.mem_cons.mp hv with rfl | hv'
      · exact absurd hx (by simp [hnp])
      · simpa [List.dropWhile, hx] using mem_dropWhile_of_not hv' hnp
    · simpa [List.dropWhile, Bool.of_not_eq_true hx] using hv

theorem dropWhile_lt_zero (l : List Nat) :
    l.dropWhile (fun v => decide (v < 0)) = l := by
  cases l with
  | nil => rfl
  | cons x xs => simp [List.dropWhile]

theorem sharded_steady (minO maxO : Nat) :
    ∀ (fuel : Nat) (xs : List Nat) (c : Nat), xs.length + 1 ≤ fuel →
    expandP (spIter lpIter) fuel ⟨⟨xs, c⟩, minO, maxO, true⟩ =
      xs.takeWhile (fun v => decide (v < maxO)) := by
  intro fuel
  induction fuel with
  | zero => intro xs c h; omega
  | succ f ih =>
    intro xs c h
    cases xs with
    | nil => simp [expandP, spIter, shardedNext, lpIter, ListPostings.Next]
    | cons x xs' =>
      have hnext : shardedNext lpIter ⟨⟨x :: xs', c⟩, minO, maxO, true⟩ =
          if maxO ≤ x then (false, ⟨⟨xs', x⟩, minO, maxO, true⟩)
          else (true, ⟨⟨xs', x⟩, minO, maxO, true⟩) := rfl
      by_cases hx : maxO ≤ x
      · have hlt : ¬ x < maxO := not_lt.mpr hx
        rw [if_pos hx] at hnext
        simp [expandP, spIter, hnext, List.takeWhile_cons, hlt]
      · have hlt : x < maxO := not_le.mp hx
        rw [if_neg hx] at hnext
        have hN : (spIter lpIter).Next = shardedNext lpIter := rfl
        have hA : (spIter lpIter).At = shardedAt lpIter := rfl
        simp only [expandP, hN, hA, hnext, List.takeWhile_cons]
        rw [show shardedAt lpIter ⟨⟨xs', x⟩, minO, maxO, true⟩ = x from rfl]
        rw [ih xs' x (Nat.le_of_succ_le_succ h)]
        simp [hlt]

theorem sharded_first (l : List Nat) (minO maxO : Nat) :
    ∀ fuel, l.length + 2 ≤ fuel → 0 < maxO →
    expandP (spIter lpIter) fuel (NewShardedPostings (newListPostings l) minO maxO) =
      match l.dropWhile (fun v => decide (v < minO)) with
      | [] => []
      | y :: ys => y :: ys.takeWhile (fun v => decide (v < maxO)) := by
  intro fuel hf hmax
  cases fuel with
  | zero => omega
  | succ f =>
    have hN : (spIter lpIter).Next = shardedNext lpIter := rfl
    have hA : (spIter lpIter).At = shardedAt lpIter := rfl
    have hS : lpIter.Seek = ListPostings.Seek := rfl
    cases l with
    | nil =>
      have hstep : shardedNext lpIter (NewShardedPostings (newListPostings []) minO maxO) =
          (false, ⟨⟨[], 0⟩, minO, maxO, true⟩) := rfl
      simp [expandP, hN, hstep]
    | cons v0 rest =>
      have hstep : shardedNext lpIter (NewShardedPostings (newListPostings (v0 :: rest)) minO maxO) =
          shardedSeek lpIter 0 ⟨⟨rest, v0⟩, minO, maxO, true⟩ := rfl
      have hlen : rest.length + 1 ≤ f := by simp at hf; omega
      rcases Nat.eq_zero_or_pos minO with hm | hm
      · subst hm
        have hseek : shardedSeek lpIter 0 ⟨⟨rest, v0⟩, 0, maxO, true⟩ =
            (true, ⟨⟨rest, v0⟩, 0, maxO, true⟩) := by
          simp only [shardedSeek]
          rw [if_neg (by omega : ¬ 0 ≥ maxO)]
          simp only [Nat.lt_irrefl, if_false, hS]
          rw [lp_seek_noop 0 ⟨rest, v0⟩ (Nat.zero_le _)]
        simp only [expandP, hN, hstep, hseek, hA]
        rw [show shardedAt lpIter ⟨⟨rest, v0⟩, 0, maxO, true⟩ = v0 from rfl]
        rw [sharded_steady 0 maxO f rest v0 hlen, dropWhile_lt_zero]
      · have hcl : (if (0 : Nat) < minO then minO else 0) = minO := if_pos hm
        by_cases hv0 : minO ≤ v0
        · have hseek : shardedSeek lpIter 0 ⟨⟨rest, v0⟩, minO, maxO, true⟩ =
              (true, ⟨⟨rest, v0⟩, minO, maxO, true⟩) := by
            simp only [shardedSeek]
            rw [if_neg (by omega : ¬ 0 ≥ maxO)]
            simp only [hcl, hS]
            rw [lp_seek_noop minO ⟨rest, v0⟩ hv0]
          simp only [expandP, hN, hstep, hseek, hA]
          rw [show shardedAt lpIter ⟨⟨rest, v0⟩, minO, maxO, true⟩ = v0 from rfl]
          rw [sharded_steady minO maxO f rest v0 hlen]
          have : ¬ v0 < minO := not_lt.mpr hv0
          simp [List.dropWhile_cons, this]
        · have hv0' : v0 < minO := not_le.mp hv0
          have hadv := lp_seek_adv minO ⟨rest, v0⟩ hv0'
          have hdw : (v0 :: rest).dropWhile (fun v => decide (v < minO)) =
              rest.dropWhile (fun v => decide (v < minO)) := by
            simp [List.dropWhile_cons, hv0']
          rcases hdl : rest.dropWhile (fun v => decide (v < minO)) with _ | ⟨y, ys⟩
          · rw [hdl] at hadv
            have hseek : shardedSeek lpIter 0 ⟨⟨rest, v0⟩, minO, maxO, true⟩ =
                (false, ⟨⟨[], v0⟩, minO, maxO, true⟩) := by
              simp only [shardedSeek]
              rw [if_neg (by omega : ¬ 0 ≥ maxO)]
              simp only [hcl, hS]
              rw [hadv]
            simp only [expandP, hN, hstep, hseek, hdw, hdl]
          · rw [hdl] at hadv
            have hseek : shardedSeek lpIter 0 ⟨⟨rest, v0⟩, minO, maxO, true⟩ =
                (true, ⟨⟨ys, y⟩, minO, maxO, true⟩) := by
              simp only [shardedSeek]
              rw [if_neg (by omega : ¬ 0 ≥ maxO)]
              simp only [hcl, hS]
              rw [hadv]
            have hys : ys.length + 1 ≤ f := by
              have := (List.dropWhile_sublist (l := rest) (p := fun v => decide (v < minO))).length_le
              rw [hdl] at this
              simp at this
              omega
            simp only [expandP, hN, hstep, hseek, hA]
            rw [show shardedAt lpIter ⟨⟨ys, y⟩, minO, maxO, true⟩ = y from rfl]
            rw [sharded_steady minO maxO f ys y hys, hdw, hdl]

theorem dropWhile_min_head {l : List Nat} (hs : l.Sorted (· < ·)) {v mn mx : Nat}
    (hv : v ∈ l) (h1 : mn ≤ v) (h2 : v < mx) :
    ∃ y ys, l.dropWhile (fun t => decide (t < mn)) = y :: ys ∧ y < mx := by
  have hv' : v ∈ l.dropWhile (fun t => decide (t < mn)) :=
    mem_dropWhile_of_not hv (by simp [not_lt.mpr h1])
  rcases hd : l.dropWhile (fun t => decide (t < mn)) with _ | ⟨y, ys⟩
  · rw [hd] at hv'
    simp at hv'
  · refine ⟨y, ys, rfl, ?_⟩
    rw [hd] at hv'
    have hsub : (y :: ys).Pairwise (· < ·) := by
      refine List.Pairwise.sublist ?_ hs
      rw [← hd]
      exact List.dropWhile_sublist _
    rcases List.mem_cons.mp hv' with rfl | hmem
    · exact h2
    · exact lt_trans ((List.pairwise_cons.mp hsub).1 v hmem) h2

/-- Claim C2 (amended): for a conforming (strictly increasing) inner iterator
and bounds `[minOffset, maxOffset)` such that at least one inner value lies in
the bounds, iterating the sharded wrapper via repeated `Next` yields exactly
the inner values `v` with `minOffset ≤ v < maxOffset` in increasing order
(without that proviso the first `Next`, which delegates to `Seek 0`, can
return a value `≥ maxOffset`, see the counterexample); `Next` rejects as soon
as the inner iterator's current value reaches `maxOffset`; `Seek v` rejects
outright when `v ≥ maxOffset` and otherwise clamps `v` up to at least
`minOffset` before delegating; on the concrete instance with inner values
{5,9,10,15,19,20,25} and bounds [10,20) the output is exactly {10,15,19}. -/
theorem claim_C2 :
    (∀ (l : List Nat) (minO maxO fuel : Nat), l.Sorted (· < ·) →
      (∃ v ∈ l, minO ≤ v ∧ v < maxO) → l.length + 2 ≤ fuel →
      expandP (spIter lpIter) fuel (NewShardedPostings (newListPostings l) minO maxO) =
        l.filter (fun v => decide (minO ≤ v) && decide (v < maxO))) ∧
    (∀ (sp : ShardedPostings ListPostings) (v : Nat), sp.maxOffset ≤ v →
      shardedSeek lpIter v sp = (false, sp)) ∧
    (∀ (sp : ShardedPostings ListPostings) (v : Nat), v < sp.maxOffset →
      shardedSeek lpIter v sp =
        ((ListPostings.Seek (if v < sp.minOffset then sp.minOffset else v) sp.p).1,
          { sp with p := (ListPostings.Seek (if v < sp.minOffset then sp.minOffset else v) sp.p).2 })) ∧
    (∀ (sp : ShardedPostings ListPostings) (b : Bool) (p' : ListPostings),
      sp.initialized = true → ListPostings.Next sp.p = (b, p') →
      sp.maxOffset ≤ p'.cur → shardedNext lpIter sp = (false, { sp with p := p' })) ∧
    expandP (spIter lpIter) 10
        (NewShardedPostings (newListPostings [5, 9, 10, 15, 19, 20, 25]) 10 20) = [10, 15, 19] := by
  refine ⟨?_, ?_, ?_, ?_, by decide⟩
  · intro l minO maxO fuel hs hex hf
    rcases hex with ⟨v, hvmem, hv1, hv2⟩
    have hmax : 0 < maxO := Nat.pos_of_ne_zero (by omega)
    rw [sharded_first l minO maxO fuel hf hmax, filter_range_of_sorted hs]
    rcases dropWhile_min_head hs hvmem hv1 hv2 with ⟨y, ys, hd, hy⟩
    rw [hd]
    simp [List.takeWhile_cons, hy]
  · intro sp v h
    simp [shardedSeek, h]
  · intro sp v h
    have h' : ¬ v ≥ sp.maxOffset := not_le.mpr h
    simp only [shardedSeek, h', if_false]
    rfl
  · intro sp b p' hinit hnext hmax
    rcases sp with ⟨p, mn, mx, init⟩
    simp only at hinit
    subst hinit
    simp only [shardedNext, Bool.not_true]
    rw [show (lpIter.Next p) = ListPostings.Next p from rfl, hnext]
    cases b
    · simp
    · simp only []
      rw [show lpIter.At p' = p'.cur from rfl]
      simp [not_lt.mpr hmax, hmax]

/-- Claim C2 counterexample: with conforming inner values {5, 25} and bounds
[10, 20) (which contain none of the inner values), the sharded iterator
yields [25] — not the empty bounded restriction the claim demands. -/
theorem claim_C2_counterexample :
    (newListPostings [5, 25]).list.Sorted (· < ·) ∧
    expandP (spIter lpIter) 10 (NewShardedPostings (newListPostings [5, 25]) 10 20) ≠
      [5, 25].filter (fun v => decide (10 ≤ v) && decide (v < 20)) := by
  constructor
  · decide
  · decide

theorem claim_C2_witness :
    expandP (spIter lpIter) 10
        (NewShardedPostings (newListPostings [5, 9, 10, 15, 19, 20, 25]) 10 20) =
      [5, 9, 10, 15, 19, 20, 25].filter (fun v => decide (10 ≤ v) && decide (v < 20)) :=
  claim_C2.1 [5, 9, 10, 15, 19, 20, 25] 10 20 10 (by decide) (by decide) (by decide)

/-- Claim C10: ShardedPostings.Seek enforces the maximum bound only against
the requested target, never against the element actually reached: over the
conforming inner iterator with values {25} and bounds [10, 20), Seek 15 with
15 < 20 returns true while At yields 25 ≥ 20. -/
theorem claim_C10 :
    (newListPostings [25]).list.Sorted (· < ·) ∧
    (shardedSeek lpIter 15 (NewShardedPostings (newListPostings [25]) 10 20)).1 = true ∧
    15 < 20 ∧
    20 ≤ shardedAt lpIter (shardedSeek lpIter 15 (NewShardedPostings (newListPostings [25]) 10 20)).2 := by
  decide

theorem intersectSweep_conv (c : Nat) :
    ∀ (arr : List ListPostings), (∀ p ∈ arr, p.cur = c) →
    intersectSweep lpIter c arr = .done arr := by
  intro arr
  induction arr with
  | nil => intro _; rfl
  | cons p rest ih =>
    intro h
    have hp : p.cur = c := h p (List.mem_cons_self ..)
    have hseek : lpIter.Seek c p = (true, p) := lp_seek_noop c p (le_of_eq hp.symm)
    have hat : ¬ lpIter.At p > c := by
      rw [show lpIter.At p = p.cur from rfl, hp]
      omega
    simp only [intersectSweep, hseek, hat, if_false]
    rw [ih (fun q hq => h q (List.mem_cons_of_mem _ hq))]

theorem mergedSeekLoop_stop {α : Type} (I : PIter α) (fuel id cur : Nat) (h : List α)
    (hge : ¬ cur < id) : mergedSeekLoop I fuel id cur h = (true, cur, h, none) := by
  cases fuel <;> simp [mergedSeekLoop, hge]

theorem intersectDoNext_unfold {α : Type} (I : PIter α) (fuel : Nat) (it : intersectPostings α) :
    intersectDoNext I fuel it =
      match intersectSweep I it.cur it.arr with
      | .fail a => (false, ⟨a, it.cur⟩)
      | .done a => (true, ⟨a, it.cur⟩)
      | .restart c a =>
        match fuel with
        | 0 => (false, ⟨a, c⟩)
        | fuel' + 1 => intersectDoNext I fuel' ⟨a, c⟩ := by
  rw [intersectDoNext.eq_def]

/-- Claim C6 (amended): immediately after a successful `Next` or `Seek`,
calling `Seek` with a target at or below the current position is a no-op
returning true for the list-backed, byte-encoded, subtracted, merged and
intersected variants (for the latter two the hypotheses state the invariants
that a successful call establishes: a non-empty initialized error-free heap,
resp. every input converged on `cur`); for the sharded variant this holds
only when the target is additionally below `maxOffset` — a current position
at or beyond `maxOffset` is reachable and there `Seek` returns false (see the
counterexample). -/
theorem claim_C6 :
    (∀ (p : ListPostings) (v : Nat), v ≤ p.cur → ListPostings.Seek v p = (true, p)) ∧
    (∀ (p : BigEndianPostings) (v : Nat), v ≤ p.cur → BigEndianPostings.Seek v p = (true, p)) ∧
    (∀ (rp : removedPostings ListPostings) (v fuel : Nat), v ≤ rp.cur →
      removedSeek lpIter fuel v rp = (true, rp)) ∧
    (∀ (m : mergedPostings ListPostings) (v fuel : Nat), m.h ≠ [] →
      m.initialized = true → m.err = none → v ≤ m.cur →
      mergedSeek lpIter fuel v m = (true, m)) ∧
    (∀ (it : intersectPostings ListPostings) (v fuel : Nat), it.arr ≠ [] → 1 ≤ fuel →
      (∀ p ∈ it.arr, p.cur = it.cur) → v ≤ it.cur →
      intersectSeek lpIter fuel v it = (true, it)) ∧
    (∀ (sp : ShardedPostings ListPostings) (v : Nat), v < sp.maxOffset →
      sp.minOffset ≤ sp.p.cur → v ≤ sp.p.cur →
      shardedSeek lpIter v sp = (true, sp)) := by
  refine ⟨?_, ?_, ?_, ?_, ?_, ?_⟩
  · exact fun p v h => lp_seek_noop v p h
  · intro p v h
    simp [BigEndianPostings.Seek, h]
  · intro rp v fuel h
    simp [removedSeek, h]
  · intro m v fuel hne hinit herr hv
    rcases m with ⟨h, init, cur, err⟩
    simp only at hinit herr
    subst hinit; subst herr
    have hie : (List.isEmpty h) = false := by
      cases h with
      | nil => exact absurd rfl hne
      | cons a as => rfl
    simp only [mergedSeek, hie, Bool.false_or, if_true, if_false]
    have hv' : v ≤ cur := hv
    have hloop : mergedSeekLoop lpIter fuel v cur h = (true, cur, h, none) :=
      mergedSeekLoop_stop lpIter fuel v cur h (by omega)
    simp [hloop]
  · intro it v fuel hne hfuel hconv hv
    rcases it with ⟨arr, cur⟩
    simp only at hconv hv
    rcases Nat.lt_or_ge v cur with hlt | hge
    · have hsw : intersectSweep lpIter v arr = .restart cur arr := by
        cases arr with
        | nil => exact absurd rfl hne
        | cons p rest =>
          have hp : p.cur = cur := hconv p (List.mem_cons_self ..)
          have hseek : lpIter.Seek v p = (true, p) :=
            lp_seek_noop v p (le_of_lt (hp ▸ hlt))
          have hat : lpIter.At p > v := by
            rw [show lpIter.At p = p.cur from rfl, hp]
            omega
          simp only [intersectSweep, hseek, hat, if_true]
          rw [show lpIter.At p = p.cur from rfl, hp]
      cases fuel with
      | zero => omega
      | succ f =>
        simp only [intersectSeek]
        rw [intersectDoNext_unfold]
        simp only [hsw]
        rw [intersectDoNext_unfold]
        simp only [intersectSweep_conv cur arr hconv]
    · have : v = cur := le_antisymm hv hge
      subst this
      simp only [intersectSeek]
      rw [intersectDoNext_unfold]
      simp only [intersectSweep_conv v arr hconv]
  · intro sp v hmax hmin hcur
    have h' : ¬ v ≥ sp.maxOffset := not_le.mpr hmax
    have hcl : (if v < sp.minOffset then sp.minOffset else v) ≤ sp.p.cur := by
      by_cases h : v < sp.minOffset
      · simpa [h] using hmin
      · simpa [h] using hcur
    simp only [shardedSeek, h', if_false]
    rw [show lpIter.Seek = ListPostings.Seek from rfl, lp_seek_noop _ _ hcl]

/-- Claim C6 counterexample: the sharded variant violates the claim as
stated: over inner values {5, 25} with bounds [10, 20), the first `Next`
succeeds and lands at 25; the subsequent `Seek 20` has target 20 ≤ 25 (the
current position) yet returns false rather than true. -/
theorem claim_C6_counterexample :
    (newListPostings [5, 25]).list.Sorted (· < ·) ∧
    (shardedNext lpIter (NewShardedPostings (newListPostings [5, 25]) 10 20)).1 = true ∧
    20 ≤ shardedAt lpIter (shardedNext lpIter (NewShardedPostings (newListPostings [5, 25]) 10 20)).2 ∧
    (shardedSeek lpIter 20 (shardedNext lpIter (NewShardedPostings (newListPostings [5, 25]) 10 20)).2).1
      = false := by
  decide

theorem claim_C6_witness :
    intersectSeek lpIter 3 2 ⟨[⟨[5], 3⟩, ⟨[4], 3⟩], 3⟩ =
      (true, (⟨[⟨[5], 3⟩, ⟨[4], 3⟩], 3⟩ : intersectPostings ListPostings)) :=
  claim_C6.2.2.2.2.1 ⟨[⟨[5], 3⟩, ⟨[4], 3⟩], 3⟩ 2 3 (by decide) (by decide)
    (by decide) (by decide)

/-! ### Tail repair (claim C8) -/

theorem bubbleRev_eq (id : Nat) : ∀ rl : List Nat,
    bubbleRev id rl =
      rl.takeWhile (fun x => decide (id < x)) ++ id :: rl.dropWhile (fun x => decide (id < x)) := by
  intro rl
  induction rl with
  | nil => rfl
  | cons x rest ih =>
    by_cases h : id ≥ x
    · have h' : ¬ id < x := not_lt.mpr h
      simp [bubbleRev, h, List.takeWhile_cons, List.dropWhile_cons, h']
    · have h' : id < x := not_le.mp h
      simp [bubbleRev, h, List.takeWhile_cons, List.dropWhile_cons, h', ih]

theorem takeWhile_append_all {p : Nat → Bool} :
    ∀ {u : List Nat} (v : List Nat), (∀ x ∈ u, p x = true) →
    (u ++ v).takeWhile p = u ++ v.takeWhile p
  | [], v, _ => rfl
  | x :: xs, v, h => by
    have hx : p x = true := h x (List.mem_cons_self ..)
    simp only [List.cons_append, List.takeWhile_cons, hx, if_true]
    rw [takeWhile_append_all v (fun y hy => h y (List.mem_cons_of_mem _ hy))]

theorem dropWhile_append_all {p : Nat → Bool} :
    ∀ {u : List Nat} (v : List Nat), (∀ x ∈ u, p x = true) →
    (u ++ v).dropWhile p = v.dropWhile p
  | [], v, _ => rfl
  | x :: xs, v, h => by
    have hx : p x = true := h x (List.mem_cons_self ..)
    simp only [List.cons_append, List.dropWhile_cons, hx, if_true]
    exact dropWhile_append_all v (fun y hy => h y (List.mem_cons_of_mem _ hy))

theorem takeWhile_nil_of_head {p : Nat → Bool} :
    ∀ {u : List Nat}, (∀ x, u.head? = some x → p x = false) → u.takeWhile p = []
  | [], _ => rfl
  | x :: xs, h => by simp [List.takeWhile_cons, h x rfl]

theorem dropWhile_self_of_head {p : Nat → Bool} :
    ∀ {u : List Nat}, (∀ x, u.head? = some x → p x = false) → u.dropWhile p = u
  | [], _ => rfl
  | x :: xs, h => by simp [List.dropWhile_cons, h x rfl]

theorem dropWhile_head_not {p : Nat → Bool} :
    ∀ {l : List Nat} {b : Nat} {bs : List Nat}, l.dropWhile p = b :: bs → p b = false
  | [], b, bs, h => by simp at h
  | x :: xs, b, bs, h => by
    by_cases hx : p x
    · rw [List.dropWhile_cons, if_pos hx] at h
      exact dropWhile_head_not h
    · rw [List.dropWhile_cons, if_neg hx] at h
      cases h
      exact Bool.of_not_eq_true hx

theorem bubbleRev_sorted_decomp {l : List Nat} (hs : l.Pairwise (· ≤ ·)) (id : Nat) :
    (bubbleRev id l.reverse).reverse =
      l.takeWhile (fun x => decide (x ≤ id)) ++ id :: l.dropWhile (fun x => decide (x ≤ id)) := by
  set A := l.takeWhile (fun x => decide (x ≤ id)) with hAdef
  set B := l.dropWhile (fun x => decide (x ≤ id)) with hBdef
  have hAB : A ++ B = l := List.takeWhile_append_dropWhile _ _
  have hA : ∀ x ∈ A, x ≤ id := fun x hx => by
    simpa using List.mem_takeWhile_imp hx
  have hB : ∀ x ∈ B, id < x := by
    intro x hx
    rcases hBeq : B with _ | ⟨b, bs⟩
    · rw [hBeq] at hx
      simp at hx
    · have hb : id < b := by
        have := dropWhile_head_not (hBdef ▸ hBeq : l.dropWhile (fun x => decide (x ≤ id)) = b :: bs)
        simpa using this
      have hpw : (b :: bs).Pairwise (· ≤ ·) := by
        refine List.Pairwise.sublist ?_ hs
        rw [← hBeq, hBdef]
        exact List.dropWhile_sublist _
      rw [hBeq] at hx
      rcases List.mem_cons.mp hx with rfl | hmem
      · exact hb
      · exact lt_of_lt_of_le hb ((List.pairwise_cons.mp hpw).1 x hmem)
  have hrev : l.reverse = B.reverse ++ A.reverse := by
    rw [← hAB, List.reverse_append]
  have hq : ∀ x ∈ B.reverse, (fun x => decide (id < x)) x = true := by
    intro x hx
    simpa using hB x (List.mem_reverse.mp hx)
  have hArev : ∀ x, A.reverse.head? = some x → (fun x => decide (id < x)) x = false := by
    intro x hx
    have : x ∈ A.reverse := List.mem_of_mem_head? hx
    simpa using not_lt.mpr (hA x (List.mem_reverse.mp this))
  rw [hrev, bubbleRev_eq, takeWhile_append_all _ hq, dropWhile_append_all _ hq,
    takeWhile_nil_of_head hArev, dropWhile_self_of_head hArev]
  simp

theorem lookupA_setA_eq {β : Type} (k : String) (x : β) :
    ∀ m : List (String × β), lookupA k (setA k x m) = some x
  | [] => by simp [setA, lookupA]
  | (k', y) :: rest => by
    by_cases h : k' = k
    · simp [setA, lookupA, h]
    · simp [setA, lookupA, h, lookupA_setA_eq k x rest]

theorem lookupA_setA_ne {β : Type} {k k' : String} (hne : k' ≠ k) (x : β) :
    ∀ m : List (String × β), lookupA k' (setA k x m) = lookupA k' m
  | [] => by
    have h1 : (k : String) ≠ k' := Ne.symm hne
    simp [setA, lookupA, h1]
  | (k'', y) :: rest => by
    by_cases h : k'' = k
    · subst h
      have h1 : (k'' : String) ≠ k' := Ne.symm hne
      simp [setA, lookupA, h1]
    · by_cases h2 : k'' = k'
      · simp [setA, lookupA, h, h2, hne]
      · simp [setA, lookupA, h, h2, lookupA_setA_ne hne x rest]

theorem valsOf_get (p : MemPostings) (n v : String) :
    valsOf (p.Get n v) = (lookupA v ((lookupA n p.m).getD [])).getD [] := by
  unfold MemPostings.Get
  rcases lookupA n p.m with _ | nm
  · simp [valsOf, lookupA]
  · simp only [Option.getD_some]
    rcases lookupA v nm with _ | l
    · simp [valsOf]
    · simp [valsOf, newListPostings]

theorem get_eq_lookup (q : MemPostings) (n v : String) :
    q.Get n v = Option.map newListPostings ((lookupA n q.m).bind (fun nm => lookupA v nm)) := by
  rcases h1 : lookupA n q.m with _ | nm
  · unfold MemPostings.Get
    rw [h1]
    rfl
  · rcases h2 : lookupA v nm with _ | l
    · unfold MemPostings.Get
      rw [h1]
      dsimp only
      simp only [Option.some_bind]
      rw [h2]
      rfl
    · unfold MemPostings.Get
      rw [h1]
      dsimp only
      simp only [Option.some_bind]
      rw [h2]
      rfl

theorem get_addFor (p : MemPostings) (id : Nat) (lab : Label) (hord : p.ordered = true)
    (n v : String) :
    (p.addFor id lab).Get n v =
      if lab.Name = n ∧ lab.Value = v then
        some ⟨(bubbleRev id (valsOf (p.Get n v)).reverse).reverse, 0⟩
      else p.Get n v := by
  have hm : (p.addFor id lab).m =
      setA lab.Name (setA lab.Value
        ((bubbleRev id ((lookupA lab.Value ((lookupA lab.Name p.m).getD [])).getD []).reverse).reverse)
        ((lookupA lab.Name p.m).getD [])) p.m := by
    unfold MemPostings.addFor
    simp [hord]
  by_cases hn : lab.Name = n
  · subst hn
    by_cases hv : lab.Value = v
    · subst hv
      rw [if_pos ⟨rfl, rfl⟩]
      rw [get_eq_lookup, hm, lookupA_setA_eq]
      simp only [Option.some_bind]
      rw [lookupA_setA_eq, valsOf_get]
      rfl
    · rw [if_neg (by rintro ⟨_, h⟩; exact hv h)]
      rw [get_eq_lookup, get_eq_lookup, hm, lookupA_setA_eq]
      simp only [Option.some_bind]
      rw [lookupA_setA_ne (fun h => hv h.symm)]
      rcases lookupA lab.Name p.m with _ | nm0
      · simp [lookupA]
      · simp
  · rw [if_neg (by rintro ⟨h, _⟩; exact hn h)]
    rw [get_eq_lookup, get_eq_lookup, hm, lookupA_setA_ne (fun h => hn h.symm)]

theorem addFor_ordered (p : MemPostings) (id : Nat) (lab : Label) :
    (p.addFor id lab).ordered = p.ordered := rfl

theorem foldl_addFor_ordered (ref : Nat) :
    ∀ (lset : List Label) (p : MemPostings), p.ordered = true →
    (lset.foldl (fun q l => q.addFor ref l) p).ordered = true
  | [], _, h => h
  | lab :: rest, p, h => by
    simp only [List.foldl_cons]
    exact foldl_addFor_ordered ref rest (p.addFor ref lab) h

theorem get_foldl_addFor (ref : Nat) (lset : List Label) :
    ∀ (p : MemPostings), p.ordered = true → lset.Nodup → ∀ n v,
    (lset.foldl (fun q l => q.addFor ref l) p).Get n v =
      if Label.mk n v ∈ lset then
        some ⟨(bubbleRev ref (valsOf (p.Get n v)).reverse).reverse, 0⟩
      else p.Get n v := by
  induction lset with
  | nil => intro p _ _ n v; simp
  | cons lab rest ih =>
    intro p hord hnodup n v
    rcases List.nodup_cons.mp hnodup with ⟨hlab, hrest⟩
    have hord' : (p.addFor ref lab).ordered = true := hord
    simp only [List.foldl_cons]
    rw [ih (p.addFor ref lab) hord' hrest n v]
    by_cases hmem : Label.mk n v ∈ rest
    · rw [if_pos hmem, if_pos (List.mem_cons_of_mem _ hmem)]
      have hne : ¬ (lab.Name = n ∧ lab.Value = v) := by
        rintro ⟨h1, h2⟩
        apply hlab
        have : lab = Label.mk n v := by
          cases lab
          simp only at h1 h2
          rw [h1, h2]
        rw [this]
        exact hmem
      rw [get_addFor p ref lab hord n v, if_neg hne]
    · rw [if_neg hmem]
      rw [get_addFor p ref lab hord n v]
      by_cases heq : lab.Name = n ∧ lab.Value = v
      · have hlabeq : lab = Label.mk n v := by
          rcases heq with ⟨h1, h2⟩
          cases lab
          simp only at h1 h2
          rw [h1, h2]
        rw [if_pos heq, if_pos (by rw [← hlabeq]; exact List.mem_cons_self ..)]
      · have hnot : ¬ Label.mk n v ∈ lab :: rest := by
          intro hc
          rcases List.mem_cons.mp hc with h | h
          · exact heq (by cases h; exact ⟨rfl, rfl⟩)
          · exact hmem h
        rw [if_neg heq, if_neg hnot]

theorem get_add (p : MemPostings) (ref : Nat) (lset : List Label) (hord : p.ordered = true)
    (hnodup : lset.Nodup) (hnall : allPostingsKey ∉ lset) (n v : String) :
    (p.Add ref lset).Get n v =
      if Label.mk n v ∈ lset ∨ Label.mk n v = allPostingsKey then
        some ⟨(bubbleRev ref (valsOf (p.Get n v)).reverse).reverse, 0⟩
      else p.Get n v := by
  unfold MemPostings.Add
  have hq := get_foldl_addFor ref lset p hord hnodup
  have hqord := foldl_addFor_ordered ref lset p hord
  rw [get_addFor _ ref allPostingsKey hqord n v]
  by_cases hall : Label.mk n v = allPostingsKey
  · have hcond : allPostingsKey.Name = n ∧ allPostingsKey.Value = v := by
      rw [← hall]
      exact ⟨rfl, rfl⟩
    rw [if_pos hcond, if_pos (Or.inr hall)]
    have hnmem : Label.mk n v ∉ lset := fun hc => hnall (hall ▸ hc)
    rw [hq n v, if_neg hnmem]
  · have hcond : ¬ (allPostingsKey.Name = n ∧ allPostingsKey.Value = v) := by
      rintro ⟨h1, h2⟩
      apply hall
      calc Label.mk n v = Label.mk allPostingsKey.Name allPostingsKey.Value := by rw [h1, h2]
        _ = allPostingsKey := rfl
    rw [if_neg hcond, hq n v]
    by_cases hmem : Label.mk n v ∈ lset
    · rw [if_pos hmem, if_pos (Or.inl hmem)]
    · rw [if_neg hmem, if_neg (by rintro (h | h); exact hmem h; exact hall h)]

theorem dropWhile_gt {l : List Nat} (hs : l.Pairwise (· ≤ ·)) (id : Nat) :
    ∀ x ∈ l.dropWhile (fun x => decide (x ≤ id)), id < x := by
  intro x hx
  rcases hBeq : l.dropWhile (fun x => decide (x ≤ id)) with _ | ⟨b, bs⟩
  · rw [hBeq] at hx
    simp at hx
  · have hb : id < b := by
      have := dropWhile_head_not hBeq
      simpa using this
    have hpw : (b :: bs).Pairwise (· ≤ ·) := by
      refine List.Pairwise.sublist ?_ hs
      rw [← hBeq]
      exact List.dropWhile_sublist _
    rw [hBeq] at hx
    rcases List.mem_cons.mp hx with rfl | hmem
    · exact hb
    · exact lt_of_lt_of_le hb ((List.pairwise_cons.mp hpw).1 x hmem)

theorem repaired_sorted {l : List Nat} (hs : l.Pairwise (· ≤ ·)) (ref : Nat) :
    (l.takeWhile (fun x => decide (x ≤ ref)) ++
      ref :: l.dropWhile (fun x => decide (x ≤ ref))).Pairwise (· ≤ ·) := by
  rw [List.pairwise_append]
  refine ⟨List.Pairwise.sublist (List.takeWhile_sublist _) hs, ?_, ?_⟩
  · rw [List.pairwise_cons]
    exact ⟨fun b hb => le_of_lt (dropWhile_gt hs ref b hb),
      List.Pairwise.sublist (List.dropWhile_sublist _) hs⟩
  · intro a ha b hb
    have ha' : a ≤ ref := by simpa using List.mem_takeWhile_imp ha
    rcases List.mem_cons.mp hb with rfl | hmem
    · exact ha'
    · exact le_trans ha' (le_of_lt (dropWhile_gt hs ref b hmem))

/-- Claim C8: sortedness is an invariant of serving-phase insertion: in a
store with `ordered = true` whose postings lists are all ascending, a single
`Add ref lset` call leaves every list ascending again; each affected list
becomes `prefix ++ ref :: suffix` where `prefix` holds exactly the old
elements `≤ ref` and `suffix` exactly the old elements `> ref` (the tail
repair bubbles the appended element backward past each strictly larger
predecessor, moving nothing else); unaffected lists are unchanged. -/
theorem claim_C8 (p : MemPostings) (ref : Nat) (lset : List Label)
    (hord : p.ordered = true) (hnodup : lset.Nodup) (hnall : allPostingsKey ∉ lset)
    (hsorted : ∀ n v lp, p.Get n v = some lp → lp.list.Pairwise (· ≤ ·)) :
    (∀ n v lp, (p.Add ref lset).Get n v = some lp → lp.list.Pairwise (· ≤ ·)) ∧
    (∀ n v, Label.mk n v ∈ lset ∨ Label.mk n v = allPostingsKey →
      (p.Add ref lset).Get n v =
        some ⟨(valsOf (p.Get n v)).takeWhile (fun x => decide (x ≤ ref)) ++
          ref :: (valsOf (p.Get n v)).dropWhile (fun x => decide (x ≤ ref)), 0⟩) ∧
    (∀ n v, ¬ (Label.mk n v ∈ lset ∨ Label.mk n v = allPostingsKey) →
      (p.Add ref lset).Get n v = p.Get n v) := by
  have hvs : ∀ n v, (valsOf (p.Get n v)).Pairwise (· ≤ ·) := by
    intro n v
    rcases hg : p.Get n v with _ | lp
    · simp [valsOf]
    · exact (hsorted n v lp hg : lp.list.Pairwise _)
  have hdecomp : ∀ n v, Label.mk n v ∈ lset ∨ Label.mk n v = allPostingsKey →
      (p.Add ref lset).Get n v =
        some ⟨(valsOf (p.Get n v)).takeWhile (fun x => decide (x ≤ ref)) ++
          ref :: (valsOf (p.Get n v)).dropWhile (fun x => decide (x ≤ ref)), 0⟩ := by
    intro n v hc
    rw [get_add p ref lset hord hnodup hnall n v, if_pos hc,
      bubbleRev_sorted_decomp (hvs n v) ref]
  refine ⟨?_, hdecomp, ?_⟩
  · intro n v lp hlp
    by_cases hc : Label.mk n v ∈ lset ∨ Label.mk n v = allPostingsKey
    · rw [hdecomp n v hc] at hlp
      cases hlp
      exact repaired_sorted (hvs n v) ref
    · rw [get_add p ref lset hord hnodup hnall n v, if_neg hc] at hlp
      exact hsorted n v lp hlp
  · intro n v hc
    rw [get_add p ref lset hord hnodup hnall n v, if_neg hc]

theorem claim_C8_witness :
    (MemPostings.Add NewMemPostings 2 [Label.mk "a" "b"]).Get "a" "b" =
      some ⟨(valsOf (NewMemPostings.Get "a" "b")).takeWhile (fun x => decide (x ≤ 2)) ++
        2 :: (valsOf (NewMemPostings.Get "a" "b")).dropWhile (fun x => decide (x ≤ 2)), 0⟩ :=
  (claim_C8 NewMemPostings 2 [Label.mk "a" "b"] rfl (by decide) (by decide)
    (fun n v lp h => by simp [MemPostings.Get, NewMemPostings, lookupA] at h)).2.1
    "a" "b" (Or.inl (by decide))

/-! ### Delete (claim C9) -/

theorem lookupA_eq_none_of_not_mem {β : Type} :
    ∀ {m : List (String × β)} {k : String}, k ∉ m.map Prod.fst → lookupA k m = none
  | [], k, _ => rfl
  | (k', x) :: rest, k, h => by
    have h1 : k' ≠ k := by
      intro hc
      exact h (by simp [hc])
    have h2 : k ∉ rest.map Prod.fst := fun hc => h (by simp [hc])
    simp [lookupA, h1, lookupA_eq_none_of_not_mem h2]

theorem lookupA_cons_eq {β : Type} (k : String) (x : β) (rest : List (String × β)) :
    lookupA k ((k, x) :: rest) = some x := by
  simp [lookupA]

theorem lookupA_cons_ne {β : Type} {k k' : String} (h : ¬ k' = k) (x : β)
    (rest : List (String × β)) : lookupA k ((k', x) :: rest) = lookupA k rest := by
  simp [lookupA, h]

theorem filterMap_deleteEntry_lookup (D : List Nat) :
    ∀ (inner : List (String × List Nat)), (inner.map Prod.fst).Nodup →
      (∀ ve ∈ inner, ve.2 ≠ []) → ∀ v,
    lookupA v (inner.filterMap (deleteEntry D)) =
      (lookupA v inner).bind (fun l =>
        let r := l.filter (fun id => !D.contains id)
        if r.isEmpty then none else some r) := by
  intro inner
  induction inner with
  | nil => intro _ _ v; rfl
  | cons e rest ih =>
    intro hnodup hne v
    rcases e with ⟨k, l⟩
    have hnodup' : (k :: rest.map Prod.fst).Nodup := by simpa using hnodup
    rcases List.nodup_cons.mp hnodup' with ⟨hk, hrest⟩
    have hlne : l ≠ [] := hne (k, l) (List.mem_cons_self ..)
    have hrestne : ∀ ve ∈ rest, ve.2 ≠ [] := fun ve hv => hne ve (List.mem_cons_of_mem _ hv)
    have ihv := ih hrest hrestne
    by_cases hfound : l.any (fun id => D.contains id)
    · rcases hfc : l.filter (fun id => !D.contains id) with _ | ⟨a, as⟩
      · have hde : deleteEntry D (k, l) = none := by
          unfold deleteEntry
          dsimp only
          rw [hfound, hfc]
          rw [if_neg (by decide : ¬ ((!true) = true))]
          rw [if_neg (by decide : ¬ (([] : List Nat).length > 0))]
        rw [List.filterMap_cons, hde]
        by_cases hkv : k = v
        · subst hkv
          rw [ihv k, lookupA_eq_none_of_not_mem hk, lookupA_cons_eq]
          simp only [Option.some_bind, Option.none_bind]
          rw [hfc]
          rfl
        · rw [ihv v, lookupA_cons_ne hkv]
      · have hde : deleteEntry D (k, l) = some (k, a :: as) := by
          unfold deleteEntry
          dsimp only
          rw [hfound, hfc]
          rw [if_neg (by decide : ¬ ((!true) = true))]
          rw [if_pos (by simp : (a :: as).length > 0)]
        rw [List.filterMap_cons, hde]
        by_cases hkv : k = v
        · subst hkv
          rw [lookupA_cons_eq, lookupA_cons_eq]
          simp only [Option.some_bind]
          rw [hfc]
          rfl
        · rw [lookupA_cons_ne hkv, lookupA_cons_ne hkv, ihv v]
    · have hfil : l.filter (fun id => !D.contains id) = l := by
        apply List.filter_eq_self.mpr
        intro a ha
        have hnc : ¬ D.contains a = true := fun hc => hfound (List.any_eq_true.mpr ⟨a, ha, hc⟩)
        simpa using hnc
      have hde : deleteEntry D (k, l) = some (k, l) := by
        unfold deleteEntry
        dsimp only
        rw [Bool.of_not_eq_true hfound]
        rw [if_pos (by decide : (!false) = true)]
      rw [List.filterMap_cons, hde]
      by_cases hkv : k = v
      · subst hkv
        rw [lookupA_cons_eq, lookupA_cons_eq]
        simp only [Option.some_bind]
        rw [hfil]
        rcases l with _ | ⟨x, xs⟩
        · exact absurd rfl hlne
        · rfl
      · rw [lookupA_cons_ne hkv, lookupA_cons_ne hkv, ihv v]

theorem delete_outer_lookup (D : List Nat) :
    ∀ (m : List (String × List (String × List Nat))), (m.map Prod.fst).Nodup → ∀ n,
    lookupA n ((m.map (fun e => (e.1, e.2.filterMap (deleteEntry D)))).filter
        (fun e => !e.2.isEmpty)) =
      (lookupA n m).bind (fun inner =>
        let i' := inner.filterMap (deleteEntry D)
        if i'.isEmpty then none else some i') := by
  intro m
  induction m with
  | nil => intro _ n; rfl
  | cons e rest ih =>
    intro hnodup n
    rcases e with ⟨k, inner⟩
    have hnodup' : (k :: rest.map Prod.fst).Nodup := by simpa using hnodup
    rcases List.nodup_cons.mp hnodup' with ⟨hk, hrest⟩
    simp only [List.map_cons, List.filter_cons]
    rcases hemp : (inner.filterMap (deleteEntry D)).isEmpty with _ | _
    · rw [if_pos (by decide : (!false) = true)]
      by_cases hkn : k = n
      · subst hkn
        rw [lookupA_cons_eq, lookupA_cons_eq]
        simp only [Option.some_bind]
        rw [hemp]
        rfl
      · rw [lookupA_cons_ne hkn, lookupA_cons_ne hkn, ih hrest n]
    · rw [if_neg (by simp : ¬ (!true) = true)]
      by_cases hkn : k = n
      · subst hkn
        rw [ih hrest k, lookupA_eq_none_of_not_mem hk, lookupA_cons_eq]
        simp only [Option.some_bind, Option.none_bind]
        rw [hemp]
        rfl
      · rw [lookupA_cons_ne hkn, ih hrest n]

theorem lookupA_mem {β : Type} :
    ∀ {m : List (String × β)} {k : String} {x : β}, lookupA k m = some x → (k, x) ∈ m
  | [], k, x, h => by simp [lookupA] at h
  | (k', y) :: rest, k, x, h => by
    by_cases hk : k' = k
    · subst hk
      rw [lookupA_cons_eq] at h
      cases h
      exact List.mem_cons_self ..
    · rw [lookupA_cons_ne hk] at h
      exact List.mem_cons_of_mem _ (lookupA_mem h)

/-- Claim C9: after a sequential `Delete D`: every surviving postings list
equals its previous contents with the members of `D` removed and the relative
order preserved (a `bind` of the old lookup through the filter); lists with
no member of `D` are left as-is; a (name, value) entry whose list becomes
empty disappears, and a name whose inner map becomes empty disappears — in
particular after `Delete {3}` on a store where reference 3 was the only
series under (env, prod), "prod" is absent from `LabelValues "env"`. -/
theorem claim_C9 (p : MemPostings) (D : List Nat)
    (houter : (p.m.map Prod.fst).Nodup)
    (hinner : ∀ n inner, lookupA n p.m = some inner →
      (inner.map Prod.fst).Nodup ∧ ∀ ve ∈ inner, ve.2 ≠ []) :
    (∀ n v, (p.Delete D).Get n v = (p.Get n v).bind (fun lp =>
        let r := lp.list.filter (fun id => !D.contains id)
        if r.isEmpty then none else some (⟨r, 0⟩ : ListPostings))) ∧
    (∀ n v lp, p.Get n v = some lp → (∀ id ∈ lp.list, ¬ id ∈ D) →
      (p.Delete D).Get n v = p.Get n v) ∧
    ¬ "prod" ∈ ((NewMemPostings.Add 3 [Label.mk "env" "prod"]).Delete [3]).LabelValues "env" := by
  have hmain : ∀ n v, (p.Delete D).Get n v = (p.Get n v).bind (fun lp =>
      let r := lp.list.filter (fun id => !D.contains id)
      if r.isEmpty then none else some (⟨r, 0⟩ : ListPostings)) := by
    intro n v
    have hdm : (p.Delete D).m =
        (p.m.map (fun e => (e.1, e.2.filterMap (deleteEntry D)))).filter
          (fun e => !e.2.isEmpty) := rfl
    rw [get_eq_lookup (p.Delete D) n v, hdm, delete_outer_lookup D p.m houter n,
      get_eq_lookup p n v]
    rcases h1 : lookupA n p.m with _ | inner
    · rfl
    · rcases hinner n inner h1 with ⟨hnd, hne⟩
      have hq := filterMap_deleteEntry_lookup D inner hnd hne v
      simp only [Option.some_bind]
      rcases hfm : inner.filterMap (deleteEntry D) with _ | ⟨fe, fes⟩
      · rw [hfm] at hq
        rw [if_pos (by decide : ([] : List (String × List Nat)).isEmpty = true)]
        simp only [Option.none_bind]
        rcases h2 : lookupA v inner with _ | l
        · rfl
        · rw [h2] at hq
          simp only [Option.some_bind, lookupA] at hq
          simp only [Option.map_some', Option.some_bind]
          dsimp only [newListPostings]
          rcases hfl : l.filter (fun id => !D.contains id) with _ | ⟨x, xs⟩
          · rfl
          · rw [hfl] at hq
            simp at hq
      · rw [hfm] at hq
        rw [if_neg (by simp : ¬ ((fe :: fes).isEmpty = true))]
        simp only [Option.some_bind]
        rw [hq]
        rcases h2 : lookupA v inner with _ | l
        · rfl
        · simp only [Option.some_bind, Option.map_some']
          dsimp only [newListPostings]
          rcases hfl : l.filter (fun id => !D.contains id) with _ | ⟨x, xs⟩
          · rfl
          · rfl
  refine ⟨hmain, ?_, by decide⟩
  intro n v lp hget hnd
  rw [hmain n v, hget]
  have hex : ∃ inner l, lookupA n p.m = some inner ∧ lookupA v inner = some l ∧
      lp = newListPostings l := by
    rw [get_eq_lookup p n v] at hget
    rcases h1 : lookupA n p.m with _ | inner
    · rw [h1] at hget
      simp at hget
    · rw [h1] at hget
      simp only [Option.some_bind] at hget
      rcases h2 : lookupA v inner with _ | l
      · rw [h2] at hget
        simp at hget
      · rw [h2] at hget
        simp only [Option.map_some'] at hget
        exact ⟨inner, l, rfl, h2, (Option.some_inj.mp hget).symm⟩
  rcases hex with ⟨inner, l, h1, h2, rfl⟩
  have hlne : l ≠ [] := by
    rcases hinner n inner h1 with ⟨_, hne⟩
    intro hc
    exact hne (v, l) (lookupA_mem h2) (by simpa using hc)
  have hfil : l.filter (fun id => !D.contains id) = l := by
    apply List.filter_eq_self.mpr
    intro a ha
    have : ¬ a ∈ D := hnd a (by simpa [newListPostings] using ha)
    simpa using this
  simp only [Option.some_bind]
  dsimp only [newListPostings]
  rw [hfil]
  rcases l with _ | ⟨x, xs⟩
  · exact absurd rfl hlne
  · rfl

theorem claim_C9_witness :
    ((⟨[("env", [("prod", [3])])], true⟩ : MemPostings).Delete [3]).Get "env" "prod" =
      ((⟨[("env", [("prod", [3])])], true⟩ : MemPostings).Get "env" "prod").bind (fun lp =>
        let r := lp.list.filter (fun id => !([3] : List Nat).contains id)
        if r.isEmpty then none else some (⟨r, 0⟩ : ListPostings)) :=
  (claim_C9 ⟨[("env", [("prod", [3])])], true⟩ [3] (by decide)
    (fun n inner h => by
      simp only [lookupA] at h
      by_cases hn : "env" = n
      · rw [if_pos hn] at h
        cases h
        exact ⟨by decide, by decide⟩
      · rw [if_neg hn] at h
        cases h)).1 "env" "prod"

/-! ### Building a store unordered (claim C1) -/

theorem get_addFor_unord (p : MemPostings) (id : Nat) (lab : Label)
    (hord : p.ordered = false) (n v : String) :
    (p.addFor id lab).Get n v =
      if lab.Name = n ∧ lab.Value = v then
        some ⟨valsOf (p.Get n v) ++ [id], 0⟩
      else p.Get n v := by
  have hm : (p.addFor id lab).m =
      setA lab.Name (setA lab.Value
        (((lookupA lab.Value ((lookupA lab.Name p.m).getD [])).getD []) ++ [id])
        ((lookupA lab.Name p.m).getD [])) p.m := by
    unfold MemPostings.addFor
    simp [hord]
  by_cases hn : lab.Name = n
  · subst hn
    by_cases hv : lab.Value = v
    · subst hv
      rw [if_pos ⟨rfl, rfl⟩]
      rw [get_eq_lookup, hm, lookupA_setA_eq]
      simp only [Option.some_bind]
      rw [lookupA_setA_eq, valsOf_get]
      rfl
    · rw [if_neg (by rintro ⟨_, h⟩; exact hv h)]
      rw [get_eq_lookup, get_eq_lookup, hm, lookupA_setA_eq]
      simp only [Option.some_bind]
      rw [lookupA_setA_ne (fun h => hv h.symm)]
      rcases lookupA lab.Name p.m with _ | nm0
      · simp [lookupA]
      · simp
  · rw [if_neg (by rintro ⟨h, _⟩; exact hn h)]
    rw [get_eq_lookup, get_eq_lookup, hm, lookupA_setA_ne (fun h => hn h.symm)]

theorem addFor_ordered_false (p : MemPostings) (id : Nat) (lab : Label) :
    (p.addFor id lab).ordered = p.ordered := rfl

theorem foldl_addFor_unord (ref : Nat) :
    ∀ (lset : List Label) (p : MemPostings), p.ordered = false →
    (lset.foldl (fun q l => q.addFor ref l) p).ordered = false
  | [], _, h => h
  | lab :: rest, p, h => by
    simp only [List.foldl_cons]
    exact foldl_addFor_unord ref rest (p.addFor ref lab) h

theorem get_foldl_addFor_unord (ref : Nat) (lset : List Label) :
    ∀ (p : MemPostings), p.ordered = false → lset.Nodup → ∀ n v,
    (lset.foldl (fun q l => q.addFor ref l) p).Get n v =
      if Label.mk n v ∈ lset then some ⟨valsOf (p.Get n v) ++ [ref], 0⟩
      else p.Get n v := by
  induction lset with
  | nil => intro p _ _ n v; simp
  | cons lab rest ih =>
    intro p hord hnodup n v
    rcases List.nodup_cons.mp hnodup with ⟨hlab, hrest⟩
    have hord' : (p.addFor ref lab).ordered = false := hord
    simp only [List.foldl_cons]
    rw [ih (p.addFor ref lab) hord' hrest n v]
    by_cases hmem : Label.mk n v ∈ rest
    · rw [if_pos hmem, if_pos (List.mem_cons_of_mem _ hmem)]
      have hne : ¬ (lab.Name = n ∧ lab.Value = v) := by
        rintro ⟨h1, h2⟩
        apply hlab
        have : lab = Label.mk n v := by
          cases lab
          simp only at h1 h2
          rw [h1, h2]
        rw [this]
        exact hmem
      rw [get_addFor_unord p ref lab hord n v, if_neg hne]
    · rw [if_neg hmem]
      rw [get_addFor_unord p ref lab hord n v]
      by_cases heq : lab.Name = n ∧ lab.Value = v
      · have hlabeq : lab = Label.mk n v := by
          rcases heq with ⟨h1, h2⟩
          cases lab
          simp only at h1 h2
          rw [h1, h2]
        rw [if_pos heq, if_pos (by rw [← hlabeq]; exact List.mem_cons_self ..)]
      · have hnot : ¬ Label.mk n v ∈ lab :: rest := by
          intro hc
          rcases List.mem_cons.mp hc with h | h
          · exact heq (by cases h; exact ⟨rfl, rfl⟩)
          · exact hmem h
        rw [if_neg heq, if_neg hnot]

theorem get_add_unord (p : MemPostings) (ref : Nat) (lset : List Label)
    (hord : p.ordered = false) (hnodup : lset.Nodup) (hnall : allPostingsKey ∉ lset)
    (n v : String) :
    (p.Add ref lset).Get n v =
      if Label.mk n v ∈ lset ∨ Label.mk n v = allPostingsKey then
        some ⟨valsOf (p.Get n v) ++ [ref], 0⟩
      else p.Get n v := by
  unfold MemPostings.Add
  have hq := get_foldl_addFor_unord ref lset p hord hnodup
  have hqord := foldl_addFor_unord ref lset p hord
  rw [get_addFor_unord _ ref allPostingsKey hqord n v]
  by_cases hall : Label.mk n v = allPostingsKey
  · have hcond : allPostingsKey.Name = n ∧ allPostingsKey.Value = v := by
      rw [← hall]
      exact ⟨rfl, rfl⟩
    rw [if_pos hcond, if_pos (Or.inr hall)]
    have hnmem : Label.mk n v ∉ lset := fun hc => hnall (hall ▸ hc)
    rw [hq n v, if_neg hnmem]
  · have hcond : ¬ (allPostingsKey.Name = n ∧ allPostingsKey.Value = v) := by
      rintro ⟨h1, h2⟩
      apply hall
      calc Label.mk n v = Label.mk allPostingsKey.Name allPostingsKey.Value := by rw [h1, h2]
        _ = allPostingsKey := rfl
    rw [if_neg hcond, hq n v]
    by_cases hmem : Label.mk n v ∈ lset
    · rw [if_pos hmem, if_pos (Or.inl hmem)]
    · rw [if_neg hmem, if_neg (by rintro (h | h); exact hmem h; exact hall h)]

theorem foldl_addFor_pres_ordered (ref : Nat) :
    ∀ (lset : List Label) (p : MemPostings),
    (lset.foldl (fun q l => q.addFor ref l) p).ordered = p.ordered
  | [], _ => rfl
  | lab :: rest, p => by
    simp only [List.foldl_cons]
    rw [foldl_addFor_pres_ordered ref rest (p.addFor ref lab), addFor_ordered]

theorem add_ordered_eq (p : MemPostings) (ref : Nat) (lset : List Label) :
    (p.Add ref lset).ordered = p.ordered := by
  unfold MemPostings.Add
  rw [addFor_ordered, foldl_addFor_pres_ordered]

theorem get_cur_zero {p : MemPostings} {n v : String} {lp : ListPostings}
    (h : p.Get n v = some lp) : lp = ⟨lp.list, 0⟩ := by
  rw [get_eq_lookup] at h
  rcases h1 : (lookupA n p.m).bind (fun nm => lookupA v nm) with _ | l
  · rw [h1] at h
    simp at h
  · rw [h1] at h
    simp only [Option.map_some'] at h
    have := Option.some_inj.mp h
    rw [← this]
    rfl

theorem postingsOf_cons_pos {pr : Nat × List Label} {rest : List (Nat × List Label)}
    {n v : String} (hc : Label.mk n v ∈ pr.2 ∨ Label.mk n v = allPostingsKey) :
    postingsOf (pr :: rest) n v = pr.1 :: postingsOf rest n v := by
  simp only [postingsOf, List.filterMap_cons]
  rw [if_pos hc]

theorem postingsOf_cons_neg {pr : Nat × List Label} {rest : List (Nat × List Label)}
    {n v : String} (hc : ¬ (Label.mk n v ∈ pr.2 ∨ Label.mk n v = allPostingsKey)) :
    postingsOf (pr :: rest) n v = postingsOf rest n v := by
  simp only [postingsOf, List.filterMap_cons]
  rw [if_neg hc]

theorem get_foldl_add (adds : List (Nat × List Label)) :
    ∀ (p : MemPostings), p.ordered = false →
    (∀ pr ∈ adds, pr.2.Nodup ∧ allPostingsKey ∉ pr.2) → ∀ n v,
    (adds.foldl (fun s pr => s.Add pr.1 pr.2) p).Get n v =
      if p.Get n v = none ∧ postingsOf adds n v = [] then none
      else some ⟨valsOf (p.Get n v) ++ postingsOf adds n v, 0⟩ := by
  induction adds with
  | nil =>
    intro p _ _ n v
    simp only [List.foldl_nil, postingsOf, List.filterMap_nil, List.append_nil, and_true]
    rcases hg : p.Get n v with _ | lp
    · simp
    · rw [if_neg (by simp)]
      rw [get_cur_zero hg]
      simp [valsOf]
  | cons pr rest ih =>
    intro p hord hw n v
    rcases hw pr (List.mem_cons_self ..) with ⟨hnd, hnall⟩
    have hw' : ∀ q ∈ rest, q.2.Nodup ∧ allPostingsKey ∉ q.2 :=
      fun q hq => hw q (List.mem_cons_of_mem _ hq)
    have hord' : (p.Add pr.1 pr.2).ordered = false := by
      rw [add_ordered_eq]
      exact hord
    simp only [List.foldl_cons]
    rw [ih (p.Add pr.1 pr.2) hord' hw' n v]
    by_cases hc : Label.mk n v ∈ pr.2 ∨ Label.mk n v = allPostingsKey
    · have hAdd : (p.Add pr.1 pr.2).Get n v = some ⟨valsOf (p.Get n v) ++ [pr.1], 0⟩ := by
        rw [get_add_unord p pr.1 pr.2 hord hnd hnall n v, if_pos hc]
      rw [hAdd, postingsOf_cons_pos hc]
      rw [if_neg (by simp), if_neg (by simp)]
      simp [valsOf]
    · have hAdd : (p.Add pr.1 pr.2).Get n v = p.Get n v := by
        rw [get_add_unord p pr.1 pr.2 hord hnd hnall n v, if_neg hc]
      rw [hAdd, postingsOf_cons_neg hc]

theorem lookupA_map {β γ : Type} (F : β → γ) :
    ∀ (m : List (String × β)) (k : String),
    lookupA k (m.map (fun e => (e.1, F e.2))) = (lookupA k m).map F
  | [], _ => rfl
  | (k', x) :: rest, k => by
    by_cases h : k' = k
    · subst h
      rw [List.map_cons]
      rw [lookupA_cons_eq, lookupA_cons_eq]
      rfl
    · rw [List.map_cons]
      rw [lookupA_cons_ne h, lookupA_cons_ne h, lookupA_map F rest k]

theorem get_ensureOrder (q : MemPostings) (hq : q.ordered = false) (n v : String) :
    q.EnsureOrder.Get n v =
      (q.Get n v).map (fun lp => ⟨lp.list.insertionSort (· ≤ ·), 0⟩) := by
  have hm : q.EnsureOrder.m =
      q.m.map (fun e => (e.1, e.2.map (fun ve => (ve.1, ve.2.insertionSort (· ≤ ·))))) := by
    unfold MemPostings.EnsureOrder
    rw [if_neg (by rw [hq]; exact Bool.false_ne_true)]
  rw [get_eq_lookup, hm, get_eq_lookup]
  simp only [lookupA_map]
  rcases h1 : lookupA n q.m with _ | inner
  · rfl
  · simp only [Option.map_some', Option.some_bind]
    simp only [lookupA_map]
    rcases h2 : lookupA v inner with _ | l
    · rfl
    · rfl

theorem foldl_add_pres_ordered :
    ∀ (adds : List (Nat × List Label)) (p : MemPostings),
    (adds.foldl (fun s pr => s.Add pr.1 pr.2) p).ordered = p.ordered
  | [], _ => rfl
  | pr :: rest, p => by
    simp only [List.foldl_cons]
    rw [foldl_add_pres_ordered rest _, add_ordered_eq]

theorem get_buildStore (adds : List (Nat × List Label))
    (hw : ∀ pr ∈ adds, pr.2.Nodup ∧ allPostingsKey ∉ pr.2) (n v : String) :
    (buildStore adds).Get n v =
      if postingsOf adds n v = [] then none
      else some ⟨(postingsOf adds n v).insertionSort (· ≤ ·), 0⟩ := by
  unfold buildStore
  have hford : (adds.foldl (fun s pr => s.Add pr.1 pr.2) NewUnorderedMemPostings).ordered
      = false := by
    rw [foldl_add_pres_ordered]
    rfl
  rw [get_ensureOrder _ hford n v, get_foldl_add adds NewUnorderedMemPostings rfl hw n v]
  have hgN : NewUnorderedMemPostings.Get n v = none := rfl
  rw [hgN]
  by_cases hpost : postingsOf adds n v = []
  · rw [if_pos ⟨rfl, hpost⟩, if_pos hpost]
    rfl
  · rw [if_neg (fun h => hpost h.2), if_neg hpost]
    simp [valsOf]

theorem postingsOf_sublist (adds : List (Nat × List Label)) (n v : String) :
    List.Sublist (postingsOf adds n v) (adds.map Prod.fst) := by
  induction adds with
  | nil => simp [postingsOf]
  | cons pr rest ih =>
    rw [List.map_cons]
    by_cases hc : Label.mk n v ∈ pr.2 ∨ Label.mk n v = allPostingsKey
    · rw [postingsOf_cons_pos hc]
      exact List.Sublist.cons₂ _ ih
    · rw [postingsOf_cons_neg hc]
      exact List.Sublist.cons _ ih

theorem postingsOf_all (adds : List (Nat × List Label)) :
    postingsOf adds "" "" = adds.map Prod.fst := by
  induction adds with
  | nil => rfl
  | cons pr rest ih =>
    rw [postingsOf_cons_pos (Or.inr rfl), List.map_cons, ih]

theorem mem_postingsOf {adds : List (Nat × List Label)} {n v : String} {id : Nat} :
    id ∈ postingsOf adds n v ↔
      ∃ pr ∈ adds, pr.1 = id ∧ (Label.mk n v ∈ pr.2 ∨ Label.mk n v = allPostingsKey) := by
  simp only [postingsOf, List.mem_filterMap]
  constructor
  · rintro ⟨pr, hpr, hf⟩
    by_cases hc : Label.mk n v ∈ pr.2 ∨ Label.mk n v = allPostingsKey
    · rw [if_pos hc] at hf
      cases hf
      exact ⟨pr, hpr, rfl, hc⟩
    · rw [if_neg hc] at hf
      cases hf
  · rintro ⟨pr, hpr, rfl, hc⟩
    exact ⟨pr, hpr, by rw [if_pos hc]⟩

theorem sorted_lt_of_le_nodup {l : List Nat} (hs : l.Pairwise (· ≤ ·)) (hn : l.Nodup) :
    l.Pairwise (· < ·) :=
  (hs.and hn).imp (fun h => lt_of_le_of_ne h.1 h.2)

theorem expandGet_some (l : List Nat) (fuel : Nat) (h : l.length ≤ fuel) :
    expandGet fuel (some ⟨l, 0⟩) = l :=
  expandP_lp l fuel 0 h

/-- Claim C1: for pairwise-distinct references added sequentially to an
unordered store followed by one `EnsureOrder`: for every label occurring in
some added label set, the expansion of `Get` is strictly increasing and its
members are exactly the added references whose label set contains the label;
the expansion of `All` is strictly increasing and a permutation of (i.e.
contains exactly once) every added reference; and the `All` expansion is the
same for any permutation of the `Add` sequence. -/
theorem claim_C1 (adds : List (Nat × List Label)) (fuel : Nat)
    (hrefs : (adds.map Prod.fst).Nodup)
    (hlsets : ∀ pr ∈ adds, pr.2.Nodup ∧ allPostingsKey ∉ pr.2)
    (hfuel : adds.length ≤ fuel) :
    (∀ n v, (∃ pr ∈ adds, Label.mk n v ∈ pr.2) →
      (expandGet fuel ((buildStore adds).Get n v)).Sorted (· < ·) ∧
      (∀ id, id ∈ expandGet fuel ((buildStore adds).Get n v) ↔
        ∃ pr ∈ adds, pr.1 = id ∧ Label.mk n v ∈ pr.2)) ∧
    (expandGet fuel (buildStore adds).All).Sorted (· < ·) ∧
    (expandGet fuel (buildStore adds).All).Perm (adds.map Prod.fst) ∧
    (∀ adds₂, adds₂.Perm adds →
      expandGet fuel (buildStore adds₂).All = expandGet fuel (buildStore adds).All) := by
  have hAll : ∀ (bs : List (Nat × List Label)),
      (∀ pr ∈ bs, pr.2.Nodup ∧ allPostingsKey ∉ pr.2) → bs.length ≤ fuel →
      expandGet fuel (buildStore bs).All = (bs.map Prod.fst).insertionSort (· ≤ ·) := by
    intro bs hw hlen
    unfold MemPostings.All
    rw [show allPostingsKey.Name = "" from rfl, show allPostingsKey.Value = "" from rfl]
    rw [get_buildStore bs hw "" "", postingsOf_all bs]
    by_cases hbs : bs.map Prod.fst = []
    · rw [if_pos hbs, hbs]
      rfl
    · rw [if_neg hbs]
      apply expandGet_some
      calc ((bs.map Prod.fst).insertionSort (· ≤ ·)).length
          = (bs.map Prod.fst).length := (List.perm_insertionSort _ _).length_eq
        _ = bs.length := List.length_map ..
        _ ≤ fuel := hlen
  refine ⟨?_, ?_, ?_, ?_⟩
  · intro n v hex
    rcases hex with ⟨pr0, hpr0, hmem0⟩
    have hne_all : Label.mk n v ≠ allPostingsKey := by
      intro hc
      exact (hlsets pr0 hpr0).2 (hc ▸ hmem0)
    have hpost_ne : postingsOf adds n v ≠ [] := by
      have : pr0.1 ∈ postingsOf adds n v :=
        mem_postingsOf.mpr ⟨pr0, hpr0, rfl, Or.inl hmem0⟩
      exact List.ne_nil_of_mem this
    have hlen : ((postingsOf adds n v).insertionSort (· ≤ ·)).length ≤ fuel := by
      calc ((postingsOf adds n v).insertionSort (· ≤ ·)).length
          = (postingsOf adds n v).length := (List.perm_insertionSort _ _).length_eq
        _ ≤ (adds.map Prod.fst).length := (postingsOf_sublist adds n v).length_le
        _ = adds.length := List.length_map ..
        _ ≤ fuel := hfuel
    rw [get_buildStore adds hlsets n v, if_neg hpost_ne, expandGet_some _ fuel hlen]
    have hnd : ((postingsOf adds n v).insertionSort (· ≤ ·)).Nodup :=
      (List.perm_insertionSort _ _).symm.nodup
        (List.Nodup.sublist (postingsOf_sublist adds n v) hrefs)
    refine ⟨sorted_lt_of_le_nodup (List.sorted_insertionSort _ _) hnd, ?_⟩
    intro id
    rw [(List.perm_insertionSort (· ≤ ·) (postingsOf adds n v)).mem_iff, mem_postingsOf]
    constructor
    · rintro ⟨pr, hpr, rfl, hc | hc⟩
      · exact ⟨pr, hpr, rfl, hc⟩
      · exact absurd hc hne_all
    · rintro ⟨pr, hpr, rfl, hc⟩
      exact ⟨pr, hpr, rfl, Or.inl hc⟩
  · rw [hAll adds hlsets hfuel]
    have hnd : ((adds.map Prod.fst).insertionSort (· ≤ ·)).Nodup :=
      (List.perm_insertionSort _ _).symm.nodup hrefs
    exact sorted_lt_of_le_nodup (List.sorted_insertionSort _ _) hnd
  · rw [hAll adds hlsets hfuel]
    exact List.perm_insertionSort _ _
  · intro adds₂ hperm
    have hw₂ : ∀ pr ∈ adds₂, pr.2.Nodup ∧ allPostingsKey ∉ pr.2 :=
      fun pr hpr => hlsets pr (hperm.mem_iff.mp hpr)
    have hlen₂ : adds₂.length ≤ fuel := by
      rw [hperm.length_eq]
      exact hfuel
    rw [hAll adds₂ hw₂ hlen₂, hAll adds hlsets hfuel]
    exact @List.eq_of_perm_of_sorted ℕ (· ≤ ·) _ _ _
      ((List.perm_insertionSort _ _).trans
        ((hperm.map Prod.fst).trans (List.perm_insertionSort _ _).symm))
      (List.sorted_insertionSort _ _) (List.sorted_insertionSort _ _)

theorem claim_C1_witness :
    (expandGet 5 (buildStore [(2, [Label.mk "a" "b"]), (1, [Label.mk "a" "b"])]).All).Perm
      ([(2, [Label.mk "a" "b"]), (1, [Label.mk "a" "b"])].map Prod.fst) :=
  (claim_C1 [(2, [Label.mk "a" "b"]), (1, [Label.mk "a" "b"])] 5 (by decide) (by decide)
    (by decide)).2.2.1

/-! ### Without (claim C5) -/

theorem dropWhile_lt_eq_filter_of_sorted {l : List Nat} (hs : l.Sorted (· < ·)) (x : Nat) :
    l.dropWhile (fun t => decide (t < x)) = l.filter (fun t => decide (x ≤ t)) := by
  induction l with
  | nil => rfl
  | cons a as ih =>
    rcases List.sorted_cons.mp hs with ⟨ha, has⟩
    by_cases h : a < x
    · have h' : ¬ x ≤ a := not_le.mpr h
      simp [List.dropWhile_cons, List.filter_cons, h, h', ih has]
    · have h' : x ≤ a := not_lt.mp h
      have hall : as.filter (fun t => decide (x ≤ t)) = as := by
        apply List.filter_eq_self.mpr
        intro b hb
        simpa using le_of_lt (lt_of_le_of_lt h' (ha b hb))
      simp [List.dropWhile_cons, List.filter_cons, h, h', hall]

theorem mem_dropWhile_lt_sorted {l : List Nat} (hs : l.Sorted (· < ·)) (x y : Nat) :
    y ∈ l.dropWhile (fun t => decide (t < x)) ↔ y ∈ l ∧ x ≤ y := by
  rw [dropWhile_lt_eq_filter_of_sorted hs x]
  simp [List.mem_filter]

theorem lp_next_avail (p : ListPostings) :
    (if (ListPostings.Next p).1 = true then
      (ListPostings.Next p).2.cur :: (ListPostings.Next p).2.list else []) = p.list := by
  rcases p with ⟨l, c⟩
  cases l <;> rfl

theorem lp_next_wf {p : ListPostings} (hw : p.list.Sorted (· < ·))
    (h : (ListPostings.Next p).1 = true) : lpWF (ListPostings.Next p).2 := by
  rcases p with ⟨l, c⟩
  cases l with
  | nil => simp [ListPostings.Next] at h
  | cons x xs =>
    rcases List.sorted_cons.mp hw with ⟨hx, hxs⟩
    exact ⟨hxs, hx⟩

theorem lp_seek_avail {p : ListPostings} (t : Nat) (h : p.cur < t) :
    (if (ListPostings.Seek t p).1 = true then
      (ListPostings.Seek t p).2.cur :: (ListPostings.Seek t p).2.list else []) =
    p.list.dropWhile (fun y => decide (y < t)) := by
  rw [lp_seek_adv t p h]
  rcases hd : p.list.dropWhile (fun y => decide (y < t)) with _ | ⟨y, ys⟩ <;> simp

theorem lp_seek_wf {p : ListPostings} (hw : lpWF p) (t : Nat) :
    lpWF (ListPostings.Seek t p).2 := by
  by_cases h : t ≤ p.cur
  · rw [lp_seek_noop t p h]
    exact hw
  · rw [lp_seek_adv t p (not_le.mp h)]
    rcases hd : p.list.dropWhile (fun y => decide (y < t)) with _ | ⟨y, ys⟩
    · exact ⟨List.sorted_nil, by simp⟩
    · have hsub : (y :: ys).Pairwise (· < ·) := by
        refine List.Pairwise.sublist ?_ hw.1
        rw [← hd]
        exact List.dropWhile_sublist _
      exact ⟨(List.pairwise_cons.mp hsub).2, (List.pairwise_cons.mp hsub).1⟩

theorem filter_not_contains_nil (l : List Nat) :
    l.filter (fun x => !([] : List Nat).contains x) = l :=
  List.filter_eq_self.mpr (fun _ _ => rfl)

theorem rpFA_advF (c : Nat) (rp : removedPostings ListPostings) :
    rpFA (rpAdvF c rp) = rp.full.list := by
  simpa [rpAdvF, rpFA] using lp_next_avail rp.full

theorem rpRA_advF (c : Nat) (rp : removedPostings ListPostings) :
    rpRA (rpAdvF c rp) = rpRA rp := rfl

theorem rpFA_skipF (rp : removedPostings ListPostings) :
    rpFA (rpSkipF rp) = rp.full.list := by
  simpa [rpSkipF, rpFA] using lp_next_avail rp.full

theorem rpRA_skipF (rp : removedPostings ListPostings) :
    rpRA (rpSkipF rp) = rpRA rp := rfl

theorem rpFA_seekR (rp : removedPostings ListPostings) :
    rpFA (rpSeekR rp) = rpFA rp := rfl

theorem rpRA_seekR {rp : removedPostings ListPostings}
    (h : rp.remove.cur < rp.full.cur) :
    rpRA (rpSeekR rp) =
      rp.remove.list.dropWhile (fun y => decide (y < rp.full.cur)) := by
  simpa [rpSeekR, rpRA] using lp_seek_avail rp.full.cur h

theorem removedLoop_spec :
    ∀ (fuel : Nat) (rp : removedPostings ListPostings),
    (rp.fok = true → lpWF rp.full) → (rp.rok = true → lpWF rp.remove) →
    (rpFA rp).length + (rpRA rp).length ≤ fuel →
    ((rpFA rp).filter (fun x => !(rpRA rp).contains x) = [] ∧
       (removedNextLoop lpIter fuel rp).1 = false) ∨
    (∃ m rest rp', (rpFA rp).filter (fun x => !(rpRA rp).contains x) = m :: rest ∧
       removedNextLoop lpIter fuel rp = (true, rp') ∧
       rp'.cur = m ∧ rp'.initialized = rp.initialized ∧
       (rp'.fok = true → lpWF rp'.full) ∧ (rp'.rok = true → lpWF rp'.remove) ∧
       (rpFA rp').filter (fun x => !(rpRA rp').contains x) = rest ∧
       (rpFA rp').length + (rpRA rp').length + 1 ≤ (rpFA rp).length + (rpRA rp).length) := by
  intro fuel
  induction fuel with
  | zero =>
    intro rp hwf hwr hm
    have hfok : rp.fok = false := by
      cases hf : rp.fok
      · rfl
      · rw [show rpFA rp = rp.full.cur :: rp.full.list from by simp [rpFA, hf]] at hm
        simp at hm
    left
    exact ⟨by simp [rpFA, hfok], by simp [removedNextLoop, hfok]⟩
  | succ f ih =>
    intro rp hwf hwr hm
    cases hfok : rp.fok with
    | false =>
      left
      exact ⟨by simp [rpFA, hfok], by simp [removedNextLoop, hfok]⟩
    | true =>
      have hFA : rpFA rp = rp.full.cur :: rp.full.list := by simp [rpFA, hfok]
      have hwf' := hwf hfok
      cases hrok : rp.rok with
      | false =>
        have hRA : rpRA rp = ([] : List Nat) := by simp [rpRA, hrok]
        have hstep : removedNextLoop lpIter (f + 1) rp = (true, rpAdvF rp.full.cur rp) := by
          simp [removedNextLoop, rpAdvF, hfok, hrok, lpIter, ListPostings.At]
        right
        refine ⟨rp.full.cur, rp.full.list.filter (fun x => !(rpRA rp).contains x),
          rpAdvF rp.full.cur rp, ?_, hstep, rfl, rfl,
          fun h => lp_next_wf hwf'.1 h, fun h => hwr h, ?_, ?_⟩
        · rw [hFA, hRA, filter_not_contains_nil, filter_not_contains_nil]
        · rw [rpFA_advF, rpRA_advF]
        · rw [rpFA_advF, rpRA_advF, hFA]
          simp only [List.length_cons]
          omega
      | true =>
        have hwr' := hwr hrok
        have hRA : rpRA rp = rp.remove.cur :: rp.remove.list := by simp [rpRA, hrok]
        rcases Nat.lt_trichotomy rp.full.cur rp.remove.cur with hlt | heq | hgt
        · -- deliver: full.cur below remove.cur
          have hnotin : rp.full.cur ∉ rpRA rp := by
            rw [hRA]
            intro hmem
            rcases List.mem_cons.mp hmem with h | h
            · exact absurd h (Nat.ne_of_lt hlt)
            · exact absurd (hwr'.2 _ h) (Nat.lt_asymm hlt)
          have hc : (rpRA rp).contains rp.full.cur = false := by
            simpa using hnotin
          have hstep : removedNextLoop lpIter (f + 1) rp = (true, rpAdvF rp.full.cur rp) := by
            simp [removedNextLoop, rpAdvF, hfok, hrok, lpIter, ListPostings.At, hlt]
          right
          refine ⟨rp.full.cur, rp.full.list.filter (fun x => !(rpRA rp).contains x),
            rpAdvF rp.full.cur rp, ?_, hstep, rfl, rfl,
            fun h => lp_next_wf hwf'.1 h, fun h => hwr h, ?_, ?_⟩
          · rw [hFA, List.filter_cons]
            simp [hc, hnotin]
          · rw [rpFA_advF, rpRA_advF]
          · rw [rpFA_advF, rpRA_advF, hFA]
            simp only [List.length_cons]
            omega
        · -- skip: equal heads
          have hstep : removedNextLoop lpIter (f + 1) rp =
              removedNextLoop lpIter f (rpSkipF rp) := by
            simp [removedNextLoop, rpSkipF, hfok, hrok, lpIter, ListPostings.At, heq,
              lt_irrefl]
          have hmem : rp.full.cur ∈ rpRA rp := by
            rw [hRA, heq]
            exact List.mem_cons_self _ _
          have hc : (rpRA rp).contains rp.full.cur = true := by
            simpa using hmem
          have hfeq : (rpFA rp).filter (fun x => !(rpRA rp).contains x) =
              (rpFA (rpSkipF rp)).filter (fun x => !(rpRA (rpSkipF rp)).contains x) := by
            rw [rpFA_skipF, rpRA_skipF, hFA, List.filter_cons]
            simp [hc, hmem]
          have hm₂ : (rpFA (rpSkipF rp)).length + (rpRA (rpSkipF rp)).length ≤ f := by
            rw [rpFA_skipF, rpRA_skipF]
            rw [hFA] at hm
            simp only [List.length_cons] at hm
            omega
          have hlt₂ : (rpFA (rpSkipF rp)).length + (rpRA (rpSkipF rp)).length + 1 ≤
              (rpFA rp).length + (rpRA rp).length := by
            rw [rpFA_skipF, rpRA_skipF, hFA]
            simp only [List.length_cons]
            omega
          rcases ih (rpSkipF rp) (fun h => lp_next_wf hwf'.1 h) (fun h => hwr h) hm₂ with
            ⟨hfil, hres⟩ | ⟨m, rest, rp', hcons, hrun, hcur, hinit, hw1, hw2, hrest, hmeas⟩
          · left
            exact ⟨hfeq.trans hfil, by rw [hstep]; exact hres⟩
          · right
            exact ⟨m, rest, rp', hfeq.trans hcons, hstep.trans hrun, hcur, hinit,
              hw1, hw2, hrest, by omega⟩
        · -- catch up: seek remove to full.cur
          have hstep : removedNextLoop lpIter (f + 1) rp =
              removedNextLoop lpIter f (rpSeekR rp) := by
            simp [removedNextLoop, rpSeekR, hfok, hrok, lpIter, ListPostings.At, hgt,
              Nat.lt_asymm hgt]
          have hra2 : rpRA (rpSeekR rp) =
              rp.remove.list.dropWhile (fun y => decide (y < rp.full.cur)) := rpRA_seekR hgt
          have hfeq : (rpFA rp).filter (fun x => !(rpRA rp).contains x) =
              (rpFA (rpSeekR rp)).filter (fun x => !(rpRA (rpSeekR rp)).contains x) := by
            rw [rpFA_seekR]
            apply List.filter_congr
            intro y hy
            have hyge : rp.full.cur ≤ y := by
              rw [hFA] at hy
              rcases List.mem_cons.mp hy with h | h
              · exact le_of_eq h.symm
              · exact le_of_lt (hwf'.2 y h)
            rw [hra2, hRA]
            congr 1
            simp only [List.contains, List.elem_eq_mem, decide_eq_decide]
            rw [mem_dropWhile_lt_sorted hwr'.1]
            constructor
            · intro h
              rcases List.mem_cons.mp h with h | h
              · subst h
                exact absurd hyge (not_le.mpr hgt)
              · exact ⟨h, hyge⟩
            · intro h
              exact List.mem_cons_of_mem _ h.1
          have hlen : (rp.remove.list.dropWhile (fun y => decide (y < rp.full.cur))).length ≤
              rp.remove.list.length := (List.dropWhile_sublist _).length_le
          have hm₂ : (rpFA (rpSeekR rp)).length + (rpRA (rpSeekR rp)).length ≤ f := by
            rw [rpFA_seekR, hra2]
            rw [hRA] at hm
            simp only [List.length_cons] at hm
            omega
          have hlt₂ : (rpFA (rpSeekR rp)).length + (rpRA (rpSeekR rp)).length + 1 ≤
              (rpFA rp).length + (rpRA rp).length := by
            rw [rpFA_seekR, hra2, hRA]
            simp only [List.length_cons]
            omega
          rcases ih (rpSeekR rp) (fun h => hwf h) (fun h => lp_seek_wf hwr' rp.full.cur) hm₂ with
            ⟨hfil, hres⟩ | ⟨m, rest, rp', hcons, hrun, hcur, hinit, hw1, hw2, hrest, hmeas⟩
          · left
            exact ⟨hfeq.trans hfil, by rw [hstep]; exact hres⟩
          · right
            exact ⟨m, rest, rp', hfeq.trans hcons, hstep.trans hrun, hcur, hinit,
              hw1, hw2, hrest, by omega⟩

theorem rpInit_idem {α : Type} (I : PIter α) (rp : removedPostings α) :
    rpInit I (rpInit I rp) = rpInit I rp := by
  cases h : rp.initialized <;> simp [rpInit, h]

theorem expandP_rpInit (fuelN fuelE : Nat) (rp : removedPostings ListPostings) :
    expandP (rpIter lpIter fuelN) fuelE rp =
      expandP (rpIter lpIter fuelN) fuelE (rpInit lpIter rp) := by
  cases fuelE with
  | zero => rfl
  | succ e =>
    have h : (rpIter lpIter fuelN).Next rp = (rpIter lpIter fuelN).Next (rpInit lpIter rp) := by
      show removedNext lpIter fuelN rp = removedNext lpIter fuelN (rpInit lpIter rp)
      simp only [removedNext, rpInit_idem]
    simp only [expandP, h]

theorem removed_expand (fuelN : Nat) :
    ∀ (fuelE : Nat) (rp : removedPostings ListPostings),
    (rp.fok = true → lpWF rp.full) → (rp.rok = true → lpWF rp.remove) →
    rp.initialized = true →
    (rpFA rp).length + (rpRA rp).length ≤ fuelN →
    (rpFA rp).length + (rpRA rp).length < fuelE →
    expandP (rpIter lpIter fuelN) fuelE rp =
      (rpFA rp).filter (fun x => !(rpRA rp).contains x) := by
  intro fuelE
  induction fuelE with
  | zero =>
    intro rp _ _ _ _ hlt
    exact absurd hlt (Nat.not_lt_zero _)
  | succ e ih =>
    intro rp hwf hwr hinit hmN hmE
    have hri : rpInit lpIter rp = rp := by simp [rpInit, hinit]
    rcases removedLoop_spec fuelN rp hwf hwr hmN with ⟨hfil, hres⟩ |
      ⟨m, rest, rp', hcons, hrun, hcur, hinit', hw1, hw2, hrest, hmeas⟩
    · rcases hres2 : removedNextLoop lpIter fuelN rp with ⟨b, rps⟩
      rw [hres2] at hres
      simp only at hres
      subst hres
      have hN : (rpIter lpIter fuelN).Next rp = (false, rps) := by
        show removedNext lpIter fuelN rp = (false, rps)
        rw [removedNext, hri, hres2]
      rw [hfil]
      simp only [expandP, hN]
    · have hN : (rpIter lpIter fuelN).Next rp = (true, rp') := by
        show removedNext lpIter fuelN rp = (true, rp')
        rw [removedNext, hri, hrun]
      simp only [expandP, hN]
      rw [hcons]
      have hAt : (rpIter lpIter fuelN).At rp' = m := hcur
      rw [hAt]
      have hrec : expandP (rpIter lpIter fuelN) e rp' =
          (rpFA rp').filter (fun x => !(rpRA rp').contains x) :=
        ih rp' hw1 hw2 (hinit'.trans hinit) (by omega) (by omega)
      rw [hrec, hrest]

theorem rpInit_new (lf ld : List Nat) :
    rpInit lpIter (newRemovedPostings (newListPostings lf) (newListPostings ld)) =
      { full := (ListPostings.Next ⟨lf, 0⟩).2, remove := (ListPostings.Next ⟨ld, 0⟩).2,
        cur := 0, initialized := true,
        fok := (ListPostings.Next ⟨lf, 0⟩).1, rok := (ListPostings.Next ⟨ld, 0⟩).1 } := rfl

/-- Claim C5: `Without(full, drop)` over conforming strictly-increasing inputs
yields exactly the values of `full` not present in `drop` (in particular in
increasing order, as a filter of the increasing input); `Without` short-circuits
to the empty sentinel when `full` is the sentinel and to `full` itself when
`drop` is the sentinel (whose expansion is all of `full`'s values); the concrete
instance `{1,2,3,4,5} \ {2,4}` yields exactly `{1,3,5}` (lines 649-731). -/
theorem claim_C5 :
    (∀ (lf ld : List Nat) (fuel : Nat), lf.Sorted (· < ·) → ld.Sorted (· < ·) →
      lf.length + ld.length + 2 ≤ fuel →
      expandWithoutOut fuel (Without (some (newListPostings lf)) (some (newListPostings ld))) =
        lf.filter (fun x => !ld.contains x)) ∧
    (∀ d : Option ListPostings, Without none d = WithoutOut.emptyO) ∧
    (∀ f : ListPostings, Without (some f) none = WithoutOut.passthrough f) ∧
    (∀ (l : List Nat) (fuel : Nat), l.length ≤ fuel →
      expandWithoutOut fuel (Without (some (newListPostings l)) none) = l) ∧
    expandWithoutOut 16 (Without (some (newListPostings [1, 2, 3, 4, 5]))
      (some (newListPostings [2, 4]))) = [1, 3, 5] := by
  refine ⟨?_, fun _ => rfl, fun _ => rfl, ?_, ?_⟩
  · intro lf ld fuel hsf hsd hfuel
    have hFA0 : rpFA (rpInit lpIter
        (newRemovedPostings (newListPostings lf) (newListPostings ld))) = lf := by
      rw [rpInit_new]
      simpa [rpFA] using lp_next_avail ⟨lf, 0⟩
    have hRA0 : rpRA (rpInit lpIter
        (newRemovedPostings (newListPostings lf) (newListPostings ld))) = ld := by
      rw [rpInit_new]
      simpa [rpRA] using lp_next_avail ⟨ld, 0⟩
    have hwf0 : (rpInit lpIter
        (newRemovedPostings (newListPostings lf) (newListPostings ld))).fok = true →
        lpWF (rpInit lpIter
          (newRemovedPostings (newListPostings lf) (newListPostings ld))).full := by
      rw [rpInit_new]
      exact fun h => lp_next_wf hsf h
    have hwr0 : (rpInit lpIter
        (newRemovedPostings (newListPostings lf) (newListPostings ld))).rok = true →
        lpWF (rpInit lpIter
          (newRemovedPostings (newListPostings lf) (newListPostings ld))).remove := by
      rw [rpInit_new]
      exact fun h => lp_next_wf hsd h
    have hinit0 : (rpInit lpIter
        (newRemovedPostings (newListPostings lf) (newListPostings ld))).initialized = true := by
      rw [rpInit_new]
    have hconv : expandWithoutOut fuel
        (Without (some (newListPostings lf)) (some (newListPostings ld))) =
        expandP (rpIter lpIter fuel) fuel
          (newRemovedPostings (newListPostings lf) (newListPostings ld)) := rfl
    rw [hconv, expandP_rpInit fuel fuel,
      removed_expand fuel fuel _ hwf0 hwr0 hinit0 (by rw [hFA0, hRA0]; omega)
        (by rw [hFA0, hRA0]; omega),
      hFA0, hRA0]
  · intro l fuel h
    show expandP lpIter fuel (newListPostings l) = l
    exact expandP_lp l fuel 0 h
  · rfl

theorem claim_C5_witness :
    ([1, 2, 3, 4, 5] : List Nat).Sorted (· < ·) ∧
    expandWithoutOut 16 (Without (some (newListPostings [1, 2, 3, 4, 5]))
      (some (newListPostings [2, 4]))) =
      ([1, 2, 3, 4, 5] : List Nat).filter (fun x => !([2, 4] : List Nat).contains x) :=
  ⟨by decide, claim_C5.1 [1, 2, 3, 4, 5] [2, 4] 16 (by decide) (by decide) (by decide)⟩

/-! ### Intersect (claim C4) -/

theorem sorted_lt_nodup {l : List Nat} (h : l.Sorted (· < ·)) : l.Nodup :=
  List.Pairwise.imp (fun h => ne_of_lt h) h

theorem lpWF_pAvail_sorted {p : ListPostings} (hw : lpWF p) :
    (pAvail p).Sorted (· < ·) :=
  List.sorted_cons.mpr ⟨hw.2, hw.1⟩

theorem pAvail_sorted_lpWF {p : ListPostings} (hs : (pAvail p).Sorted (· < ·)) :
    lpWF p :=
  ⟨(List.sorted_cons.mp hs).2, (List.sorted_cons.mp hs).1⟩

theorem mem_interList_iff {l1 : List Nat} {rest : List (List Nat)} {v : Nat} :
    v ∈ interList (l1 :: rest) ↔ v ∈ l1 ∧ ∀ l ∈ rest, v ∈ l := by
  simp [interList, List.mem_filter, List.all_eq_true, List.contains, List.elem_eq_mem]

theorem interList_sorted {l1 : List Nat} {rest : List (List Nat)}
    (hs : l1.Sorted (· < ·)) : (interList (l1 :: rest)).Sorted (· < ·) :=
  List.Pairwise.filter _ hs

theorem forall₂_mem_right {α β : Type} {R : α → β → Prop} :
    ∀ {l₁ : List α} {l₂ : List β}, List.Forall₂ R l₁ l₂ → ∀ {b}, b ∈ l₂ → ∃ a ∈ l₁, R a b := by
  intro l₁ l₂ h
  induction h with
  | nil =>
    intro b hb
    simp at hb
  | cons hpq hrest ih =>
    intro b hb
    rcases List.mem_cons.mp hb with h | h
    · exact ⟨_, List.mem_cons_self .., h ▸ hpq⟩
    · rcases ih h with ⟨a, ha, hr⟩
      exact ⟨a, List.mem_cons_of_mem _ ha, hr⟩

theorem forall₂_mem_left {α β : Type} {R : α → β → Prop} :
    ∀ {l₁ : List α} {l₂ : List β}, List.Forall₂ R l₁ l₂ → ∀ {a}, a ∈ l₁ → ∃ b ∈ l₂, R a b := by
  intro l₁ l₂ h
  induction h with
  | nil =>
    intro a ha
    simp at ha
  | cons hpq hrest ih =>
    intro a ha
    rcases List.mem_cons.mp ha with h | h
    · exact ⟨_, List.mem_cons_self .., h ▸ hpq⟩
    · rcases ih h with ⟨b, hb, hr⟩
      exact ⟨b, List.mem_cons_of_mem _ hb, hr⟩

theorem sum_map_le_forall₂ {α β : Type} {R : α → β → Prop} {l₁ : List α} {l₂ : List β}
    {f : β → Nat} {g : α → Nat} (h : List.Forall₂ R l₁ l₂)
    (hfg : ∀ a b, R a b → f b ≤ g a) : (l₂.map f).sum ≤ (l₁.map g).sum := by
  induction h with
  | nil => simp
  | cons hpq hrest ih =>
    simp only [List.map_cons, List.sum_cons]
    exact Nat.add_le_add (hfg _ _ hpq) ih

theorem countP_lt_of_mem {A : List Nat} {c c' : Nat} (hcc : c < c')
    (hmem : c' ∈ A) :
    A.countP (fun v => decide (c' < v)) + 1 ≤ A.countP (fun v => decide (c < v)) := by
  induction A with
  | nil => simp at hmem
  | cons x xs ih =>
    rcases List.mem_cons.mp hmem with h | h
    · subst h
      have h1 : xs.countP (fun v => decide (c' < v)) ≤ xs.countP (fun v => decide (c < v)) :=
        List.countP_mono_left (fun v _ hv => by
          simp only [decide_eq_true_eq] at hv ⊢
          exact lt_trans hcc hv)
      simp only [List.countP_cons, decide_eq_true_eq]
      simp [lt_irrefl, hcc]
      omega
    · have hih := ih h
      simp only [List.countP_cons, decide_eq_true_eq]
      by_cases hx : c' < x
      · have hx2 : c < x := lt_trans hcc hx
        simp [hx, hx2]
        omega
      · by_cases hx2 : c < x <;> simp [hx, hx2] <;> omega

theorem dropWhile_lt_dropWhile {l : List Nat} (hs : l.Sorted (· < ·)) {c c'' : Nat}
    (h : c ≤ c'') :
    (l.dropWhile (fun v => decide (v < c))).dropWhile (fun v => decide (v < c'')) =
      l.dropWhile (fun v => decide (v < c'')) := by
  rw [dropWhile_lt_eq_filter_of_sorted hs c,
    dropWhile_lt_eq_filter_of_sorted (List.Pairwise.filter _ hs) c'',
    dropWhile_lt_eq_filter_of_sorted hs c'', List.filter_filter]
  apply List.filter_congr
  intro v _
  by_cases hc : c'' ≤ v
  · simp [hc, le_trans h hc]
  · simp [hc]

theorem eq_of_sorted_lt_of_mem_iff {l₁ l₂ : List Nat} (h₁ : l₁.Sorted (· < ·))
    (h₂ : l₂.Sorted (· < ·)) (h : ∀ v, v ∈ l₁ ↔ v ∈ l₂) : l₁ = l₂ := by
  have hperm : l₁.Perm l₂ :=
    (List.perm_ext_iff_of_nodup (sorted_lt_nodup h₁) (sorted_lt_nodup h₂)).mpr h
  exact @List.eq_of_perm_of_sorted ℕ (· < ·) _ _ _ hperm h₁ h₂

theorem lp_seek_char {p : ListPostings} (hw : lpWF p) (c : Nat) :
    ((ListPostings.Seek c p).1 = false ∧ ∀ v ∈ pAvail p, v < c) ∨
    ((ListPostings.Seek c p).1 = true ∧
      pAvail (ListPostings.Seek c p).2 =
        (pAvail p).dropWhile (fun v => decide (v < c)) ∧
      lpWF (ListPostings.Seek c p).2) := by
  by_cases h : c ≤ p.cur
  · right
    rw [lp_seek_noop c p h]
    exact ⟨rfl, by simp [pAvail, List.dropWhile_cons, not_lt.mpr h], hw⟩
  · have hlt : p.cur < c := not_le.mp h
    rw [lp_seek_adv c p hlt]
    rcases hd : p.list.dropWhile (fun y => decide (y < c)) with _ | ⟨y, ys⟩
    · left
      refine ⟨rfl, ?_⟩
      intro v hv
      rcases List.mem_cons.mp hv with h1 | h1
      · exact h1 ▸ hlt
      · have := List.dropWhile_eq_nil_iff.mp hd v h1
        simpa using this
    · right
      refine ⟨rfl, ?_, ?_⟩
      · show y :: ys = (pAvail p).dropWhile (fun v => decide (v < c))
        simp only [pAvail, List.dropWhile_cons]
        rw [if_pos (by simp [hlt])]
        exact hd.symm
      · have hsub : (y :: ys).Pairwise (· < ·) := by
          refine List.Pairwise.sublist ?_ hw.1
          rw [← hd]
          exact List.dropWhile_sublist _
        exact ⟨(List.pairwise_cons.mp hsub).2, (List.pairwise_cons.mp hsub).1⟩

theorem sorted_head_min {x : Nat} {xs : List Nat} (hs : (x :: xs).Sorted (· < ·))
    {v : Nat} (hv : v ∈ x :: xs) : x ≤ v := by
  rcases List.mem_cons.mp hv with h | h
  · exact le_of_eq h.symm
  · exact le_of_lt ((List.sorted_cons.mp hs).1 v h)

theorem intersectSweep_spec (c : Nat) :
    ∀ (arr : List ListPostings), (∀ p ∈ arr, lpWF p) →
    (∃ a, intersectSweep lpIter c arr = .fail a ∧
       ∃ p ∈ arr, ∀ v ∈ pAvail p, v < c) ∨
    (∃ a, intersectSweep lpIter c arr = .done a ∧
       List.Forall₂ (fun p q => pAvail q =
         (pAvail p).dropWhile (fun v => decide (v < c))) arr a ∧
       ∀ q ∈ a, lpWF q ∧ q.cur = c) ∨
    (∃ c' a, intersectSweep lpIter c arr = .restart c' a ∧ c < c' ∧
       List.Forall₂ (fun p q => pAvail q = pAvail p ∨
         pAvail q = (pAvail p).dropWhile (fun v => decide (v < c))) arr a ∧
       (∀ q ∈ a, lpWF q) ∧
       (∃ p ∈ arr, c' ∈ pAvail p ∧ ∀ v ∈ pAvail p, c ≤ v → c' ≤ v)) := by
  intro arr
  induction arr with
  | nil =>
    intro _
    right; left
    exact ⟨[], rfl, List.Forall₂.nil, by simp⟩
  | cons p rest ih =>
    intro hwf
    have hwfp : lpWF p := hwf p (List.mem_cons_self ..)
    have hwfr : ∀ q ∈ rest, lpWF q := fun q hq => hwf q (List.mem_cons_of_mem _ hq)
    rcases hsk : ListPostings.Seek c p with ⟨b, p'⟩
    have hchar := lp_seek_char hwfp c
    rw [hsk] at hchar
    simp only at hchar
    have hSeekL : lpIter.Seek c p = (b, p') := hsk
    rcases hchar with ⟨hb, hfail⟩ | ⟨hb, hAv, hwp'⟩
    · subst hb
      left
      refine ⟨p' :: rest, ?_, p, List.mem_cons_self .., hfail⟩
      simp only [intersectSweep, hSeekL]
    · subst hb
      have hdw : (pAvail p).dropWhile (fun v => decide (v < c)) = p'.cur :: p'.list :=
        hAv.symm
      have hcur : c ≤ p'.cur := by
        have h0 := dropWhile_head_not hdw
        simpa using h0
      by_cases hgt : p'.cur > c
      · right; right
        refine ⟨p'.cur, p' :: rest, ?_, hgt, ?_, ?_, p, List.mem_cons_self .., ?_, ?_⟩
        · simp only [intersectSweep, hSeekL]
          rw [if_pos (show lpIter.At p' > c from hgt)]
          rfl
        · exact List.Forall₂.cons (Or.inr hAv)
            ((List.forall₂_same).mpr (fun q _ => Or.inl rfl))
        · intro q hq
          rcases List.mem_cons.mp hq with rfl | h1
          · exact hwp'
          · exact hwfr q h1
        · have hmem : p'.cur ∈ (pAvail p).dropWhile (fun v => decide (v < c)) := by
            rw [hdw]
            exact List.mem_cons_self ..
          exact (List.dropWhile_sublist _).subset hmem
        · intro v hv hcv
          have hvd : v ∈ (pAvail p).dropWhile (fun v => decide (v < c)) :=
            (mem_dropWhile_lt_sorted (lpWF_pAvail_sorted hwfp) c v).mpr ⟨hv, hcv⟩
          rw [hdw] at hvd
          exact sorted_head_min (lpWF_pAvail_sorted hwp') hvd
      · have hceq : p'.cur = c := le_antisymm (not_lt.mp hgt) hcur
        rcases ih hwfr with ⟨a, hsw, p₀, hp₀, hfail₀⟩ |
          ⟨a, hsw, hfa, hq⟩ | ⟨c', a, hsw, hcc, hfa, hwq, p₀, hp₀, hmem₀, hmin₀⟩
        · left
          refine ⟨p' :: a, ?_, p₀, List.mem_cons_of_mem _ hp₀, hfail₀⟩
          simp only [intersectSweep, hSeekL]
          rw [if_neg (show ¬ lpIter.At p' > c from hgt), hsw]
        · right; left
          refine ⟨p' :: a, ?_, List.Forall₂.cons hAv hfa, ?_⟩
          · simp only [intersectSweep, hSeekL]
            rw [if_neg (show ¬ lpIter.At p' > c from hgt), hsw]
          · intro q hq'
            rcases List.mem_cons.mp hq' with rfl | h1
            · exact ⟨hwp', hceq⟩
            · exact hq q h1
        · right; right
          refine ⟨c', p' :: a, ?_, hcc, List.Forall₂.cons (Or.inr hAv) hfa, ?_,
            p₀, List.mem_cons_of_mem _ hp₀, hmem₀, hmin₀⟩
          · simp only [intersectSweep, hSeekL]
            rw [if_neg (show ¬ lpIter.At p' > c from hgt), hsw]
          · intro q hq'
            rcases List.mem_cons.mp hq' with rfl | h1
            · exact hwp'
            · exact hwq q h1

theorem sum_map_lt_of_mem {α : Type} {l : List α} {f g : α → Nat}
    (hle : ∀ p ∈ l, f p ≤ g p) {p₀ : α} (hmem : p₀ ∈ l) (hstrict : f p₀ + 1 ≤ g p₀) :
    (l.map f).sum + 1 ≤ (l.map g).sum := by
  induction l with
  | nil => simp at hmem
  | cons x xs ih =>
    simp only [List.map_cons, List.sum_cons]
    rcases List.mem_cons.mp hmem with rfl | h
    · have h2 : (xs.map f).sum ≤ (xs.map g).sum :=
        List.sum_le_sum (fun q hq => hle q (List.mem_cons_of_mem _ hq))
      omega
    · have h2 := ih (fun q hq => hle q (List.mem_cons_of_mem _ hq)) h
      have h3 : f x ≤ g x := hle x (List.mem_cons_self ..)
      omega

theorem forall₂_avail_comp {cur c'' : Nat} (hc : cur ≤ c'') :
    ∀ {arr a a'' : List ListPostings}, (∀ p ∈ arr, lpWF p) →
    List.Forall₂ (fun p q => pAvail q = pAvail p ∨
      pAvail q = (pAvail p).dropWhile (fun v => decide (v < cur))) arr a →
    List.Forall₂ (fun p q => pAvail q =
      (pAvail p).dropWhile (fun v => decide (v < c''))) a a'' →
    List.Forall₂ (fun p q => pAvail q =
      (pAvail p).dropWhile (fun v => decide (v < c''))) arr a'' := by
  intro arr a a'' hwf h₁
  revert hwf
  induction h₁ generalizing a'' with
  | nil =>
    intro _ h₂
    cases h₂
    exact List.Forall₂.nil
  | cons hpq h ih =>
    rename_i p q arr' a'
    intro hwf h₂
    rcases List.forall₂_cons_left_iff.mp h₂ with ⟨q'', a₂, hqq, hrest, rfl⟩
    refine List.Forall₂.cons ?_ (ih (fun r hr => hwf r (List.mem_cons_of_mem _ hr)) hrest)
    rw [hqq]
    rcases hpq with h | h
    · rw [h]
    · rw [h, dropWhile_lt_dropWhile (lpWF_pAvail_sorted (hwf p (List.mem_cons_self ..))) hc]

theorem intersectDoNext_spec :
    ∀ (fuel : Nat) (it : intersectPostings ListPostings),
    (∀ p ∈ it.arr, lpWF p) →
    (it.arr.map (fun p => (pAvail p).countP (fun v => decide (it.cur < v)))).sum ≤ fuel →
    (∃ st, intersectDoNext lpIter fuel it = (false, st) ∧
       ∀ v, it.cur ≤ v → ∃ p ∈ it.arr, v ∉ pAvail p) ∨
    (∃ c a, intersectDoNext lpIter fuel it = (true, ⟨a, c⟩) ∧ it.cur ≤ c ∧
       (∀ q ∈ a, lpWF q ∧ q.cur = c) ∧
       List.Forall₂ (fun p q => pAvail q =
         (pAvail p).dropWhile (fun v => decide (v < c))) it.arr a ∧
       (∀ v, it.cur ≤ v → (∀ p ∈ it.arr, v ∈ pAvail p) → c ≤ v)) := by
  intro fuel
  induction fuel with
  | zero =>
    intro it hwf hm
    rcases intersectSweep_spec it.cur it.arr hwf with ⟨a, hsw, p₀, hp₀, hfail⟩ |
      ⟨a, hsw, hfa, hq⟩ | ⟨c', a, hsw, hcc, hfa, hwq, p₀, hp₀, hmem₀, hmin₀⟩
    · left
      refine ⟨⟨a, it.cur⟩, ?_, ?_⟩
      · rw [intersectDoNext_unfold, hsw]
      · intro v hv
        exact ⟨p₀, hp₀, fun hvp => absurd (hfail v hvp) (not_lt.mpr hv)⟩
    · right
      refine ⟨it.cur, a, ?_, le_refl _, hq, hfa, fun v hv _ => hv⟩
      rw [intersectDoNext_unfold, hsw]
    · exfalso
      have h1 : 0 < (pAvail p₀).countP (fun v => decide (it.cur < v)) :=
        List.countP_pos_iff.mpr ⟨c', hmem₀, by simpa using hcc⟩
      have h2 : (pAvail p₀).countP (fun v => decide (it.cur < v)) ≤
          (it.arr.map (fun p => (pAvail p).countP (fun v => decide (it.cur < v)))).sum :=
        List.single_le_sum (fun _ _ => Nat.zero_le _) _ (List.mem_map_of_mem _ hp₀)
      omega
  | succ f ih =>
    intro it hwf hm
    rcases intersectSweep_spec it.cur it.arr hwf with ⟨a, hsw, p₀, hp₀, hfail⟩ |
      ⟨a, hsw, hfa, hq⟩ | ⟨c', a, hsw, hcc, hfa, hwq, p₀, hp₀, hmem₀, hmin₀⟩
    · left
      refine ⟨⟨a, it.cur⟩, ?_, ?_⟩
      · rw [intersectDoNext_unfold, hsw]
      · intro v hv
        exact ⟨p₀, hp₀, fun hvp => absurd (hfail v hvp) (not_lt.mpr hv)⟩
    · right
      refine ⟨it.cur, a, ?_, le_refl _, hq, hfa, fun v hv _ => hv⟩
      rw [intersectDoNext_unfold, hsw]
    · have hstep : intersectDoNext lpIter (f + 1) it = intersectDoNext lpIter f ⟨a, c'⟩ := by
        rw [intersectDoNext_unfold, hsw]
      have hchain1 : (a.map (fun q => (pAvail q).countP (fun v => decide (c' < v)))).sum ≤
          (it.arr.map (fun p => (pAvail p).countP (fun v => decide (c' < v)))).sum := by
        refine sum_map_le_forall₂ hfa ?_
        intro p q hR
        rcases hR with h | h
        · rw [h]
        · rw [h]
          exact List.Sublist.countP_le _ (List.dropWhile_sublist _)
      have hchain2 :
          (it.arr.map (fun p => (pAvail p).countP (fun v => decide (c' < v)))).sum + 1 ≤
          (it.arr.map (fun p => (pAvail p).countP (fun v => decide (it.cur < v)))).sum := by
        refine sum_map_lt_of_mem ?_ hp₀ ?_
        · intro p _
          exact List.countP_mono_left (fun v _ hv => by
            simp only [decide_eq_true_eq] at hv ⊢
            exact lt_trans hcc hv)
        · exact countP_lt_of_mem hcc hmem₀
      have hm₂ : (a.map (fun q => (pAvail q).countP (fun v => decide (c' < v)))).sum ≤ f := by
        omega
      rcases ih ⟨a, c'⟩ hwq hm₂ with ⟨st, hres, hnone⟩ |
        ⟨c'', a'', hres, hcc₂, hq₂, hfa₂, hmin₂⟩
      · left
        refine ⟨st, hstep.trans hres, ?_⟩
        intro v hv
        by_cases hvc : v < c'
        · exact ⟨p₀, hp₀, fun hvp => absurd (hmin₀ v hvp hv) (not_le.mpr hvc)⟩
        · rcases hnone v (not_lt.mp hvc) with ⟨q, hqa, hvq⟩
          rcases forall₂_mem_right hfa hqa with ⟨p, hparr, hR⟩
          refine ⟨p, hparr, ?_⟩
          rcases hR with h | h
          · intro hvp
            exact hvq (by rw [h]; exact hvp)
          · intro hvp
            exact hvq (by
              rw [h]
              exact (mem_dropWhile_lt_sorted (lpWF_pAvail_sorted (hwf p hparr)) it.cur v).mpr
                ⟨hvp, hv⟩)
      · right
        refine ⟨c'', a'', hstep.trans hres, le_trans (le_of_lt hcc) hcc₂, hq₂, ?_, ?_⟩
        · exact forall₂_avail_comp (le_trans (le_of_lt hcc) hcc₂) hwf hfa hfa₂
        · intro v hv hcom
          have hvc' : c' ≤ v := hmin₀ v (hcom p₀ hp₀) hv
          refine hmin₂ v hvc' ?_
          intro q hqa
          rcases forall₂_mem_right hfa hqa with ⟨p, hparr, hR⟩
          rcases hR with h | h
          · rw [h]
            exact hcom p hparr
          · rw [h]
            exact (mem_dropWhile_lt_sorted (lpWF_pAvail_sorted (hwf p hparr)) it.cur v).mpr
              ⟨hcom p hparr, hv⟩

theorem intersectAdvance_spec :
    ∀ (arr : List ListPostings), (∀ p ∈ arr, p.list.Sorted (· < ·)) → ∀ (cur : Nat),
    ((intersectAdvance lpIter arr cur).1 = false ∧ ∃ p ∈ arr, p.list = []) ∨
    ((intersectAdvance lpIter arr cur).1 = true ∧
      List.Forall₂ (fun p q => pAvail q = p.list) arr (intersectAdvance lpIter arr cur).2.1 ∧
      (∀ q ∈ (intersectAdvance lpIter arr cur).2.1, lpWF q) ∧
      cur ≤ (intersectAdvance lpIter arr cur).2.2 ∧
      (∀ q ∈ (intersectAdvance lpIter arr cur).2.1,
        q.cur ≤ (intersectAdvance lpIter arr cur).2.2) ∧
      ((intersectAdvance lpIter arr cur).2.2 = cur ∨
        ∃ q ∈ (intersectAdvance lpIter arr cur).2.1,
          (intersectAdvance lpIter arr cur).2.2 = q.cur)) := by
  intro arr
  induction arr with
  | nil =>
    intro _ cur
    right
    exact ⟨rfl, List.Forall₂.nil, fun q hq => absurd hq (List.not_mem_nil q), le_refl _,
      fun q hq => absurd hq (List.not_mem_nil q), Or.inl rfl⟩
  | cons p rest ih =>
    intro hs cur
    have hsp : p.list.Sorted (· < ·) := hs p (List.mem_cons_self ..)
    have hsr : ∀ q ∈ rest, q.list.Sorted (· < ·) :=
      fun q hq => hs q (List.mem_cons_of_mem _ hq)
    cases hl : p.list with
    | nil =>
      have hnx : ListPostings.Next p = (false, ⟨[], 0⟩) := by
        simp [ListPostings.Next, hl]
      have hstep : intersectAdvance lpIter (p :: rest) cur =
          (false, (⟨[], 0⟩ : ListPostings) :: rest, cur) := by
        simp only [intersectAdvance, lpIter, hnx]
      left
      rw [hstep]
      exact ⟨rfl, p, List.mem_cons_self .., hl⟩
    | cons x xs =>
      have hnx : ListPostings.Next p = (true, ⟨xs, x⟩) := by
        simp [ListPostings.Next, hl]
      have hstep : intersectAdvance lpIter (p :: rest) cur =
          ((intersectAdvance lpIter rest (if x > cur then x else cur)).1,
           (⟨xs, x⟩ : ListPostings) ::
             (intersectAdvance lpIter rest (if x > cur then x else cur)).2.1,
           (intersectAdvance lpIter rest (if x > cur then x else cur)).2.2) := by
        simp only [intersectAdvance, lpIter, ListPostings.At, hnx]
      have hcc2 : cur ≤ (if x > cur then x else cur) := by
        by_cases h : x > cur
        · rw [if_pos h]
          omega
        · rw [if_neg h]
      have hxc2 : x ≤ (if x > cur then x else cur) := by
        by_cases h : x > cur
        · rw [if_pos h]
        · rw [if_neg h]
          omega
      rcases ih hsr (if x > cur then x else cur) with ⟨hr1, p₀, hp₀, hl₀⟩ |
        ⟨hr1, hfa, hwq, hcle, hqle, hlast⟩
      · left
        rw [hstep]
        exact ⟨hr1, p₀, List.mem_cons_of_mem _ hp₀, hl₀⟩
      · right
        rw [hstep]
        refine ⟨hr1, ?_, ?_, le_trans hcc2 hcle, ?_, ?_⟩
        · refine List.Forall₂.cons ?_ hfa
          rw [hl]
          rfl
        · intro q hq
          rcases List.mem_cons.mp hq with rfl | h1
          · have := List.sorted_cons.mp (hl ▸ hsp)
            exact ⟨this.2, this.1⟩
          · exact hwq q h1
        · intro q hq
          rcases List.mem_cons.mp hq with rfl | h1
          · exact le_trans hxc2 hcle
          · exact hqle q h1
        · rcases hlast with hceq | ⟨q, hqm, hqe⟩
          · by_cases hx : x > cur
            · right
              refine ⟨⟨xs, x⟩, List.mem_cons_self .., ?_⟩
              rw [hceq]
              simp [hx]
            · left
              rw [hceq]
              simp [hx]
          · exact Or.inr ⟨q, List.mem_cons_of_mem _ hqm, hqe⟩

theorem sum_map_succ_le_forall₂ {α β : Type} {R : α → β → Prop} {l₁ : List α} {l₂ : List β}
    {f : β → Nat} {g : α → Nat} (h : List.Forall₂ R l₁ l₂) (hne : l₁ ≠ [])
    (hfg : ∀ a b, R a b → f b + 1 ≤ g a) : (l₂.map f).sum + 1 ≤ (l₁.map g).sum := by
  cases h with
  | nil => exact absurd rfl hne
  | cons hab h' =>
    rename_i a b l₁' l₂'
    simp only [List.map_cons, List.sum_cons]
    have h2 := sum_map_le_forall₂ h' (fun x y hr => Nat.le_of_succ_le (hfg x y hr))
    have h3 := hfg a b hab
    omega

theorem mem_interList_avails {arr : List ListPostings} (hne : arr ≠ [])
    {v : Nat} : v ∈ interList (arr.map pAvail) ↔ ∀ p ∈ arr, v ∈ pAvail p := by
  rcases arr with _ | ⟨p1, rest⟩
  · exact absurd rfl hne
  · rw [List.map_cons, mem_interList_iff]
    constructor
    · rintro ⟨h1, h2⟩ p hp
      rcases List.mem_cons.mp hp with rfl | hp'
      · exact h1
      · exact h2 _ (List.mem_map_of_mem _ hp')
    · intro h
      refine ⟨h p1 (List.mem_cons_self ..), ?_⟩
      intro l hl
      rcases List.mem_map.mp hl with ⟨p, hp, rfl⟩
      exact h p (List.mem_cons_of_mem _ hp)

theorem interList_avails_sorted {arr : List ListPostings} (h : ∀ p ∈ arr, lpWF p) :
    (interList (arr.map pAvail)).Sorted (· < ·) := by
  rcases arr with _ | ⟨p1, rest⟩
  · exact List.sorted_nil
  · rw [List.map_cons]
    exact interList_sorted (lpWF_pAvail_sorted (h p1 (List.mem_cons_self ..)))

theorem intersect_expand (fuelN : Nat) :
    ∀ (fuelE : Nat) (it : intersectPostings ListPostings),
    it.arr ≠ [] →
    (∀ p ∈ it.arr, lpWF p ∧ p.cur = it.cur) →
    (it.arr.map (fun p => (pAvail p).length)).sum ≤ fuelN →
    (it.arr.map (fun p => (pAvail p).length)).sum < fuelE →
    expandP (ipIter lpIter fuelN) fuelE it =
      (interList (it.arr.map pAvail)).filter (fun v => decide (it.cur < v)) := by
  intro fuelE
  induction fuelE with
  | zero =>
    intro it _ _ _ hmE
    exact absurd hmE (Nat.not_lt_zero _)
  | succ e ih =>
    intro it hne hconv hmN hmE
    have hwf : ∀ p ∈ it.arr, lpWF p := fun p hp => (hconv p hp).1
    have hsorted : ∀ p ∈ it.arr, p.list.Sorted (· < ·) := fun p hp => (hwf p hp).1
    have hadvspec := intersectAdvance_spec it.arr hsorted it.cur
    rcases hadv : intersectAdvance lpIter it.arr it.cur with ⟨b, o⟩
    rcases o with ⟨a2, c2⟩
    rw [hadv] at hadvspec
    simp only at hadvspec
    rcases hadvspec with ⟨hb, p₀, hp₀, hl₀⟩ | ⟨hb, hfa, hwq, hcle, hqle, hlast⟩
    · subst hb
      have hN : (ipIter lpIter fuelN).Next it = (false, ⟨a2, c2⟩) := by
        show intersectNext lpIter fuelN it = (false, ⟨a2, c2⟩)
        simp only [intersectNext]
        rw [hadv]
      simp only [expandP, hN]
      symm
      rw [List.filter_eq_nil_iff]
      intro v hv
      have hcom := (mem_interList_avails hne).mp hv
      have hvp := hcom p₀ hp₀
      rw [show pAvail p₀ = [p₀.cur] from by simp [pAvail, hl₀]] at hvp
      simp at hvp
      subst hvp
      rw [(hconv p₀ hp₀).2]
      simp
    · subst hb
      have hge2 : ∀ v, (∀ q ∈ a2, v ∈ pAvail q) → c2 ≤ v := by
        intro v hcom
        rcases hlast with hceq | ⟨q, hqm, hqe⟩
        · rcases hne2 : it.arr with _ | ⟨p1, arrT⟩
          · exact absurd hne2 hne
          · have hp1 : p1 ∈ it.arr := by
              rw [hne2]
              exact List.mem_cons_self ..
            rcases forall₂_mem_left hfa hp1 with ⟨q, hq, hR⟩
            have hvl : v ∈ p1.list := by
              rw [← hR]
              exact hcom q hq
            have hlt := (hwf p1 hp1).2 v hvl
            rw [hceq, ← (hconv p1 hp1).2]
            exact le_of_lt hlt
        · rw [hqe]
          exact sorted_head_min (lpWF_pAvail_sorted (hwq q hqm)) (hcom q hqm)
      have hcom12 : ∀ v, it.cur < v →
          ((∀ p ∈ it.arr, v ∈ pAvail p) ↔ (∀ q ∈ a2, v ∈ pAvail q)) := by
        intro v hv
        constructor
        · intro h q hq
          rcases forall₂_mem_right hfa hq with ⟨p, hp, hR⟩
          rw [hR]
          rcases List.mem_cons.mp (h p hp) with heq | hm
          · exfalso
            rw [heq, (hconv p hp).2] at hv
            exact lt_irrefl _ hv
          · exact hm
        · intro h p hp
          rcases forall₂_mem_left hfa hp with ⟨q, hq, hR⟩
          have hm := h q hq
          rw [hR] at hm
          exact List.mem_cons_of_mem _ hm
      have hmD : (a2.map (fun q => (pAvail q).countP (fun v => decide (c2 < v)))).sum ≤
          fuelN := by
        refine le_trans (sum_map_le_forall₂ hfa ?_) hmN
        intro p q hR
        refine le_trans (List.countP_le_length _) ?_
        rw [hR]
        simp [pAvail]
      rcases intersectDoNext_spec fuelN ⟨a2, c2⟩ hwq hmD with ⟨st, hres, hnone⟩ |
        ⟨c3, a3, hres, hcc3, hq3, hfa3, hmin3⟩
      · have hN : (ipIter lpIter fuelN).Next it = (false, st) := by
          show intersectNext lpIter fuelN it = (false, st)
          simp only [intersectNext]
          rw [hadv]
          exact hres
        simp only [expandP, hN]
        symm
        rw [List.filter_eq_nil_iff]
        intro v hv hdec
        have hvgt : it.cur < v := by simpa using hdec
        have hcom2 := (hcom12 v hvgt).mp ((mem_interList_avails hne).mp hv)
        rcases hnone v (hge2 v hcom2) with ⟨q, hq, hnq⟩
        exact hnq (hcom2 q hq)
      · have hN : (ipIter lpIter fuelN).Next it = (true, ⟨a3, c3⟩) := by
          show intersectNext lpIter fuelN it = (true, ⟨a3, c3⟩)
          simp only [intersectNext]
          rw [hadv]
          exact hres
        simp only [expandP, hN]
        have hAt : (ipIter lpIter fuelN).At ⟨a3, c3⟩ = c3 := rfl
        rw [hAt]
        have hlen3 : a3.length = it.arr.length := by
          rw [← List.Forall₂.length_eq hfa3, ← List.Forall₂.length_eq hfa]
        have hne₃ : a3 ≠ [] := by
          intro hcon
          apply hne
          have : it.arr.length = 0 := by rw [← hlen3, hcon]; rfl
          exact List.length_eq_zero.mp this
        have hcom23 : ∀ v, (∀ q ∈ a3, v ∈ pAvail q) ↔
            ((∀ q ∈ a2, v ∈ pAvail q) ∧ c3 ≤ v) := by
          intro v
          constructor
          · intro h
            constructor
            · intro q hq
              rcases forall₂_mem_left hfa3 hq with ⟨q3, hq3m, hR⟩
              have hm := h q3 hq3m
              rw [hR] at hm
              exact (List.dropWhile_sublist _).subset hm
            · rcases hne3' : a3 with _ | ⟨q3, a3T⟩
              · exact absurd hne3' hne₃
              · have hq3m : q3 ∈ a3 := by
                  rw [hne3']
                  exact List.mem_cons_self ..
                have hvq := h q3 hq3m
                have hcur3 := (hq3 q3 hq3m).2
                rw [← hcur3]
                exact sorted_head_min (lpWF_pAvail_sorted (hq3 q3 hq3m).1) hvq
          · rintro ⟨h2, hler⟩ q hq
            rcases forall₂_mem_right hfa3 hq with ⟨q2, hq2m, hR⟩
            rw [hR]
            exact (mem_dropWhile_lt_sorted (lpWF_pAvail_sorted (hwq q2 hq2m)) c3 v).mpr
              ⟨h2 q2 hq2m, hler⟩
        have hc3com2 : ∀ q ∈ a2, c3 ∈ pAvail q := by
          have h3 : ∀ q ∈ a3, c3 ∈ pAvail q := by
            intro q hq
            rw [show c3 = q.cur from ((hq3 q hq).2).symm]
            exact List.mem_cons_self ..
          exact ((hcom23 c3).mp h3).1
        have hc3gt : it.cur < c3 := by
          rcases hne2 : it.arr with _ | ⟨p1, arrT⟩
          · exact absurd hne2 hne
          · have hp1 : p1 ∈ it.arr := by
              rw [hne2]
              exact List.mem_cons_self ..
            rcases forall₂_mem_left hfa hp1 with ⟨q, hq, hR⟩
            have hvl : c3 ∈ p1.list := by
              rw [← hR]
              exact hc3com2 q hq
            rw [← (hconv p1 hp1).2]
            exact (hwf p1 hp1).2 c3 hvl
        have hconv₃ : ∀ q ∈ a3, lpWF q ∧ q.cur = (⟨a3, c3⟩ : intersectPostings _).cur := hq3
        have hs1 : (a3.map (fun q => (pAvail q).length)).sum ≤
            (a2.map (fun q => (pAvail q).length)).sum := by
          refine sum_map_le_forall₂ hfa3 ?_
          intro p q hR
          rw [hR]
          exact (List.dropWhile_sublist _).length_le
        have hs2 : (a2.map (fun q => (pAvail q).length)).sum + 1 ≤
            (it.arr.map (fun p => (pAvail p).length)).sum := by
          refine sum_map_succ_le_forall₂ hfa hne ?_
          intro p q hR
          rw [hR]
          simp [pAvail]
        have hm₃N : (a3.map (fun q => (pAvail q).length)).sum ≤ fuelN := by omega
        have hm₃E : (a3.map (fun q => (pAvail q).length)).sum < e := by omega
        have hrec := ih ⟨a3, c3⟩ hne₃ hconv₃ hm₃N hm₃E
        rw [hrec]
        refine (eq_of_sorted_lt_of_mem_iff ?_ ?_ ?_).symm
        · exact List.Pairwise.filter _ (interList_avails_sorted hwf)
        · refine List.sorted_cons.mpr ⟨?_, List.Pairwise.filter _ (interList_avails_sorted (fun q hq => (hq3 q hq).1))⟩
          · intro b hb
            have := List.of_mem_filter hb
            simpa using this
        · intro v
          rw [List.mem_filter, List.mem_cons, List.mem_filter]
          rw [mem_interList_avails hne, mem_interList_avails hne₃]
          constructor
          · rintro ⟨hcom, hdec⟩
            have hvgt : it.cur < v := by simpa using hdec
            have hcom2 := (hcom12 v hvgt).mp hcom
            have hge : c3 ≤ v := hmin3 v (hge2 v hcom2) hcom2
            rcases eq_or_lt_of_le hge with heq | hlt
            · exact Or.inl heq.symm
            · refine Or.inr ⟨(hcom23 v).mpr ⟨hcom2, hge⟩, by simpa using hlt⟩
          · intro h
            rcases h with rfl | ⟨hcom3, hdec⟩
            · exact ⟨(hcom12 v hc3gt).mpr hc3com2, by simpa using hc3gt⟩
            · rcases (hcom23 v).mp hcom3 with ⟨hcom2, hge⟩
              have hvgt : it.cur < v := lt_of_lt_of_le hc3gt hge
              exact ⟨(hcom12 v hvgt).mpr hcom2, by simpa using hvgt⟩

theorem mem_interList_all {ls : List (List Nat)} (hne : ls ≠ []) {v : Nat} :
    v ∈ interList ls ↔ ∀ l ∈ ls, v ∈ l := by
  rcases ls with _ | ⟨l1, rest⟩
  · exact absurd rfl hne
  · rw [mem_interList_iff]
    constructor
    · rintro ⟨h1, h2⟩ l hl
      rcases List.mem_cons.mp hl with rfl | hm
      · exact h1
      · exact h2 l hm
    · intro h
      exact ⟨h l1 (List.mem_cons_self ..), fun l hl => h l (List.mem_cons_of_mem _ hl)⟩

theorem interList_sorted_all {ls : List (List Nat)} (hs : ∀ l ∈ ls, l.Sorted (· < ·)) :
    (interList ls).Sorted (· < ·) := by
  rcases ls with _ | ⟨l1, rest⟩
  · exact List.sorted_nil
  · exact interList_sorted (hs l1 (List.mem_cons_self ..))

theorem intersect_expand_init (fuelN : Nat) (ls : List (List Nat)) (fuelE : Nat)
    (hne : ls ≠ []) (hs : ∀ l ∈ ls, l.Sorted (· < ·))
    (hmN : (ls.map (fun l => l.length + 1)).sum ≤ fuelN)
    (hmE : (ls.map (fun l => l.length + 1)).sum < fuelE) :
    expandP (ipIter lpIter fuelN) fuelE ⟨ls.map newListPostings, 0⟩ = interList ls := by
  cases fuelE with
  | zero => exact absurd hmE (Nat.not_lt_zero _)
  | succ e =>
    have harr : ∀ p ∈ ls.map newListPostings, p.list.Sorted (· < ·) := by
      intro p hp
      rcases List.mem_map.mp hp with ⟨l, hl, rfl⟩
      exact hs l hl
    have hnearr : (ls.map newListPostings) ≠ [] := by
      intro h
      exact hne (List.map_eq_nil_iff.mp h)
    have hmaps : ((ls.map newListPostings).map (fun p => p.list.length + 1)) =
        ls.map (fun l => l.length + 1) := by
      rw [List.map_map]
      rfl
    have hadvspec := intersectAdvance_spec (ls.map newListPostings) harr 0
    rcases hadv : intersectAdvance lpIter (ls.map newListPostings) 0 with ⟨b, o⟩
    rcases o with ⟨a2, c2⟩
    rw [hadv] at hadvspec
    simp only at hadvspec
    rcases hadvspec with ⟨hb, p₀, hp₀, hl₀⟩ | ⟨hb, hfa, hwq, _, hqle, hlast⟩
    · subst hb
      have hN : (ipIter lpIter fuelN).Next ⟨ls.map newListPostings, 0⟩ = (false, ⟨a2, c2⟩) := by
        show intersectNext lpIter fuelN _ = _
        simp only [intersectNext]
        rw [hadv]
      simp only [expandP, hN]
      symm
      rw [List.eq_nil_iff_forall_not_mem]
      intro v hv
      rcases List.mem_map.mp hp₀ with ⟨l₀, hl₀m, rfl⟩
      have hvl := (mem_interList_all hne).mp hv l₀ hl₀m
      rw [show l₀ = [] from hl₀] at hvl
      exact (List.not_mem_nil v) hvl
    · subst hb
      have hcomls : ∀ v, (∀ l ∈ ls, v ∈ l) ↔ (∀ q ∈ a2, v ∈ pAvail q) := by
        intro v
        constructor
        · intro h q hq
          rcases forall₂_mem_right hfa hq with ⟨p, hp, hR⟩
          rcases List.mem_map.mp hp with ⟨l, hl, rfl⟩
          rw [hR]
          exact h l hl
        · intro h l hl
          rcases forall₂_mem_left hfa (List.mem_map_of_mem newListPostings hl) with
            ⟨q, hq, hR⟩
          have hm := h q hq
          rw [hR] at hm
          exact hm
      have hge2 : ∀ v, (∀ q ∈ a2, v ∈ pAvail q) → c2 ≤ v := by
        intro v hcom
        rcases hlast with hceq | ⟨q, hqm, hqe⟩
        · rw [hceq]
          exact Nat.zero_le v
        · rw [hqe]
          exact sorted_head_min (lpWF_pAvail_sorted (hwq q hqm)) (hcom q hqm)
      have hsum2 : (a2.map (fun q => (pAvail q).length)).sum + 1 ≤
          (ls.map (fun l => l.length + 1)).sum := by
        rw [← hmaps]
        refine sum_map_succ_le_forall₂ hfa hnearr ?_
        intro p q hR
        rw [hR]
      have hmD : (a2.map (fun q => (pAvail q).countP (fun v => decide (c2 < v)))).sum ≤
          fuelN := by
        have h1 : (a2.map (fun q => (pAvail q).countP (fun v => decide (c2 < v)))).sum ≤
            (a2.map (fun q => (pAvail q).length)).sum :=
          List.sum_le_sum (fun q _ => List.countP_le_length _)
        omega
      rcases intersectDoNext_spec fuelN ⟨a2, c2⟩ hwq hmD with ⟨st, hres, hnone⟩ |
        ⟨c3, a3, hres, hcc3, hq3, hfa3, hmin3⟩
      · have hN : (ipIter lpIter fuelN).Next ⟨ls.map newListPostings, 0⟩ = (false, st) := by
          show intersectNext lpIter fuelN _ = _
          simp only [intersectNext]
          rw [hadv]
          exact hres
        simp only [expandP, hN]
        symm
        rw [List.eq_nil_iff_forall_not_mem]
        intro v hv
        have hcom2 := (hcomls v).mp ((mem_interList_all hne).mp hv)
        rcases hnone v (hge2 v hcom2) with ⟨q, hq, hnq⟩
        exact hnq (hcom2 q hq)
      · have hN : (ipIter lpIter fuelN).Next ⟨ls.map newListPostings, 0⟩ =
            (true, ⟨a3, c3⟩) := by
          show intersectNext lpIter fuelN _ = _
          simp only [intersectNext]
          rw [hadv]
          exact hres
        simp only [expandP, hN]
        have hAt : (ipIter lpIter fuelN).At ⟨a3, c3⟩ = c3 := rfl
        rw [hAt]
        have hne₃ : a3 ≠ [] := by
          intro hcon
          apply hne
          have h1 : ls.length = a3.length := by
            rw [← List.Forall₂.length_eq hfa3, ← List.Forall₂.length_eq hfa, List.length_map]
          rw [hcon] at h1
          exact List.length_eq_zero.mp h1
        have hcom23 : ∀ v, (∀ q ∈ a3, v ∈ pAvail q) ↔
            ((∀ q ∈ a2, v ∈ pAvail q) ∧ c3 ≤ v) := by
          intro v
          constructor
          · intro h
            constructor
            · intro q hq
              rcases forall₂_mem_left hfa3 hq with ⟨q3, hq3m, hR⟩
              have hm := h q3 hq3m
              rw [hR] at hm
              exact (List.dropWhile_sublist _).subset hm
            · rcases hne3' : a3 with _ | ⟨q3, a3T⟩
              · exact absurd hne3' hne₃
              · have hq3m : q3 ∈ a3 := by
                  rw [hne3']
                  exact List.mem_cons_self ..
                have hvq := h q3 hq3m
                have hcur3 := (hq3 q3 hq3m).2
                rw [← hcur3]
                exact sorted_head_min (lpWF_pAvail_sorted (hq3 q3 hq3m).1) hvq
          · rintro ⟨h2, hler⟩ q hq
            rcases forall₂_mem_right hfa3 hq with ⟨q2, hq2m, hR⟩
            rw [hR]
            exact (mem_dropWhile_lt_sorted (lpWF_pAvail_sorted (hwq q2 hq2m)) c3 v).mpr
              ⟨h2 q2 hq2m, hler⟩
        have hc3com2 : ∀ q ∈ a2, c3 ∈ pAvail q := by
          have h3 : ∀ q ∈ a3, c3 ∈ pAvail q := by
            intro q hq
            rw [show c3 = q.cur from ((hq3 q hq).2).symm]
            exact List.mem_cons_self ..
          exact ((hcom23 c3).mp h3).1
        have hconv₃ : ∀ q ∈ a3, lpWF q ∧ q.cur = (⟨a3, c3⟩ : intersectPostings _).cur := hq3
        have hs1 : (a3.map (fun q => (pAvail q).length)).sum ≤
            (a2.map (fun q => (pAvail q).length)).sum := by
          refine sum_map_le_forall₂ hfa3 ?_
          intro p q hR
          rw [hR]
          exact (List.dropWhile_sublist _).length_le
        have hm₃N : (a3.map (fun q => (pAvail q).length)).sum ≤ fuelN := by omega
        have hm₃E : (a3.map (fun q => (pAvail q).length)).sum < e := by omega
        have hrec := intersect_expand fuelN e ⟨a3, c3⟩ hne₃ hconv₃ hm₃N hm₃E
        rw [hrec]
        refine eq_of_sorted_lt_of_mem_iff ?_ ?_ ?_
        · refine List.sorted_cons.mpr
            ⟨?_, List.Pairwise.filter _ (interList_avails_sorted (fun q hq => (hq3 q hq).1))⟩
          intro b hb
          have := List.of_mem_filter hb
          simpa using this
        · exact interList_sorted_all hs
        · intro v
          rw [List.mem_cons, List.mem_filter, mem_interList_avails hne₃,
            mem_interList_all hne]
          constructor
          · intro h
            rcases h with rfl | ⟨hcom3, hdec⟩
            · exact (hcomls v).mpr hc3com2
            · rcases (hcom23 v).mp hcom3 with ⟨hcom2, hge⟩
              exact (hcomls v).mpr hcom2
          · intro h
            have hcom2 := (hcomls v).mp h
            have hge : c3 ≤ v := hmin3 v (hge2 v hcom2) hcom2
            rcases eq_or_lt_of_le hge with heq | hlt
            · exact Or.inl heq.symm
            · exact Or.inr ⟨(hcom23 v).mpr ⟨hcom2, hge⟩, by simpa using hlt⟩

theorem filterMap_some_map {α β : Type} (f : α → β) (l : List α) :
    (l.map (fun x => some (f x))).filterMap id = l.map f := by
  induction l with
  | nil => rfl
  | cons x xs ih => simp [ih]

theorem Intersect_map_some (l1 l2 : List Nat) (ls : List (List Nat)) :
    Intersect ((l1 :: l2 :: ls).map (fun l => some (newListPostings l))) =
      .inter ⟨(l1 :: l2 :: ls).map newListPostings, 0⟩ := by
  have hany : ((l1 :: l2 :: ls).map (fun l => some (newListPostings l))).any
      (fun p => p.isNone) = false := by
    simp
  have hfm := filterMap_some_map newListPostings (l1 :: l2 :: ls)
  rw [List.map_cons, List.map_cons] at hany hfm ⊢
  rw [Intersect.eq_def]
  dsimp only
  rw [if_neg (by simp [hany]), hfm]

/-- Claim C4: expanding `Intersect` over conforming strictly-increasing inputs
yields exactly the values present in every one of the inputs, in increasing
order (the sorted common sublist `interList`); an empty argument list or any
argument equal to the empty sentinel yields an empty expansion; a single
non-sentinel argument passes through unchanged; the concrete instance
`{1,3,5,7} ∩ {3,4,5,6}` yields exactly `{3,5}` in order (lines 439-501). -/
theorem claim_C4 :
    (∀ (l1 l2 : List Nat) (ls : List (List Nat)) (fuel : Nat),
      (∀ l ∈ l1 :: l2 :: ls, l.Sorted (· < ·)) →
      ((l1 :: l2 :: ls).map (fun l => l.length + 1)).sum < fuel →
      expandIntersectOut fuel
        (Intersect ((l1 :: l2 :: ls).map (fun l => some (newListPostings l)))) =
        interList (l1 :: l2 :: ls)) ∧
    (∀ (its : List (Option ListPostings)) (fuel : Nat), its = [] ∨ none ∈ its →
      expandIntersectOut fuel (Intersect its) = []) ∧
    (∀ (l : List Nat) (fuel : Nat), l.length ≤ fuel →
      expandIntersectOut fuel (Intersect [some (newListPostings l)]) = l) ∧
    expandIntersectOut 16 (Intersect [some (newListPostings [1, 3, 5, 7]),
      some (newListPostings [3, 4, 5, 6])]) = [3, 5] := by
  refine ⟨?_, ?_, ?_, ?_⟩
  · intro l1 l2 ls fuel hsort hfuel
    rw [Intersect_map_some]
    show expandP (ipIter lpIter fuel) fuel ⟨(l1 :: l2 :: ls).map newListPostings, 0⟩ = _
    exact intersect_expand_init fuel (l1 :: l2 :: ls) fuel (by simp) hsort
      (le_of_lt hfuel) hfuel
  · intro its fuel h
    rcases its with _ | ⟨x, _ | ⟨y, rest⟩⟩
    · rfl
    · rcases h with h | h
      · simp at h
      · rw [show x = none from (List.mem_singleton.mp h).symm]
        rfl
    · have hnone : none ∈ x :: y :: rest := by
        rcases h with h | h
        · simp at h
        · exact h
      have hany : (x :: y :: rest).any (fun p => p.isNone) = true := by
        rw [List.any_eq_true]
        exact ⟨none, hnone, rfl⟩
      have : Intersect (x :: y :: rest) = .emptyO := by
        rw [Intersect.eq_def]
        dsimp only
        simp [hany]
      rw [this]
      rfl
  · intro l fuel h
    show expandP lpIter fuel (newListPostings l) = l
    exact expandP_lp l fuel 0 h
  · rfl

theorem claim_C4_witness :
    (∀ l ∈ ([1, 3, 5, 7] :: [3, 4, 5, 6] :: ([] : List (List Nat))), l.Sorted (· < ·)) ∧
    expandIntersectOut 16 (Intersect (([1, 3, 5, 7] :: [3, 4, 5, 6] ::
        ([] : List (List Nat))).map (fun l => some (newListPostings l)))) =
      interList ([1, 3, 5, 7] :: [3, 4, 5, 6] :: ([] : List (List Nat))) :=
  ⟨by decide, claim_C4.1 [1, 3, 5, 7] [3, 4, 5, 6] [] 16 (by decide) (by decide)⟩

/-! ### Merge (claim C3) -/

theorem heapInsert_perm (x : ListPostings) :
    ∀ (l : List ListPostings), (heapInsert lpIter x l).Perm (x :: l) := by
  intro l
  induction l with
  | nil => exact List.Perm.refl _
  | cons y ys ih =>
    by_cases h : x.cur ≤ y.cur
    · rw [show heapInsert lpIter x (y :: ys) = x :: y :: ys from by
        simp [heapInsert, lpIter, ListPostings.At, h]]
    · rw [show heapInsert lpIter x (y :: ys) = y :: heapInsert lpIter x ys from by
        simp [heapInsert, lpIter, ListPostings.At, h]]
      exact (List.Perm.cons y ih).trans (List.Perm.swap x y ys)

theorem heapInsert_sorted {x : ListPostings} :
    ∀ {l : List ListPostings}, List.Pairwise (fun a b => a.cur ≤ b.cur) l →
    List.Pairwise (fun a b => a.cur ≤ b.cur) (heapInsert lpIter x l) := by
  intro l
  induction l with
  | nil =>
    intro _
    simp [heapInsert]
  | cons y ys ih =>
    intro hp
    rcases List.pairwise_cons.mp hp with ⟨hy, hys⟩
    by_cases h : x.cur ≤ y.cur
    · rw [show heapInsert lpIter x (y :: ys) = x :: y :: ys from by
        simp [heapInsert, lpIter, ListPostings.At, h]]
      refine List.pairwise_cons.mpr ⟨?_, hp⟩
      intro b hb
      rcases List.mem_cons.mp hb with rfl | hb'
      · exact h
      · exact le_trans h (hy b hb')
    · rw [show heapInsert lpIter x (y :: ys) = y :: heapInsert lpIter x ys from by
        simp [heapInsert, lpIter, ListPostings.At, h]]
      refine List.pairwise_cons.mpr ⟨?_, ih hys⟩
      intro b hb
      have hb' := (heapInsert_perm x ys).mem_iff.mp hb
      rcases List.mem_cons.mp hb' with rfl | hb''
      · exact le_of_lt (not_le.mp h)
      · exact hy b hb''

theorem heapInit_perm : ∀ (l : List ListPostings), (heapInit lpIter l).Perm l := by
  intro l
  induction l with
  | nil => exact List.Perm.refl _
  | cons x xs ih =>
    show (heapInsert lpIter x (heapInit lpIter xs)).Perm (x :: xs)
    exact (heapInsert_perm x _).trans (List.Perm.cons x ih)

theorem heapInit_sorted : ∀ (l : List ListPostings),
    List.Pairwise (fun a b => a.cur ≤ b.cur) (heapInit lpIter l) := by
  intro l
  induction l with
  | nil => exact List.Pairwise.nil
  | cons x xs ih => exact heapInsert_sorted ih

theorem key_sorted_head_min {x : ListPostings} {xs : List ListPostings}
    (hs : List.Pairwise (fun a b => a.cur ≤ b.cur) (x :: xs)) :
    ∀ q ∈ x :: xs, x.cur ≤ q.cur := by
  intro q hq
  rcases List.mem_cons.mp hq with rfl | hq'
  · exact le_refl _
  · exact (List.pairwise_cons.mp hs).1 q hq'

theorem mergedLoop_spec :
    ∀ (fuel cur : Nat) (h : List ListPostings),
    (∀ q ∈ h, lpWF q ∧ cur ≤ q.cur) →
    List.Pairwise (fun a b => a.cur ≤ b.cur) h →
    (h = [] ∨ ∃ t ts, h = t :: ts ∧ t.cur = cur) →
    (h.map (fun q => (pAvail q).length)).sum ≤ fuel →
    ((mergedNextLoop lpIter fuel cur h).1 = false ∧
       ∀ v, cur < v → ∀ q ∈ h, v ∉ pAvail q) ∨
    (∃ m h', mergedNextLoop lpIter fuel cur h = (true, m, h', none) ∧ cur < m ∧
       (∃ q ∈ h, m ∈ pAvail q) ∧
       (∀ v, cur < v → ∀ q ∈ h, v ∈ pAvail q → m ≤ v) ∧
       (∀ q ∈ h', lpWF q ∧ m ≤ q.cur) ∧
       List.Pairwise (fun a b => a.cur ≤ b.cur) h' ∧
       (∃ t ts, h' = t :: ts ∧ t.cur = m) ∧
       (∀ v, m < v → ((∃ q ∈ h', v ∈ pAvail q) ↔ (∃ q ∈ h, v ∈ pAvail q))) ∧
       (h'.map (fun q => (pAvail q).length)).sum + 1 ≤
         (h.map (fun q => (pAvail q).length)).sum) := by
  intro fuel
  induction fuel with
  | zero =>
    intro cur h hwf hsort hhead hm
    left
    refine ⟨rfl, ?_⟩
    intro v _ q hq
    rcases h with _ | ⟨t, ts⟩
    · simp at hq
    · exfalso
      simp only [List.map_cons, List.sum_cons, pAvail, List.length_cons] at hm
      omega
  | succ f ih =>
    intro cur h hwf hsort hhead hm
    rcases h with _ | ⟨t, ts⟩
    · left
      exact ⟨rfl, fun v _ q hq => absurd hq (List.not_mem_nil q)⟩
    rcases hhead with h0 | ⟨t', ts', heq, htc⟩
    · exact absurd h0 (by simp)
    injection heq with h1 h2
    subst h1
    subst h2
    have hwtop := hwf t (List.mem_cons_self ..)
    cases hl : t.list with
    | nil =>
      have hnx : lpIter.Next t = (false, ⟨[], 0⟩) := by
        show ListPostings.Next t = (false, ⟨[], 0⟩)
        simp [ListPostings.Next, hl]
      have hErr : lpIter.Err (⟨[], 0⟩ : ListPostings) = none := rfl
      have havtop : pAvail t = [cur] := by
        simp [pAvail, hl, htc]
      have h1av : (pAvail t).length = 1 := by
        rw [havtop]
        rfl
      rcases ts with _ | ⟨x, rs⟩
      · left
        refine ⟨?_, ?_⟩
        · simp only [mergedNextLoop, hnx, hErr]
        · intro v hv q hq
          rcases List.mem_cons.mp hq with rfl | hq'
          · rw [havtop]
            simp
            omega
          · simp at hq'
      · by_cases hx : x.cur ≠ cur
        · right
          have hstep : mergedNextLoop lpIter (f + 1) cur (t :: x :: rs) =
              (true, x.cur, x :: rs, none) := by
            simp only [mergedNextLoop, hnx, hErr]
            rw [if_pos (show lpIter.At x ≠ cur from hx)]
            rfl
          have hcurx : cur < x.cur :=
            lt_of_le_of_ne (hwf x (List.mem_cons_of_mem _ (List.mem_cons_self ..))).2
              (Ne.symm hx)
          have hsxrs : List.Pairwise (fun a b => a.cur ≤ b.cur) (x :: rs) :=
            (List.pairwise_cons.mp hsort).2
          refine ⟨x.cur, x :: rs, hstep, hcurx, ?_, ?_, ?_, hsxrs, ⟨x, rs, rfl, rfl⟩, ?_, ?_⟩
          · exact ⟨x, List.mem_cons_of_mem _ (List.mem_cons_self ..),
              List.mem_cons_self ..⟩
          · intro v hv q hq hvq
            rcases List.mem_cons.mp hq with rfl | hq'
            · rw [havtop] at hvq
              simp at hvq
              omega
            · exact le_trans (key_sorted_head_min hsxrs q hq')
                (sorted_head_min (lpWF_pAvail_sorted
                  (hwf q (List.mem_cons_of_mem _ hq')).1) hvq)
          · intro q hq
            exact ⟨(hwf q (List.mem_cons_of_mem _ hq)).1, key_sorted_head_min hsxrs q hq⟩
          · intro v hv
            constructor
            · rintro ⟨q, hq, hvq⟩
              exact ⟨q, List.mem_cons_of_mem _ hq, hvq⟩
            · rintro ⟨q, hq, hvq⟩
              rcases List.mem_cons.mp hq with rfl | hq'
              · rw [havtop] at hvq
                simp at hvq
                omega
              · exact ⟨q, hq', hvq⟩
          · simp only [List.map_cons, List.sum_cons, h1av]
            omega
        · push_neg at hx
          have hstep : mergedNextLoop lpIter (f + 1) cur (t :: x :: rs) =
              mergedNextLoop lpIter f cur (x :: rs) := by
            simp only [mergedNextLoop, hnx, hErr]
            rw [if_neg (show ¬ lpIter.At x ≠ cur from by
              simp only [ne_eq, not_not]
              exact hx)]
          have hsxrs : List.Pairwise (fun a b => a.cur ≤ b.cur) (x :: rs) :=
            (List.pairwise_cons.mp hsort).2
          have hwf₂ : ∀ q ∈ x :: rs, lpWF q ∧ cur ≤ q.cur :=
            fun q hq => hwf q (List.mem_cons_of_mem _ hq)
          have hm₂ : ((x :: rs).map (fun q => (pAvail q).length)).sum ≤ f := by
            simp only [List.map_cons, List.sum_cons, h1av] at hm ⊢
            omega
          rcases ih cur (x :: rs) hwf₂ hsxrs (Or.inr ⟨x, rs, rfl, hx⟩) hm₂ with
            ⟨hres, hnone⟩ |
            ⟨m, h', hres, hcm, hex, hmin, hwf', hsort', hhead', hpres, hmeas⟩
          · left
            refine ⟨by rw [hstep]; exact hres, ?_⟩
            intro v hv q hq
            rcases List.mem_cons.mp hq with rfl | hq'
            · rw [havtop]
              simp
              omega
            · exact hnone v hv q hq'
          · right
            refine ⟨m, h', hstep.trans hres, hcm, ?_, ?_, hwf', hsort', hhead', ?_, ?_⟩
            · rcases hex with ⟨q, hq, hvq⟩
              exact ⟨q, List.mem_cons_of_mem _ hq, hvq⟩
            · intro v hv q hq hvq
              rcases List.mem_cons.mp hq with rfl | hq'
              · rw [havtop] at hvq
                simp at hvq
                omega
              · exact hmin v hv q hq' hvq
            · intro v hv
              rw [hpres v hv]
              have hvcur : cur < v := lt_trans hcm hv
              constructor
              · rintro ⟨q, hq, hvq⟩
                exact ⟨q, List.mem_cons_of_mem _ hq, hvq⟩
              · rintro ⟨q, hq, hvq⟩
                rcases List.mem_cons.mp hq with rfl | hq'
                · rw [havtop] at hvq
                  simp at hvq
                  omega
                · exact ⟨q, hq', hvq⟩
            · simp only [List.map_cons, List.sum_cons, h1av] at hmeas ⊢
              omega
    | cons y ys =>
      have hnx : lpIter.Next t = (true, ⟨ys, y⟩) := by
        show ListPostings.Next t = (true, ⟨ys, y⟩)
        simp [ListPostings.Next, hl]
      have havtop : pAvail t = cur :: y :: ys := by
        simp [pAvail, hl, htc]
      have havtop' : pAvail (⟨ys, y⟩ : ListPostings) = y :: ys := rfl
      have hwtop' : lpWF (⟨ys, y⟩ : ListPostings) := by
        have hsc := List.sorted_cons.mp (show (y :: ys).Sorted (· < ·) from hl ▸ hwtop.1.1)
        exact ⟨hsc.2, hsc.1⟩
      have hcury : cur < y := by
        rw [← htc]
        exact hwtop.1.2 y (by rw [hl]; exact List.mem_cons_self ..)
      have hperm := heapInsert_perm (⟨ys, y⟩ : ListPostings) ts
      have hsrest : List.Pairwise (fun a b => a.cur ≤ b.cur) ts :=
        (List.pairwise_cons.mp hsort).2
      have hsins : List.Pairwise (fun a b => a.cur ≤ b.cur)
          (heapInsert lpIter ⟨ys, y⟩ ts) := heapInsert_sorted hsrest
      have hwins : ∀ q ∈ heapInsert lpIter ⟨ys, y⟩ ts, lpWF q ∧ cur ≤ q.cur := by
        intro q hq
        rcases List.mem_cons.mp (hperm.mem_iff.mp hq) with rfl | hq'
        · exact ⟨hwtop', le_of_lt hcury⟩
        · exact hwf q (List.mem_cons_of_mem _ hq')
      have hsum_ins : ((heapInsert lpIter ⟨ys, y⟩ ts).map
          (fun q => (pAvail q).length)).sum =
          (pAvail (⟨ys, y⟩ : ListPostings)).length +
            (ts.map (fun q => (pAvail q).length)).sum := by
        rw [(hperm.map (fun q => (pAvail q).length)).sum_eq]
        simp
      have hunion_ins : ∀ v, (∃ q ∈ heapInsert lpIter ⟨ys, y⟩ ts, v ∈ pAvail q) ↔
          (v ∈ y :: ys ∨ ∃ q ∈ ts, v ∈ pAvail q) := by
        intro v
        constructor
        · rintro ⟨q, hq, hvq⟩
          rcases List.mem_cons.mp (hperm.mem_iff.mp hq) with rfl | hq'
          · exact Or.inl (havtop' ▸ hvq)
          · exact Or.inr ⟨q, hq', hvq⟩
        · rintro (hv | ⟨q, hq, hvq⟩)
          · exact ⟨⟨ys, y⟩, hperm.mem_iff.mpr (List.mem_cons_self ..), by
              rw [havtop']
              exact hv⟩
          · exact ⟨q, hperm.mem_iff.mpr (List.mem_cons_of_mem _ hq), hvq⟩
      rcases hins : heapInsert lpIter ⟨ys, y⟩ ts with _ | ⟨x, xs⟩
      · exfalso
        rw [hins] at hperm
        have := hperm.length_eq
        simp at this
      rw [hins] at hsins hwins hsum_ins hunion_ins
      by_cases hx : x.cur ≠ cur
      · right
        have hstep : mergedNextLoop lpIter (f + 1) cur (t :: ts) =
            (true, x.cur, x :: xs, none) := by
          simp only [mergedNextLoop, hnx]
          rw [hins]
          dsimp only
          rw [if_pos (show lpIter.At x ≠ cur from hx)]
          rfl
        have hxmem : x ∈ x :: xs := List.mem_cons_self ..
        have hcurx : cur < x.cur := lt_of_le_of_ne (hwins x hxmem).2 (Ne.symm hx)
        refine ⟨x.cur, x :: xs, hstep, hcurx, ?_, ?_, ?_, hsins,
          ⟨x, xs, rfl, rfl⟩, ?_, ?_⟩
        · rcases (hunion_ins x.cur).mp ⟨x, hxmem, List.mem_cons_self ..⟩ with hv | ⟨q, hq, hvq⟩
          · exact ⟨t, List.mem_cons_self .., by
              rw [havtop]
              exact List.mem_cons_of_mem _ hv⟩
          · exact ⟨q, List.mem_cons_of_mem _ hq, hvq⟩
        · intro v hv q hq hvq
          have hvin : ∃ q' ∈ x :: xs, v ∈ pAvail q' := by
            apply (hunion_ins v).mpr
            rcases List.mem_cons.mp hq with rfl | hq'
            · rw [havtop] at hvq
              rcases List.mem_cons.mp hvq with heq2 | hv2
              · rw [heq2] at hv
                exact absurd hv (lt_irrefl _)
              · exact Or.inl hv2
            · exact Or.inr ⟨q, hq', hvq⟩
          rcases hvin with ⟨q', hq', hvq'⟩
          exact le_trans (key_sorted_head_min hsins q' hq')
            (sorted_head_min (lpWF_pAvail_sorted (hwins q' hq').1) hvq')
        · intro q hq
          exact ⟨(hwins q hq).1, key_sorted_head_min hsins q hq⟩
        · intro v hv
          constructor
          · intro hL
            rcases (hunion_ins v).mp hL with hv2 | ⟨q, hq, hvq⟩
            · exact ⟨t, List.mem_cons_self .., by
                rw [havtop]
                exact List.mem_cons_of_mem _ hv2⟩
            · exact ⟨q, List.mem_cons_of_mem _ hq, hvq⟩
          · rintro ⟨q, hq, hvq⟩
            apply (hunion_ins v).mpr
            rcases List.mem_cons.mp hq with rfl | hq'
            · rw [havtop] at hvq
              rcases List.mem_cons.mp hvq with heq2 | hv2
              · rw [heq2] at hv
                exact absurd (lt_trans hcurx hv) (lt_irrefl _)
              · exact Or.inl hv2
            · exact Or.inr ⟨q, hq', hvq⟩
        · rw [hsum_ins]
          simp only [List.map_cons, List.sum_cons, havtop, havtop', List.length_cons]
          omega
      · push_neg at hx
        have hstep : mergedNextLoop lpIter (f + 1) cur (t :: ts) =
            mergedNextLoop lpIter f cur (x :: xs) := by
          simp only [mergedNextLoop, hnx]
          rw [hins]
          dsimp only
          rw [if_neg (show ¬ lpIter.At x ≠ cur from by
            simp only [ne_eq, not_not]
            exact hx)]
        have hm₂ : ((x :: xs).map (fun q => (pAvail q).length)).sum ≤ f := by
          rw [hsum_ins]
          simp only [List.map_cons, List.sum_cons, havtop, havtop', List.length_cons] at hm
          simp only [havtop', List.length_cons]
          omega
        rcases ih cur (x :: xs) hwins hsins (Or.inr ⟨x, xs, rfl, hx⟩) hm₂ with
          ⟨hres, hnone⟩ |
          ⟨m, h', hres, hcm, hex, hmin, hwf', hsort', hhead', hpres, hmeas⟩
        · left
          refine ⟨by rw [hstep]; exact hres, ?_⟩
          intro v hv q hq hvq
          have hvin : ∃ q' ∈ x :: xs, v ∈ pAvail q' := by
            apply (hunion_ins v).mpr
            rcases List.mem_cons.mp hq with rfl | hq'
            · rw [havtop] at hvq
              rcases List.mem_cons.mp hvq with heq2 | hv2
              · rw [heq2] at hv
                exact absurd hv (lt_irrefl _)
              · exact Or.inl hv2
            · exact Or.inr ⟨q, hq', hvq⟩
          rcases hvin with ⟨q', hq', hvq'⟩
          exact hnone v hv q' hq' hvq'
        · right
          refine ⟨m, h', hstep.trans hres, hcm, ?_, ?_, hwf', hsort', hhead', ?_, ?_⟩
          · rcases (hunion_ins m).mp hex with hv2 | ⟨q', hq', hvq'⟩
            · exact ⟨t, List.mem_cons_self .., by
                rw [havtop]
                exact List.mem_cons_of_mem _ hv2⟩
            · exact ⟨q', List.mem_cons_of_mem _ hq', hvq'⟩
          · intro v hv q hq hvq
            have hvin : ∃ q' ∈ x :: xs, v ∈ pAvail q' := by
              apply (hunion_ins v).mpr
              rcases List.mem_cons.mp hq with rfl | hq'
              · rw [havtop] at hvq
                rcases List.mem_cons.mp hvq with heq2 | hv2
                · rw [heq2] at hv
                  exact absurd hv (lt_irrefl _)
                · exact Or.inl hv2
              · exact Or.inr ⟨q, hq', hvq⟩
            rcases hvin with ⟨q', hq', hvq'⟩
            exact hmin v hv q' hq' hvq'
          · intro v hv
            rw [hpres v hv]
            have hvcur : cur < v := lt_trans hcm hv
            constructor
            · intro hL
              rcases (hunion_ins v).mp hL with hv2 | ⟨q, hq, hvq⟩
              · exact ⟨t, List.mem_cons_self .., by
                  rw [havtop]
                  exact List.mem_cons_of_mem _ hv2⟩
              · exact ⟨q, List.mem_cons_of_mem _ hq, hvq⟩
            · rintro ⟨q, hq, hvq⟩
              apply (hunion_ins v).mpr
              rcases List.mem_cons.mp hq with rfl | hq'
              · rw [havtop] at hvq
                rcases List.mem_cons.mp hvq with heq2 | hv2
                · rw [heq2] at hvcur
                  exact absurd hvcur (lt_irrefl _)
                · exact Or.inl hv2
              · exact Or.inr ⟨q, hq', hvq⟩
          · rw [hsum_ins] at hmeas
            simp only [List.map_cons, List.sum_cons, havtop, havtop',
              List.length_cons] at hmeas ⊢
            omega

theorem merged_expand (fuelN : Nat) :
    ∀ (fuelE : Nat) (cur : Nat) (h : List ListPostings),
    (∀ q ∈ h, lpWF q ∧ cur ≤ q.cur) →
    List.Pairwise (fun a b => a.cur ≤ b.cur) h →
    (h = [] ∨ ∃ t ts, h = t :: ts ∧ t.cur = cur) →
    (h.map (fun q => (pAvail q).length)).sum ≤ fuelN →
    (h.map (fun q => (pAvail q).length)).sum < fuelE →
    (expandP (mpIter lpIter fuelN) fuelE ⟨h, true, cur, none⟩).Sorted (· < ·) ∧
    (∀ v, v ∈ expandP (mpIter lpIter fuelN) fuelE ⟨h, true, cur, none⟩ ↔
      (cur < v ∧ ∃ q ∈ h, v ∈ pAvail q)) := by
  intro fuelE
  induction fuelE with
  | zero =>
    intro cur h _ _ _ _ hmE
    exact absurd hmE (Nat.not_lt_zero _)
  | succ e ih =>
    intro cur h hwf hsort hhead hmN hmE
    rcases h with _ | ⟨t, ts⟩
    · have hN : (mpIter lpIter fuelN).Next ⟨[], true, cur, none⟩ =
          (false, ⟨[], true, cur, none⟩) := by
        show mergedNext lpIter fuelN ⟨[], true, cur, none⟩ = (false, ⟨[], true, cur, none⟩)
        simp [mergedNext]
      have hexp : expandP (mpIter lpIter fuelN) (e + 1) ⟨[], true, cur, none⟩ = [] := by
        simp only [expandP, hN]
      rw [hexp]
      refine ⟨List.sorted_nil, ?_⟩
      intro v
      simp
    · rcases mergedLoop_spec fuelN cur (t :: ts) hwf hsort hhead hmN with
        ⟨hres1, hnone⟩ |
        ⟨m, h', hres, hcm, hex, hmin, hwf', hsort', hhead', hpres, hmeas⟩
      · rcases hres2 : mergedNextLoop lpIter fuelN cur (t :: ts) with ⟨ok, cur', h'', e'⟩
        rw [hres2] at hres1
        simp only at hres1
        subst hres1
        have hN : (mpIter lpIter fuelN).Next ⟨t :: ts, true, cur, none⟩ =
            (false, ⟨h'', true, cur', if e' == none then none else e'⟩) := by
          show mergedNext lpIter fuelN ⟨t :: ts, true, cur, none⟩ =
            (false, ⟨h'', true, cur', if e' == none then none else e'⟩)
          simp [mergedNext, hres2]
        have hexp : expandP (mpIter lpIter fuelN) (e + 1) ⟨t :: ts, true, cur, none⟩ =
            [] := by
          simp only [expandP, hN]
        rw [hexp]
        refine ⟨List.sorted_nil, ?_⟩
        intro v
        simp only [List.not_mem_nil, false_iff]
        rintro ⟨hv, q, hq, hvq⟩
        exact hnone v hv q hq hvq
      · have hN : (mpIter lpIter fuelN).Next ⟨t :: ts, true, cur, none⟩ =
            (true, ⟨h', true, m, none⟩) := by
          show mergedNext lpIter fuelN ⟨t :: ts, true, cur, none⟩ =
            (true, ⟨h', true, m, none⟩)
          simp [mergedNext, hres]
        have hexp : expandP (mpIter lpIter fuelN) (e + 1) ⟨t :: ts, true, cur, none⟩ =
            m :: expandP (mpIter lpIter fuelN) e ⟨h', true, m, none⟩ := by
          simp only [expandP, hN]
          rfl
        rw [hexp]
        have hmN' : (h'.map (fun q => (pAvail q).length)).sum ≤ fuelN := by omega
        have hmE' : (h'.map (fun q => (pAvail q).length)).sum < e := by omega
        rcases ih m h' hwf' hsort' (Or.inr hhead') hmN' hmE' with ⟨hsorted', hmem'⟩
        constructor
        · refine List.sorted_cons.mpr ⟨?_, hsorted'⟩
          intro b hb
          exact ((hmem' b).mp hb).1
        · intro v
          rw [List.mem_cons, hmem' v]
          constructor
          · rintro (rfl | ⟨hv, hq⟩)
            · exact ⟨hcm, hex⟩
            · exact ⟨lt_trans hcm hv, (hpres v hv).mp hq⟩
          · rintro ⟨hvc, q, hq, hvq⟩
            rcases eq_or_lt_of_le (hmin v hvc q hq hvq) with heq | hlt
            · exact Or.inl heq.symm
            · exact Or.inr ⟨hlt, (hpres v hlt).mpr ⟨q, hq, hvq⟩⟩

theorem newMergedGather_lp : ∀ (ps : List ListPostings),
    newMergedGather lpIter ps = (ps.filterMap lpFirst, none) := by
  intro ps
  induction ps with
  | nil => rfl
  | cons p rest ih =>
    cases hl : p.list with
    | nil =>
      have hnx : lpIter.Next p = (false, ⟨[], 0⟩) := by
        show ListPostings.Next p = (false, ⟨[], 0⟩)
        simp [ListPostings.Next, hl]
      have hErr : lpIter.Err (⟨[], 0⟩ : ListPostings) = none := rfl
      have hfirst : lpFirst p = none := by
        rcases p with ⟨l, c⟩
        simp at hl
        subst hl
        rfl
      simp only [newMergedGather, hnx, hErr, List.filterMap_cons, hfirst]
      exact ih
    | cons x xs =>
      have hnx : lpIter.Next p = (true, ⟨xs, x⟩) := by
        show ListPostings.Next p = (true, ⟨xs, x⟩)
        simp [ListPostings.Next, hl]
      have hfirst : lpFirst p = some ⟨xs, x⟩ := by
        rcases p with ⟨l, c⟩
        simp at hl
        subst hl
        rfl
      simp only [newMergedGather, hnx, ih, List.filterMap_cons, hfirst]

theorem ph_avails : ∀ (ls : List (List Nat)),
    ((ls.map newListPostings).filterMap lpFirst).map pAvail =
      ls.filter (fun l => !l.isEmpty) := by
  intro ls
  induction ls with
  | nil => rfl
  | cons l rest ih =>
    rw [List.filterMap_map] at ih
    cases l with
    | nil => simp [lpFirst, newListPostings, List.filterMap_cons, List.filter_cons, ih]
    | cons x xs =>
      simp [lpFirst, newListPostings, pAvail, List.filterMap_cons, List.filter_cons, ih]

theorem ph_union (ls : List (List Nat)) (v : Nat) :
    (∃ q ∈ (ls.map newListPostings).filterMap lpFirst, v ∈ pAvail q) ↔
      ∃ l ∈ ls, v ∈ l := by
  constructor
  · rintro ⟨q, hq, hvq⟩
    have hmem : pAvail q ∈ ((ls.map newListPostings).filterMap lpFirst).map pAvail :=
      List.mem_map_of_mem _ hq
    rw [ph_avails] at hmem
    exact ⟨pAvail q, List.mem_of_mem_filter hmem, hvq⟩
  · rintro ⟨l, hl, hvl⟩
    have hlne : (!l.isEmpty) = true := by
      cases l
      · simp at hvl
      · rfl
    have hmem : l ∈ ((ls.map newListPostings).filterMap lpFirst).map pAvail := by
      rw [ph_avails]
      exact List.mem_filter.mpr ⟨hl, hlne⟩
    rcases List.mem_map.mp hmem with ⟨q, hq, hpq⟩
    exact ⟨q, hq, by rw [hpq]; exact hvl⟩

theorem ph_wf (ls : List (List Nat)) (hs : ∀ l ∈ ls, l.Sorted (· < ·)) :
    ∀ q ∈ (ls.map newListPostings).filterMap lpFirst, lpWF q := by
  intro q hq
  have hmem : pAvail q ∈ ls.filter (fun l => !l.isEmpty) := by
    rw [← ph_avails]
    exact List.mem_map_of_mem _ hq
  exact pAvail_sorted_lpWF (hs _ (List.mem_of_mem_filter hmem))

theorem ph_sum (ls : List (List Nat)) :
    (((ls.map newListPostings).filterMap lpFirst).map
      (fun q => (pAvail q).length)).sum ≤ (ls.map List.length).sum := by
  have h1 : ((ls.map newListPostings).filterMap lpFirst).map
      (fun q => (pAvail q).length) =
      (ls.filter (fun l => !l.isEmpty)).map List.length := by
    rw [show (fun q => (pAvail q).length) =
      (List.length ∘ pAvail) from rfl, ← List.map_map, ph_avails]
  rw [h1]
  exact List.Sublist.sum_le_sum ((List.filter_sublist _).map List.length)
    (fun _ _ => Nat.zero_le _)

/-- Claim C3: expanding `Merge` over two or more conforming strictly-increasing
inputs yields a strictly increasing sequence whose members are exactly the
union of the inputs' values — each produced exactly once even when shared by
several inputs (the heap loop advances every input sitting at the value just
delivered before emitting the next one); the empty argument list yields the
empty sentinel, a single argument passes through unchanged, and the concrete
instance `{1,3,5} ∪ {2,3,4}` yields exactly `{1,2,3,4,5}` with no duplicate 3
(lines 512-607). -/
theorem claim_C3 :
    (∀ (l1 l2 : List Nat) (ls : List (List Nat)) (fuel : Nat),
      (∀ l ∈ l1 :: l2 :: ls, l.Sorted (· < ·)) →
      ((l1 :: l2 :: ls).map List.length).sum + 1 < fuel →
      (expandMergeOut fuel
        (Merge lpIter ((l1 :: l2 :: ls).map newListPostings))).Sorted (· < ·) ∧
      (∀ v, v ∈ expandMergeOut fuel
          (Merge lpIter ((l1 :: l2 :: ls).map newListPostings)) ↔
        ∃ l ∈ l1 :: l2 :: ls, v ∈ l)) ∧
    (∀ fuel : Nat, expandMergeOut fuel (Merge lpIter ([] : List ListPostings)) = []) ∧
    (∀ (l : List Nat) (fuel : Nat), l.length ≤ fuel →
      expandMergeOut fuel (Merge lpIter [newListPostings l]) = l) ∧
    expandMergeOut 16
      (Merge lpIter [newListPostings [1, 3, 5], newListPostings [2, 3, 4]]) =
      [1, 2, 3, 4, 5] := by
  refine ⟨?_, fun _ => rfl, ?_, ?_⟩
  · intro l1 l2 ls fuel hsort hfuel
    rcases fuel with _ | e
    · exact absurd hfuel (by omega)
    rcases hph : ((l1 :: l2 :: ls).map newListPostings).filterMap lpFirst with _ | ⟨p0, ptl⟩
    · have hnm : newMergedPostings lpIter ((l1 :: l2 :: ls).map newListPostings) = none := by
        simp only [newMergedPostings, newMergedGather_lp, hph]
        rfl
      have hM : Merge lpIter ((l1 :: l2 :: ls).map newListPostings) = .emptyO := by
        rw [List.map_cons, List.map_cons] at hnm
        rw [List.map_cons, List.map_cons, Merge.eq_def]
        dsimp only
        rw [hnm]
      rw [hM]
      refine ⟨List.sorted_nil, ?_⟩
      intro v
      rw [show expandMergeOut (e + 1) MergeOut.emptyO = [] from rfl]
      simp only [List.not_mem_nil, false_iff]
      rintro ⟨l, hl, hvl⟩
      have hav := ph_avails (l1 :: l2 :: ls)
      rw [hph] at hav
      have hlf : l ∈ (l1 :: l2 :: ls).filter (fun l => !l.isEmpty) := by
        refine List.mem_filter.mpr ⟨hl, ?_⟩
        cases l
        · simp at hvl
        · rfl
      rw [← hav] at hlf
      simp at hlf
    · have hnm : newMergedPostings lpIter ((l1 :: l2 :: ls).map newListPostings) =
          some ⟨p0 :: ptl, false, 0, none⟩ := by
        simp only [newMergedPostings, newMergedGather_lp, hph]
        rfl
      have hM : Merge lpIter ((l1 :: l2 :: ls).map newListPostings) =
          .m ⟨p0 :: ptl, false, 0, none⟩ := by
        rw [List.map_cons, List.map_cons] at hnm
        rw [List.map_cons, List.map_cons, Merge.eq_def]
        dsimp only
        rw [hnm]
      rw [hM]
      rw [show expandMergeOut (e + 1) (MergeOut.m ⟨p0 :: ptl, false, 0, none⟩) =
        expandP (mpIter lpIter (e + 1)) (e + 1) ⟨p0 :: ptl, false, 0, none⟩ from rfl]
      have hperm := heapInit_perm (p0 :: ptl)
      rcases hinit : heapInit lpIter (p0 :: ptl) with _ | ⟨x, xs⟩
      · exfalso
        rw [hinit] at hperm
        have := hperm.length_eq
        simp at this
      rw [hinit] at hperm
      have hsinit : List.Pairwise (fun a b => a.cur ≤ b.cur) (x :: xs) := by
        have := heapInit_sorted (p0 :: ptl)
        rw [hinit] at this
        exact this
      have hwf_ph : ∀ q ∈ p0 :: ptl, lpWF q := by
        have := ph_wf (l1 :: l2 :: ls) hsort
        rw [hph] at this
        exact this
      have hwf1 : ∀ q ∈ x :: xs, lpWF q ∧ x.cur ≤ q.cur := by
        intro q hq
        exact ⟨hwf_ph q (hperm.mem_iff.mp hq), key_sorted_head_min hsinit q hq⟩
      have hN : (mpIter lpIter (e + 1)).Next ⟨p0 :: ptl, false, 0, none⟩ =
          (true, ⟨x :: xs, true, x.cur, none⟩) := by
        show mergedNext lpIter (e + 1) ⟨p0 :: ptl, false, 0, none⟩ =
          (true, ⟨x :: xs, true, x.cur, none⟩)
        simp only [mergedNext]
        rw [show ((p0 :: ptl : List ListPostings).isEmpty ||
          !((none : Option String) == none)) = false from rfl]
        rw [hinit]
        simp [lpIter, ListPostings.At]
      have hexp : expandP (mpIter lpIter (e + 1)) (e + 1) ⟨p0 :: ptl, false, 0, none⟩ =
          x.cur :: expandP (mpIter lpIter (e + 1)) e ⟨x :: xs, true, x.cur, none⟩ := by
        simp only [expandP, hN]
        rfl
      rw [hexp]
      have hS1 : ((x :: xs).map (fun q => (pAvail q).length)).sum =
          ((p0 :: ptl).map (fun q => (pAvail q).length)).sum :=
        (hperm.map _).sum_eq
      have hS2 : ((p0 :: ptl).map (fun q => (pAvail q).length)).sum ≤
          ((l1 :: l2 :: ls).map List.length).sum := by
        have := ph_sum (l1 :: l2 :: ls)
        rw [hph] at this
        exact this
      have hmN : ((x :: xs).map (fun q => (pAvail q).length)).sum ≤ e + 1 := by omega
      have hmE : ((x :: xs).map (fun q => (pAvail q).length)).sum < e := by omega
      rcases merged_expand (e + 1) e x.cur (x :: xs) hwf1 hsinit
        (Or.inr ⟨x, xs, rfl, rfl⟩) hmN hmE with ⟨hsorted', hmem'⟩
      have hunion : ∀ v, (∃ q ∈ x :: xs, v ∈ pAvail q) ↔ ∃ l ∈ l1 :: l2 :: ls, v ∈ l := by
        intro v
        have hstep : (∃ q ∈ x :: xs, v ∈ pAvail q) ↔ (∃ q ∈ p0 :: ptl, v ∈ pAvail q) :=
          ⟨fun ⟨q, hq, hv⟩ => ⟨q, hperm.mem_iff.mp hq, hv⟩,
           fun ⟨q, hq, hv⟩ => ⟨q, hperm.mem_iff.mpr hq, hv⟩⟩
        rw [hstep]
        have := ph_union (l1 :: l2 :: ls) v
        rw [hph] at this
        exact this
      have hmin1 : ∀ v, (∃ q ∈ x :: xs, v ∈ pAvail q) → x.cur ≤ v := by
        rintro v ⟨q, hq, hvq⟩
        exact le_trans (key_sorted_head_min hsinit q hq)
          (sorted_head_min (lpWF_pAvail_sorted (hwf1 q hq).1) hvq)
      constructor
      · refine List.sorted_cons.mpr ⟨?_, hsorted'⟩
        intro b hb
        exact ((hmem' b).mp hb).1
      · intro v
        rw [List.mem_cons, hmem' v]
        constructor
        · rintro (heq | ⟨hv, hq⟩)
          · rw [heq]
            exact (hunion x.cur).mp ⟨x, List.mem_cons_self .., List.mem_cons_self ..⟩
          · exact (hunion v).mp hq
        · intro hl
          have hq := (hunion v).mpr hl
          rcases eq_or_lt_of_le (hmin1 v hq) with heq | hlt
          · exact Or.inl heq.symm
          · exact Or.inr ⟨hlt, hq⟩
  · intro l fuel hfl
    show expandP lpIter fuel (newListPostings l) = l
    exact expandP_lp l fuel 0 hfl
  · rfl

theorem claim_C3_witness :
    (∀ l ∈ ([1, 3, 5] :: [2, 3, 4] :: ([] : List (List Nat))), l.Sorted (· < ·)) ∧
    (expandMergeOut 16 (Merge lpIter (([1, 3, 5] :: [2, 3, 4] ::
        ([] : List (List Nat))).map newListPostings))).Sorted (· < ·) ∧
    (3 ∈ expandMergeOut 16 (Merge lpIter (([1, 3, 5] :: [2, 3, 4] ::
        ([] : List (List Nat))).map newListPostings)) ↔
      ∃ l ∈ [1, 3, 5] :: [2, 3, 4] :: ([] : List (List Nat)), 3 ∈ l) :=
  ⟨by decide,
   (claim_C3.1 [1, 3, 5] [2, 3, 4] [] 16 (by decide) (by decide)).1,
   (claim_C3.1 [1, 3, 5] [2, 3, 4] [] 16 (by decide) (by decide)).2 3⟩

/-! ### Error propagation (claim C7) -/

theorem gather_error (e : String) (c : Nat) :
    ∀ (pre post : List FaultyPostings), (∀ p ∈ pre, p.list ≠ []) →
    newMergedGather fpIter (pre ++ ⟨[], some e, c⟩ :: post) = ([], some e) := by
  intro pre
  induction pre with
  | nil =>
    intro post _
    rfl
  | cons p ps ih =>
    intro post hpre
    rcases hl : p.list with _ | ⟨x, xs⟩
    · exact absurd hl (hpre p (List.mem_cons_self ..))
    · have hnx : fpIter.Next p = (true, ⟨xs, p.failErr, x⟩) := by
        show FaultyPostings.Next p = (true, ⟨xs, p.failErr, x⟩)
        simp [FaultyPostings.Next, hl]
      rw [List.cons_append]
      simp only [newMergedGather, hnx,
        ih post (fun q hq => hpre q (List.mem_cons_of_mem _ hq))]

theorem intersect_adv_false :
    ∀ (arr : List FaultyPostings) (cur : Nat), (∃ p ∈ arr, p.list = []) →
    (intersectAdvance fpIter arr cur).1 = false ∧
    ∃ p ∈ (intersectAdvance fpIter arr cur).2.1, p.list = [] := by
  intro arr
  induction arr with
  | nil =>
    rintro cur ⟨p, hp, _⟩
    exact absurd hp (List.not_mem_nil p)
  | cons q rest ih =>
    rintro cur ⟨p, hp, hpl⟩
    rcases hl : q.list with _ | ⟨x, xs⟩
    · have hnx : fpIter.Next q = (false, q) := by
        show FaultyPostings.Next q = (false, q)
        simp [FaultyPostings.Next, hl]
      have hstep : intersectAdvance fpIter (q :: rest) cur = (false, q :: rest, cur) := by
        simp only [intersectAdvance, hnx]
      rw [hstep]
      exact ⟨rfl, q, List.mem_cons_self .., hl⟩
    · have hnx : fpIter.Next q = (true, ⟨xs, q.failErr, x⟩) := by
        show FaultyPostings.Next q = (true, ⟨xs, q.failErr, x⟩)
        simp [FaultyPostings.Next, hl]
      have hprest : ∃ p ∈ rest, p.list = [] := by
        rcases List.mem_cons.mp hp with rfl | hp'
        · rw [hl] at hpl
          simp at hpl
        · exact ⟨p, hp', hpl⟩
      have hstep : intersectAdvance fpIter (q :: rest) cur =
          ((intersectAdvance fpIter rest
             (if fpIter.At ⟨xs, q.failErr, x⟩ > cur then fpIter.At ⟨xs, q.failErr, x⟩
              else cur)).1,
           (⟨xs, q.failErr, x⟩ : FaultyPostings) ::
             (intersectAdvance fpIter rest
               (if fpIter.At ⟨xs, q.failErr, x⟩ > cur then fpIter.At ⟨xs, q.failErr, x⟩
                else cur)).2.1,
           (intersectAdvance fpIter rest
             (if fpIter.At ⟨xs, q.failErr, x⟩ > cur then fpIter.At ⟨xs, q.failErr, x⟩
              else cur)).2.2) := by
        simp only [intersectAdvance, hnx]
      rw [hstep]
      rcases ih _ hprest with ⟨h1, p', hp', hpl'⟩
      exact ⟨h1, p', List.mem_cons_of_mem _ hp', hpl'⟩

theorem intersectErr_first :
    ∀ (pre : List FaultyPostings) (p : FaultyPostings) (post : List FaultyPostings)
      (e : String), (∀ q ∈ pre, q.failErr = none) → p.failErr = some e →
    intersectErr fpIter (pre ++ p :: post) = some e := by
  intro pre
  induction pre with
  | nil =>
    intro p post e _ hp
    rw [List.nil_append]
    simp only [intersectErr]
    rw [show fpIter.Err p = some e from hp]
  | cons q qs ih =>
    intro p post e hpre hp
    rw [List.cons_append]
    simp only [intersectErr]
    rw [show fpIter.Err q = none from hpre q (List.mem_cons_self ..)]
    exact ih p post e (fun r hr => hpre r (List.mem_cons_of_mem _ hr)) hp

/-- Claim C7 (amended): how the composite operators actually propagate input
errors.  A merged iterator whose error field is set always answers false to
`Next` and `Seek` and surfaces the error; the heap loop latches the error of an
input that exhausts with a non-nil error; an input failing its very first
`Next` with an error makes `newMergedPostings` return a heapless always-erroring
iterator; an intersection containing an exhausted input answers false to `Next`
(and keeps containing it), with `Err` returning the first non-nil input error
in argument order; a subtracted iterator whose `full` side fails first with an
error always answers false and surfaces it; but when only the `drop` side fails
with an error, `Next` still returns true and delivers `full`'s values while
`Err` reports the error (lines 503-510, 553-571, 586-606, 649-731). -/
theorem claim_C7 :
    (∀ (m : mergedPostings FaultyPostings) (e : String) (fuel id : Nat), m.err = some e →
      mergedNext fpIter fuel m = (false, m) ∧ mergedSeek fpIter fuel id m = (false, m) ∧
      mergedErr m = some e) ∧
    (∀ (rest : List FaultyPostings) (cur c : Nat) (e : String) (fuel : Nat),
      mergedNext fpIter (fuel + 1) ⟨⟨[], some e, c⟩ :: rest, true, cur, none⟩ =
        (false, ⟨rest, true, cur, some e⟩)) ∧
    (∀ (pre post : List FaultyPostings) (e : String) (c : Nat),
      (∀ p ∈ pre, p.list ≠ []) →
      newMergedPostings fpIter (pre ++ ⟨[], some e, c⟩ :: post) =
        some ⟨[], false, 0, some e⟩ ∧
      (∀ fuel, mergedNext fpIter fuel ⟨[], false, 0, some e⟩ =
        (false, ⟨[], false, 0, some e⟩)) ∧
      (∀ fuel id, mergedSeek fpIter fuel id ⟨[], false, 0, some e⟩ =
        (false, ⟨[], false, 0, some e⟩)) ∧
      mergedErr (⟨[], false, 0, some e⟩ : mergedPostings FaultyPostings) = some e) ∧
    (∀ (fuel : Nat) (it : intersectPostings FaultyPostings),
      (∃ p ∈ it.arr, p.list = []) →
      (intersectNext fpIter fuel it).1 = false ∧
      ∃ p ∈ (intersectNext fpIter fuel it).2.arr, p.list = []) ∧
    (∀ (pre post : List FaultyPostings) (p : FaultyPostings) (e : String),
      (∀ q ∈ pre, q.failErr = none) → p.failErr = some e →
      intersectErr fpIter (pre ++ p :: post) = some e) ∧
    (∀ (drop : FaultyPostings) (e : String) (c fuel : Nat),
      (removedNext fpIter fuel (newRemovedPostings ⟨[], some e, c⟩ drop)).1 = false ∧
      removedErr fpIter
        (removedNext fpIter fuel (newRemovedPostings ⟨[], some e, c⟩ drop)).2 = some e) ∧
    (∀ (x : Nat) (xs : List Nat) (e : String) (fuel : Nat),
      (removedNext fpIter fuel
        (newRemovedPostings ⟨x :: xs, none, 0⟩ ⟨[], some e, 0⟩)).1 = true ∧
      removedErr fpIter (removedNext fpIter fuel
        (newRemovedPostings ⟨x :: xs, none, 0⟩ ⟨[], some e, 0⟩)).2 = some e) := by
  refine ⟨?_, ?_, ?_, ?_, ?_, ?_, ?_⟩
  · intro m e fuel id hm
    refine ⟨?_, ?_, by simp [mergedErr, hm]⟩
    · simp [mergedNext, hm]
    · simp [mergedSeek, hm]
  · intro rest cur c e fuel
    rfl
  · intro pre post e c hpre
    refine ⟨?_, fun fuel => rfl, fun fuel id => rfl, rfl⟩
    simp only [newMergedPostings, gather_error e c pre post hpre]
  · intro fuel it hex
    rcases intersect_adv_false it.arr it.cur hex with ⟨h1, hprop⟩
    rcases hadv : intersectAdvance fpIter it.arr it.cur with ⟨b, o⟩
    rcases o with ⟨a2, c2⟩
    rw [hadv] at h1 hprop
    simp only at h1 hprop
    subst h1
    have hstep : intersectNext fpIter fuel it = (false, ⟨a2, c2⟩) := by
      simp only [intersectNext]
      rw [hadv]
    rw [hstep]
    exact ⟨rfl, hprop⟩
  · exact fun pre post p e h1 h2 => intersectErr_first pre p post e h1 h2
  · intro drop e c fuel
    cases fuel <;> exact ⟨rfl, rfl⟩
  · intro x xs e fuel
    cases fuel <;> cases xs <;> exact ⟨rfl, rfl⟩

theorem claim_C7_counterexample :
    (removedNext fpIter 4 (newRemovedPostings
      (⟨[1, 2], none, 0⟩ : FaultyPostings) ⟨[], some "e", 0⟩)).1 = true ∧
    removedErr fpIter (removedNext fpIter 4 (newRemovedPostings
      (⟨[1, 2], none, 0⟩ : FaultyPostings) ⟨[], some "e", 0⟩)).2 = some "e" :=
  ⟨rfl, rfl⟩

theorem claim_C7_witness :
    mergedNext fpIter 3 ⟨[⟨[1], none, 0⟩], true, 5, some "boom"⟩ =
      (false, ⟨[⟨[1], none, 0⟩], true, 5, some "boom"⟩) ∧
    newMergedPostings fpIter ([⟨[1], none, 0⟩] ++ ⟨[], some "e", 0⟩ :: []) =
      some ⟨[], false, 0, some "e"⟩ ∧
    (intersectNext fpIter 3 ⟨[⟨[], some "e", 0⟩], 0⟩).1 = false ∧
    intersectErr fpIter ([] ++ (⟨[], some "e", 0⟩ : FaultyPostings) :: []) = some "e" :=
  ⟨(claim_C7.1 ⟨[⟨[1], none, 0⟩], true, 5, some "boom"⟩ "boom" 3 0 rfl).1,
   (claim_C7.2.2.1 [⟨[1], none, 0⟩] [] "e" 0 (by simp)).1,
   (claim_C7.2.2.2.1 3 ⟨[⟨[], some "e", 0⟩], 0⟩
     ⟨⟨[], some "e", 0⟩, List.mem_cons_self .., rfl⟩).1,
   claim_C7.2.2.2.2.1 [] [] ⟨[], some "e", 0⟩ "e" (fun q hq => absurd hq (List.not_mem_nil q))
     rfl⟩
